import Mathlib

/-!
# Verification development for the myp2p peer-to-peer node

Shallow embedding of the wire codec (`client/parsePacket.go`,
`client/sendAndBuildPacket.go`), of the data-integrity check
(`client/crypto.go`), of the Merkle store (`clientStorage/merkle_store.go`),
of the Merkle builder (`clientStorage/merkle_builder.go`), of the install done
on the fetch path (`client/datum.go`), of the sliding window
(`client/sliding_window.go`), of the peers (`client/peer.go`), of the
transactions (`client/transaction.go`), of the handlers of replies
(`client/responseHandler.go`, `client/extension.go`), of the rebuilding of
files from the store (`clientStorage/filesys.go`), of the root histories
(`client/peer.go`, `UI/merkleActions.go`) and of the handlers of requests
(`client/requestHandler.go`, `client/datum.go`).

Conventions of the embedding.

* A Go byte is a natural number below 256, a `[]byte` is a list of them, and a
  Go `string` is its byte sequence.  A slice or a pointer that may be `nil`
  and whose nil-ness the program tests is an `Option`.
* `uint32`, `uint16`, `uint` are natural numbers reduced modulo `2^32`,
  `2^16`, `2^64` where the program computes with them; an `int` is an integer,
  wrapped to 64 bits where an operation of the program can overflow.
* A run-time panic (index or slice bound out of range) is the error
  `Fault.indexOutOfRange`, the panic of a nil pointer dereference is
  `Fault.nilDereference`, and a goroutine that locks a mutex it already holds
  blocks for ever, which is `Fault.deadlock`; recursive traversals take a fuel
  argument and report `Fault.outOfFuel` when it is exhausted.
* SHA-256, the ECDSA signer, AES-GCM, the address resolver, the clock and the
  file system are outside the repository: the hash, the signer, the
  decryption and the resolver are parameters, an instant is a number of
  nanoseconds passed as an argument, a file-system subtree is a value of type
  `FsNode`.  So are the verification of an ECDSA signature, the scalar
  multiplication of the key agreement, the encryption and the directory
  server that gives the key of a peer: they are parameters too, and a key is
  the sequence of its bytes.
* A slice expression with an explicit upper bound is checked against the
  capacity of the slice; where the program applies one to a slice of a
  received packet, the model is given what follows the slice in the packet.
* The datagrams written to the socket are a list, oldest first.
* The keys of `MerkleMap` and `CountMap` are `hex.EncodeToString(hash)`;
  hexadecimal encoding is injective, so the model keys the maps by the hash
  bytes themselves.
* The objects of type `Peer` live in a heap, a list; a `*Peer` is an index of
  it.  A Go map is an association list and a loop over a map goes over it in
  the order of the list.  Mutexes are not modelled beyond the deadlock above.
-/

namespace Myp2p

/-! ## Bytes, faults, Go maps -/

abbrev Bytes := List Nat

/-- Run-time failures of the embedded code. -/
inductive Fault where
  | indexOutOfRange
  | outOfFuel
  | nilDereference
  | deadlock
  deriving DecidableEq, Repr

/-- Indexing `b[i]` of Go: panics when `i` is not below `len(b)`. -/
def index (b : Bytes) (i : Nat) : Except Fault Nat :=
  match b.get? i with
  | some x => .ok x
  | none => .error .indexOutOfRange

/-- The slice `b[lo:hi]` of Go for bounds that the caller has checked. -/
def slice (b : Bytes) (lo hi : Nat) : Bytes :=
  (b.drop lo).take (hi - lo)

/-- A byte sequence is well formed when every element is a byte. -/
def IsBytes (b : Bytes) : Prop := ∀ x ∈ b, x < 256

instance (b : Bytes) : Decidable (IsBytes b) := by
  unfold IsBytes; infer_instance

/-! ## Wire codec: `client/parsePacket.go` -/

def OffsetID : Nat := 0
def OffsetType : Nat := 4
def OffsetLength : Nat := 5
def EndLength : Nat := 6
def OffsetBody : Nat := 7
def ExtensionField : Nat := 4
def SizeID : Nat := 4
def SizeType : Nat := 1
def SizeLength : Nat := 2
def SizeSignature : Nat := 64
def HeaderSize : Nat := OffsetBody

/-- Message types of `client/sendAndBuildPacket.go`. -/
def Ping : Nat := 0
def Hello : Nat := 1
def RootRequest : Nat := 2
def DatumRequest : Nat := 3
def NatTraversalRequest : Nat := 4
def NatTraversalRequest2 : Nat := 5
def Ok : Nat := 128
def Error : Nat := 129
def HelloReply : Nat := 130
def RootReply : Nat := 131
def Datum : Nat := 132
def NoDatum : Nat := 133

/-- The library call `binary.BigEndian.Uint32` on a 4-byte slice. -/
def bigEndianUint32 (b : Bytes) : Nat :=
  b.getD 0 0 * 2 ^ 24 + b.getD 1 0 * 2 ^ 16 + b.getD 2 0 * 2 ^ 8 + b.getD 3 0

/-- The library call `binary.Write(buf, binary.BigEndian, v)` for a `uint32`. -/
def putUint32 (v : Nat) : Bytes :=
  [v / 2 ^ 24 % 256, v / 2 ^ 16 % 256, v / 2 ^ 8 % 256, v % 256]

/-- The library call `binary.Write(buf, binary.BigEndian, v)` for a `uint16`. -/
def putUint16 (v : Nat) : Bytes :=
  [v / 2 ^ 8 % 256, v % 256]

/-- Source: `getID`. -/
def getID (pkt : Bytes) : Nat × Bool :=
  if pkt.length < HeaderSize then (0, false)
  else (bigEndianUint32 (slice pkt OffsetID (OffsetID + SizeID)), true)

/-- Source: `getType`. -/
def getType (pkt : Bytes) : Nat × Bool :=
  if pkt.length < OffsetLength then (0, false)
  else (pkt.getD OffsetType 0, true)

/-- The expression `int(pkt[OffsetLength])<<8 | int(pkt[EndLength])`,
evaluated where both indices are in range. -/
def declaredLen (pkt : Bytes) : Nat :=
  (pkt.getD OffsetLength 0 <<< 8) ||| pkt.getD EndLength 0

/-- Source: `getBody`; the nil body of a failure is the empty list. -/
def getBody (pkt : Bytes) : Bytes × Nat × Bool :=
  if pkt.length < HeaderSize then ([], 0, false)
  else
    let bodyLen := declaredLen pkt
    if pkt.length < HeaderSize + bodyLen then ([], 0, false)
    else (slice pkt OffsetBody (OffsetBody + bodyLen), bodyLen, true)

/-- Source: `getSigned`; `none` is the nil slice. -/
def getSigned (pkt : Bytes) : Option Bytes × Bool :=
  if pkt.length < HeaderSize then (none, false)
  else
    let bodyLen := declaredLen pkt
    if pkt.length < HeaderSize + bodyLen then (none, false)
    else (some (slice pkt 0 (OffsetBody + bodyLen)), true)

/-- Source: `getSig`.  The two length bytes are read without a guard, so the
call panics on a packet of fewer than 7 bytes. -/
def getSig (pkt : Bytes) : Except Fault (Option Bytes × Bool) := do
  let hi ← index pkt OffsetLength
  let lo ← index pkt EndLength
  let bodyLen := (hi <<< 8) ||| lo
  if pkt.length < HeaderSize + bodyLen + SizeSignature then
    pure (none, false)
  else
    pure (some (slice pkt (OffsetBody + bodyLen) (OffsetBody + bodyLen + SizeSignature)), true)

/-- The seven results of `parseRecvMessage`. -/
structure Parsed where
  id : Nat
  typ : Nat
  bodyLen : Nat
  body : Bytes
  signed : Option Bytes
  sig : Option Bytes
  ok : Bool
  deriving DecidableEq, Repr

/-- The failure result `0, 0, 0, nil, nil, nil, false`. -/
def Parsed.failure : Parsed :=
  { id := 0, typ := 0, bodyLen := 0, body := [], signed := none, sig := none, ok := false }

/-- Source: `parseRecvMessage`. -/
def parseRecvMessage (pkt : Bytes) : Except Fault Parsed :=
  let (id, ok) := getID pkt
  if !ok then .ok Parsed.failure
  else
    let (typ, ok) := getType pkt
    if !ok then .ok Parsed.failure
    else
      let (body, bodyLen, ok) := getBody pkt
      if !ok then .ok Parsed.failure
      else
        let (signed, ok1) := getSigned pkt
        match getSig pkt with
        | .error e => .error e
        | .ok (sig, ok2) =>
          if !ok1 || !ok2 then
            .ok { id := id, typ := typ, bodyLen := bodyLen, body := body,
                  signed := none, sig := none, ok := true }
          else
            .ok { id := id, typ := typ, bodyLen := bodyLen, body := body,
                  signed := signed, sig := sig, ok := true }

/-! ## Wire codec: `BuildMessage` of `client/sendAndBuildPacket.go` -/

/-- Source: `BuildMessage`.  `SignMessage` is the signer of `client/crypto.go`
applied to the private key: it hashes the message and signs the digest with
randomised ECDSA, so it is a parameter returning either the 64 signature bytes
or an error. -/
def BuildMessage (SignMessage : Bytes → Except String Bytes)
    (id : Nat) (types : Nat) (body : Bytes) (sign : Bool) : Except String Bytes :=
  let buf := putUint32 id ++ [types] ++ putUint16 (body.length % 2 ^ 16) ++ body
  if sign then
    match SignMessage buf with
    | .error err => .error err
    | .ok sig => .ok (buf ++ sig)
  else .ok buf

/-- The message types whose handlers are given the signed bytes and the
signature (`RequestHandler`, `ResponseHandler`): Hello, NatTraversalRequest,
NatTraversalRequest2, HelloReply, RootReply and NoDatum. -/
def requiresSignature (typ : Nat) : Bool :=
  typ == Hello || typ == NatTraversalRequest || typ == NatTraversalRequest2 ||
    typ == HelloReply || typ == RootReply || typ == NoDatum

/-! ## Data integrity: `VerifyDataIntegrity` of `client/crypto.go` -/

def HashSize : Nat := 32

/-- The library call `bytes.Equal`. -/
def bytesEqual (a b : Bytes) : Bool := decide (a = b)

/-- Source: `VerifyDataIntegrity`; `Sha` is `clientStorage.Sha`, SHA-256. -/
def VerifyDataIntegrity (Sha : Bytes → Bytes) (body requestHash : Bytes) : Bool :=
  if body.length < HashSize then false
  else
    let receivedHash := slice body 0 HashSize
    let data := slice body HashSize body.length
    let computedHash := Sha data
    if !bytesEqual requestHash computedHash then false
    else if !bytesEqual requestHash receivedHash then false
    else true

/-! ## Go maps keyed by hash -/

/-- A Go `map[string]V` whose keys are hashes: an association list in which
the first binding of a key is its value. -/
abbrev GoMap (β : Type) := List (Bytes × β)

/-- The lookup `v, exists := m[k]`. -/
def mapGet {β : Type} : GoMap β → Bytes → Option β
  | [], _ => none
  | (k1, v) :: m, k => if k1 = k then some v else mapGet m k

/-- The statement `delete(m, k)`. -/
def mapDelete {β : Type} : GoMap β → Bytes → GoMap β
  | [], _ => []
  | (k1, v) :: m, k => if k1 = k then mapDelete m k else (k1, v) :: mapDelete m k

/-- The assignment `m[k] = v`. -/
def mapSet {β : Type} (m : GoMap β) (k : Bytes) (v : β) : GoMap β :=
  (k, v) :: mapDelete m k

/-- The keys of a map. -/
def mapKeys {β : Type} (m : GoMap β) : List Bytes := m.map Prod.fst

/-! ## Merkle store: `clientStorage/merkle_builder.go`, `clientStorage/merkle_store.go` -/

def Chunk : Nat := 0
def Directory : Nat := 1
def Big : Nat := 2
def BigDirectory : Nat := 3
def NameSize : Nat := 32
def DirEntrySize : Nat := NameSize + HashSize
def MaxDirEntries : Nat := 16
def MaxBigEntries : Nat := 32
def IdSize : Nat := 1
def ChunkSize : Nat := 1024

/-- The number of values of the Go type `uint` (64-bit platform). -/
def uintSize : Nat := 2 ^ 64

/-- The two global maps `MerkleMap` (hash to node) and `CountMap` (hash to
reference count). -/
structure MerkleState where
  MerkleMap : GoMap Bytes
  CountMap : GoMap Nat
  deriving DecidableEq, Repr

/-- The initial value of the two globals: `map[string][]byte{}` and
`map[string]uint{}`. -/
def MerkleState.empty : MerkleState := { MerkleMap := [], CountMap := [] }

/-- The read `CountMap[key]`: zero for an absent key. -/
def countOf (c : GoMap Nat) (key : Bytes) : Nat := (mapGet c key).getD 0

/-- Source: `FillMap` (the debug print is off: `debugMerkle = false`). -/
def FillMap (Sha : Bytes → Bytes) (node : Bytes) (s : MerkleState) : MerkleState :=
  let hash := Sha node
  let key := hash
  match mapGet s.MerkleMap key with
  | some _ =>
    { s with CountMap := mapSet s.CountMap key ((countOf s.CountMap key + 1) % uintSize) }
  | none =>
    { MerkleMap := mapSet s.MerkleMap key node, CountMap := mapSet s.CountMap key 1 }

/-- Source: `Typedata`; `node[0]` panics on an empty node. -/
def Typedata (node : Bytes) : Except Fault Nat :=
  match index node 0 with
  | .error e => .error e
  | .ok t =>
    if t = Chunk then .ok Chunk
    else if t = Directory then .ok Directory
    else if t = Big then .ok Big
    else if t = BigDirectory then .ok BigDirectory
    else .ok 255

/-- The child hashes read by the `Directory` loops of `verifyNode`,
`deleteNode` and `HandlefileDataWindow`:
`node[IdSize+i*DirEntrySize+NameSize : IdSize+i*DirEntrySize+DirEntrySize]`
for `i` below `(len(node) - IdSize) / DirEntrySize`. -/
def dirChildHashes (node : Bytes) : List Bytes :=
  (List.range ((node.length - IdSize) / DirEntrySize)).map fun i =>
    slice node (IdSize + i * DirEntrySize + NameSize) (IdSize + i * DirEntrySize + DirEntrySize)

/-- The child hashes read by the `Big, BigDirectory` loops:
`node[IdSize+i*HashSize : IdSize+i*HashSize+HashSize]` for `i` below
`(len(node) - IdSize) / HashSize`. -/
def bigChildHashes (node : Bytes) : List Bytes :=
  (List.range ((node.length - IdSize) / HashSize)).map fun i =>
    slice node (IdSize + i * HashSize) (IdSize + i * HashSize + HashSize)

/-- The loop `for ... { if !verifyNode(childHash, visited) { return false } }
return true` over the child hashes, `visit` being the recursive call. -/
def verifyChildren (visit : Bytes → List Bytes → Except Fault (Bool × List Bytes)) :
    List Bytes → List Bytes → Except Fault (Bool × List Bytes)
  | [], visited => .ok (true, visited)
  | childHash :: rest, visited =>
    match visit childHash visited with
    | .error e => .error e
    | .ok (false, visited1) => .ok (false, visited1)
    | .ok (true, visited1) => verifyChildren visit rest visited1

/-- Source: `verifyNode`.  The `visited` map is the list of the keys set to
true; it is returned because the Go map is shared by all the calls. -/
def verifyNode (MerkleMap : GoMap Bytes) :
    Nat → Bytes → List Bytes → Except Fault (Bool × List Bytes)
  | 0, _, _ => .error .outOfFuel
  | fuel + 1, hash, visited =>
    let key := hash
    if key ∈ visited then .ok (true, visited)
    else
      let visited := key :: visited
      match mapGet MerkleMap key with
      | none => .ok (false, visited)
      | some node =>
        if node.length = 0 then .ok (true, visited)
        else
          let tag := node.getD 0 0
          if tag = Chunk then .ok (true, visited)
          else if tag = Directory then
            verifyChildren (verifyNode MerkleMap fuel) (dirChildHashes node) visited
          else if tag = Big ∨ tag = BigDirectory then
            verifyChildren (verifyNode MerkleMap fuel) (bigChildHashes node) visited
          else .ok (false, visited)

/-- Source: `VerifyMerkle`.  Every call that goes below a node marks a key of
the store that was not yet visited, so a fuel of one more than the number of
entries is never exhausted (`VerifyMerkle_total`). -/
def VerifyMerkle (MerkleMap : GoMap Bytes) (rootHash : Bytes) : Except Fault Bool :=
  match verifyNode MerkleMap (MerkleMap.length + 1) rootHash [] with
  | .error e => .error e
  | .ok (ok, _) => .ok ok

/-- The loop `for ... { deleteNode(childHash, visited) }` over the child
hashes, `visit` being the recursive call. -/
def deleteChildren
    (visit : Bytes → MerkleState → List Bytes → Except Fault (MerkleState × List Bytes)) :
    List Bytes → MerkleState → List Bytes → Except Fault (MerkleState × List Bytes)
  | [], s, visited => .ok (s, visited)
  | childHash :: rest, s, visited =>
    match visit childHash s visited with
    | .error e => .error e
    | .ok (s1, visited1) => deleteChildren visit rest s1 visited1

/-- Source: `deleteNode`.  `CountMap[key]--` is the decrement of a `uint`: it
wraps from 0 to `2^64 - 1`.  `switch node[0]` panics on an empty node. -/
def deleteNode :
    Nat → Bytes → MerkleState → List Bytes → Except Fault (MerkleState × List Bytes)
  | 0, _, _, _ => .error .outOfFuel
  | fuel + 1, hash, s, visited =>
    let key := hash
    if key ∈ visited then .ok (s, visited)
    else
      let visited := key :: visited
      match mapGet s.MerkleMap key with
      | none => .ok (s, visited)
      | some node =>
        let count := (countOf s.CountMap key + uintSize - 1) % uintSize
        let s1 : MerkleState := { s with CountMap := mapSet s.CountMap key count }
        if count > 0 then .ok (s1, visited)
        else
          match index node 0 with
          | .error e => .error e
          | .ok tag =>
            let walked :=
              if tag = Directory then
                deleteChildren (deleteNode fuel) (dirChildHashes node) s1 visited
              else if tag = Big ∨ tag = BigDirectory then
                deleteChildren (deleteNode fuel) (bigChildHashes node) s1 visited
              else .ok (s1, visited)
            match walked with
            | .error e => .error e
            | .ok (s2, visited2) =>
              .ok ({ MerkleMap := mapDelete s2.MerkleMap key,
                     CountMap := mapDelete s2.CountMap key }, visited2)

/-- Source: `DeleteMerkleTree`.  The fuel of one more than the number of
entries is never exhausted (`DeleteMerkleTree_total`). -/
def DeleteMerkleTree (rootHash : Bytes) (s : MerkleState) : Except Fault MerkleState :=
  match deleteNode (s.MerkleMap.length + 1) rootHash s [] with
  | .error e => .error e
  | .ok (s1, _) => .ok s1

/-! ## Merkle builder: `clientStorage/merkle_builder.go` -/

/-- A file-system subtree as `os.Stat`, `os.ReadDir` and `os.ReadFile` return
it: a regular file with its bytes, or a directory with its entries in listing
order, each with the bytes of its name.  The errors of these calls are not
modelled. -/
inductive FsNode where
  | file (data : Bytes)
  | dir (entries : List (Bytes × FsNode))

/-- Source: `padTo32`: `copy` into 32 zero bytes. -/
def padTo32 (input : Bytes) : Bytes :=
  input.take NameSize ++ List.replicate (NameSize - input.length) 0

/-- The slices `xs[i:end]` visited by the loops
`for i := 0; i < len(xs); i += n { end := i + n; if end > len(xs) { end = len(xs) } ... }`
from index `i` on; `fuel` bounds the number of rounds. -/
def strideLoop {α : Type} (xs : List α) (n : Nat) : Nat → Nat → List (List α)
  | 0, _ => []
  | fuel + 1, i =>
    if i < xs.length then
      let e := if i + n > xs.length then xs.length else i + n
      (xs.drop i).take (e - i) :: strideLoop xs n fuel (i + n)
    else []

/-- The slices of the stride loops; `len(xs)` rounds are enough for a positive
stride. -/
def strides {α : Type} (xs : List α) (n : Nat) : List (List α) :=
  strideLoop xs n xs.length 0

/-- Source: `SplitIntoChunks`. -/
def SplitIntoChunks (data : Bytes) : List Bytes := strides data ChunkSize

/-- Source: `HashChunk`. -/
def HashChunk (data : Bytes) : Bytes := Chunk :: data

/-- Source: `DirectoryEntry`; the field `Hash` holds the child node. -/
structure DirectoryEntry where
  Name : Bytes
  Hash : Bytes
  deriving DecidableEq, Repr

/-- Source: `HashDirectory`. -/
def HashDirectory (Sha : Bytes → Bytes) (entries : List DirectoryEntry) : Bytes :=
  entries.foldl (fun node e => node ++ padTo32 e.Name ++ Sha e.Hash) [Directory]

/-- Source: `HashBig`, `HashBigDirectory` and the inner loop of `mergeNodes`:
the tag followed by the hash of each child. -/
def hashChildren (Sha : Bytes → Bytes) (nodeType : Nat) (hashes : List Bytes) : Bytes :=
  hashes.foldl (fun node h => node ++ Sha h) [nodeType]

/-- Source: `mergeNodes`; returns `next` and the store after the `FillMap`
calls. -/
def mergeNodes (Sha : Bytes → Bytes) (children : List Bytes) (nodeType : Nat)
    (s : MerkleState) : List Bytes × MerkleState :=
  (strides children MaxBigEntries).foldl
    (fun (acc : List Bytes × MerkleState) group =>
      let node := hashChildren Sha nodeType group
      (acc.1 ++ [node], FillMap Sha node acc.2))
    ([], s)

/-- Source: `buildBigNodes`. -/
def buildBigNodes (Sha : Bytes → Bytes) (children : List Bytes) (s : MerkleState) :
    List Bytes × MerkleState :=
  mergeNodes Sha children Big s

/-- Source: `buildBigDirectoryNodes`. -/
def buildBigDirectoryNodes (Sha : Bytes → Bytes) (children : List Bytes) (s : MerkleState) :
    List Bytes × MerkleState :=
  mergeNodes Sha children BigDirectory s

/-- The loops `for len(children) > 1 { children = mergeNodes(children, nodeType) }`
of `BuildMerkleNode` and `buildDirectoryNode`, with a bound on the rounds. -/
def mergeUntilOne (Sha : Bytes → Bytes) (nodeType : Nat) :
    Nat → List Bytes → MerkleState → Except Fault (List Bytes × MerkleState)
  | 0, children, s =>
    if children.length > 1 then .error .outOfFuel else .ok (children, s)
  | fuel + 1, children, s =>
    if children.length > 1 then
      let r := mergeNodes Sha children nodeType s
      mergeUntilOne Sha nodeType fuel r.1 r.2
    else .ok (children, s)

/-- The expression `children[0]` on a list of nodes. -/
def firstNode (children : List Bytes) : Except Fault Bytes :=
  match children with
  | [] => .error .indexOutOfRange
  | node :: _ => .ok node

/-- Source: `buildDirectoryNode`; `names` are the `e.Name()` of the entries. -/
def buildDirectoryNode (Sha : Bytes → Bytes) (names : List Bytes) (children : List Bytes)
    (s : MerkleState) : Except Fault (Bytes × MerkleState) :=
  let dirEntries : List DirectoryEntry :=
    List.zipWith (fun name child => { Name := name, Hash := child }) names children
  if dirEntries.length ≤ MaxDirEntries then
    let node := HashDirectory Sha dirEntries
    .ok (node, FillMap Sha node s)
  else
    let r := (strides dirEntries MaxDirEntries).foldl
      (fun (acc : List Bytes × MerkleState) group =>
        let subNode := HashDirectory Sha group
        (acc.1 ++ [subNode], FillMap Sha subNode acc.2))
      ([], s)
    match mergeUntilOne Sha BigDirectory r.1.length r.1 r.2 with
    | .error e => .error e
    | .ok (chunkHashes, s1) =>
      match firstNode chunkHashes with
      | .error e => .error e
      | .ok node => .ok (node, s1)

/-- The regular-file branch of `BuildMerkleNode`. -/
def buildFileNode (Sha : Bytes → Bytes) (data : Bytes) (s : MerkleState) :
    Except Fault (Bytes × MerkleState) :=
  let chunks := SplitIntoChunks data
  let r := chunks.foldl
    (fun (acc : List Bytes × MerkleState) c =>
      let chunkNode := HashChunk c
      (acc.1 ++ [chunkNode], FillMap Sha chunkNode acc.2))
    ([], s)
  match mergeUntilOne Sha Big r.1.length r.1 r.2 with
  | .error e => .error e
  | .ok (children, s1) =>
    match firstNode children with
    | .error e => .error e
    | .ok node => .ok (node, FillMap Sha node s1)

mutual
/-- Source: `BuildMerkleNode`. -/
def BuildMerkleNode (Sha : Bytes → Bytes) :
    FsNode → MerkleState → Except Fault (Bytes × MerkleState)
  | .dir entries, s =>
    match buildChildNodes Sha entries s with
    | .error e => .error e
    | .ok (children, s1) => buildDirectoryNode Sha (entries.map Prod.fst) children s1
  | .file data, s => buildFileNode Sha data s
/-- The loop of `BuildMerkleNode` over the entries of a directory. -/
def buildChildNodes (Sha : Bytes → Bytes) :
    List (Bytes × FsNode) → MerkleState → Except Fault (List Bytes × MerkleState)
  | [], s => .ok ([], s)
  | (_, child) :: rest, s =>
    match BuildMerkleNode Sha child s with
    | .error e => .error e
    | .ok (childNode, s1) =>
      match buildChildNodes Sha rest s1 with
      | .error e => .error e
      | .ok (children, s2) => .ok (childNode :: children, s2)
end

/-! ## Install on the fetch path: `HandlefileDataWindow` of `client/datum.go` -/

/-- The address `*net.UDPAddr` of a peer. -/
structure UDPAddr where
  IP : Bytes
  Port : Nat
  deriving DecidableEq, Repr

/-- Source: `DatumJob`. -/
structure DatumJob where
  Hash : Bytes
  Addr : UDPAddr
  deriving DecidableEq, Repr

/-- Source: `HandlefileDataWindow`.  The channel `DatumQueue` is the list of
the jobs sent to it, oldest first.  `body[HashSize:]` panics on a body of
fewer than 32 bytes and `Typedata` panics on an empty node. -/
def HandlefileDataWindow (Sha : Bytes → Bytes) (body : Bytes) (addr : UDPAddr)
    (s : MerkleState) (DatumQueue : List DatumJob) :
    Except Fault (MerkleState × List DatumJob) :=
  if body.length < HashSize then .error .indexOutOfRange
  else
    let node := slice body HashSize body.length
    match Typedata node with
    | .error e => .error e
    | .ok nodeType =>
      let s1 := FillMap Sha node s
      if nodeType = Chunk then .ok (s1, DatumQueue)
      else if nodeType = Directory then
        .ok (s1, DatumQueue ++ (dirChildHashes node).map fun hash =>
          { Hash := hash, Addr := addr })
      else if nodeType = Big ∨ nodeType = BigDirectory then
        .ok (s1, DatumQueue ++ (bigChildHashes node).map fun hash =>
          { Hash := hash, Addr := addr })
      else .ok (s1, DatumQueue)

/-! ## Hello frames: `BuildHello`, `BuildHelloDH` of `client/sendAndBuildPacket.go` -/

/-- The built-in `copy(dst[off:], src)`: it overwrites as many bytes as both
slices hold and leaves the rest of `dst` as it was. -/
def copyAt (dst : Bytes) (off : Nat) (src : Bytes) : Bytes :=
  let n := min (dst.length - off) src.length
  dst.take off ++ src.take n ++ dst.drop (off + n)

/-- Source: `BuildHello`.  `make` yields zero bytes, the four index
assignments write the extensions, `copy` writes the name. -/
def BuildHello (SignMessage : Bytes → Except String Bytes)
    (id extensions : Nat) (name : Bytes) (reply : Nat) : Except String Bytes :=
  let body := List.replicate (ExtensionField + name.length) 0
  let body := body.set 0 (extensions / 2 ^ 24 % 256)
  let body := body.set 1 (extensions / 2 ^ 16 % 256)
  let body := body.set 2 (extensions / 2 ^ 8 % 256)
  let body := body.set 3 (extensions % 256)
  let body := copyAt body ExtensionField name
  BuildMessage SignMessage id reply body true

/-- Source: `BuildHelloDH`.  The buffer is made with room for the key, and the
key is then appended to it. -/
def BuildHelloDH (SignMessage : Bytes → Except String Bytes)
    (id extensions : Nat) (name dh_pub : Bytes) (reply : Nat) : Except String Bytes :=
  let body := List.replicate (ExtensionField + name.length + dh_pub.length) 0
  let body := body.set 0 (extensions / 2 ^ 24 % 256)
  let body := body.set 1 (extensions / 2 ^ 16 % 256)
  let body := body.set 2 (extensions / 2 ^ 8 % 256)
  let body := body.set 3 (extensions % 256)
  let body := copyAt body ExtensionField name
  let body := body ++ dh_pub
  BuildMessage SignMessage id reply body true

/-! ## Sliding window: `client/sliding_window.go` -/

/-- Wrap-around of Go's 64-bit `int`. -/
def wrapInt (x : Int) : Int := (x + 2 ^ 63) % 2 ^ 64 - 2 ^ 63

/-- Source: `SlidingWindow` (the mutex is not modelled). -/
structure SlidingWindow where
  Size : Int
  Min : Int
  Max : Int
  InFlight : Int
  deriving DecidableEq, Repr

/-- Source: `NewSlidingWindow`. -/
def NewSlidingWindow (min initial max : Int) : SlidingWindow :=
  let initial := if initial < min then min else initial
  { Size := initial, Min := min, Max := max, InFlight := 0 }

/-- Source: `SlidingWindow.CanSend`. -/
def SlidingWindow.CanSend (w : SlidingWindow) : Bool :=
  decide (w.InFlight < w.Size)

/-- Source: `SlidingWindow.OnSend`. -/
def SlidingWindow.OnSend (w : SlidingWindow) : SlidingWindow :=
  let w := { w with InFlight := wrapInt (w.InFlight + 1) }
  if w.InFlight > w.Size then { w with InFlight := w.Size } else w

/-- Source: `SlidingWindow.OnSuccess`; the round-trip time argument is only
printed.  The decrement and the increment are guarded, so they do not wrap. -/
def SlidingWindow.OnSuccess (w : SlidingWindow) : SlidingWindow :=
  let w := if w.InFlight > 0 then { w with InFlight := w.InFlight - 1 } else w
  if w.Size < w.Max then { w with Size := w.Size + 1 } else w

/-- Source: `SlidingWindow.OnTimeout`; `/=` is Go's division truncated toward
zero. -/
def SlidingWindow.OnTimeout (w : SlidingWindow) : SlidingWindow :=
  let w := if w.InFlight > 0 then { w with InFlight := w.InFlight - 1 } else w
  if w.Size > w.Min then
    let w := { w with Size := Int.tdiv w.Size 2 }
    if w.Size < w.Min then { w with Size := w.Min } else w
  else w

/-! ## Peers: `client/peer.go`, `client/events.go` -/

/-- Source: `PeerState`. -/
inductive PeerState where
  | PeerDiscovered
  | PeerWaitHelloNat
  | PeerAssociated
  | PeerExpired
  deriving DecidableEq, Repr

/-- Source: `Peer` (the mutex is not modelled).  A Go `string` is its byte
sequence; an instant `time.Time` is a number of nanoseconds, 0 being the zero
instant; the keys are byte sequences; a nil pointer or nil slice whose nil-ness
the program tests is `none`. -/
structure Peer where
  Name : Bytes
  Addresses : List Bytes
  AddrIndex : Int
  ActiveAddr : Option UDPAddr
  PublicKey : Option Bytes
  LastSeen : Int
  Root : Option Bytes
  Listroots : List Bytes
  SharedKey : Option Bytes
  Window : SlidingWindow
  MerkleDownloadStart : Int
  MerkleDone : Bool
  RootChanged : Bool
  State : PeerState
  deriving DecidableEq, Repr

/-- Source: `PeerEventType`. -/
inductive PeerEventType where
  | EventConnected
  | EventConnectionFailed
  | EventNewRoot
  | EventMerkleDownloadComplete
  | EventNoDatum
  | EventNatTraversal2Received
  | EventDisconnected
  | EventMerkleDownloadLocal
  deriving DecidableEq, Repr

/-- One call `OnPeerEvent(peer, event, details)`: the peer it is about, as a
pointer, and the event; the text of the details is not modelled. -/
structure PeerEvent where
  Peer : Nat
  Event : PeerEventType
  deriving DecidableEq, Repr

/-- The prefix of an IPv4 address in IPv6 form (library `net`). -/
def v4InV6Prefix : Bytes := [0, 0, 0, 0, 0, 0, 0, 0, 0, 0, 255, 255]

/-- The library call `ip.To4()`; `none` is nil. -/
def ipTo4 (ip : Bytes) : Option Bytes :=
  if ip.length = 4 then some ip
  else if ip.length = 16 ∧ ip.take 12 = v4InV6Prefix then some (ip.drop 12)
  else none

/-- The library call `ip.To16()`; `none` is nil. -/
def ipTo16 (ip : Bytes) : Option Bytes :=
  if ip.length = 4 then some (v4InV6Prefix ++ ip)
  else if ip.length = 16 then some ip
  else none

/-- The library call `ip.Equal(x)`: equal bytes, or an IPv4 address and the
same address in IPv6 form. -/
def ipEqual (ip x : Bytes) : Bool :=
  if ip.length = x.length then bytesEqual ip x
  else if ip.length = 4 ∧ x.length = 16 then
    bytesEqual (x.take 12) v4InV6Prefix && bytesEqual ip (x.drop 12)
  else if ip.length = 16 ∧ x.length = 4 then
    bytesEqual (ip.take 12) v4InV6Prefix && bytesEqual (ip.drop 12) x
  else false

/-- Source: `normalizeIP`; the nil address is the empty list and the nil
result is `none`. -/
def normalizeIP (ip : Bytes) : Option Bytes :=
  if ip = [] then none
  else
    match ipTo4 ip with
    | some v4 => some v4
    | none => ipTo16 ip

/-- Source: `sameUDPAddr`. -/
def sameUDPAddr (a b : Option UDPAddr) : Bool :=
  match a, b with
  | some a, some b =>
    match normalizeIP a.IP, normalizeIP b.IP with
    | some aIP, some bIP => ipEqual aIP bIP && decide (a.Port = b.Port)
    | _, _ => false
  | _, _ => false

/-- Source: `FindPeerByAddr`.  The objects of type `Peer` live in a heap, a
`*Peer` is an index of the heap, `Peers` maps a name to such a pointer; the
two loops go over the map in the order of the list.  `resolve` is the library
call `net.ResolveUDPAddr("udp", s)`, `none` being its error. -/
def FindPeerByAddr (resolve : Bytes → Option UDPAddr) (PeerHeap : List Peer)
    (Peers : GoMap Nat) (addr : Option UDPAddr) : Option Nat :=
  match addr with
  | none => none
  | some _ =>
    let byActive := Peers.find? fun e =>
      match PeerHeap.get? e.2 with
      | some p => p.ActiveAddr.isSome && sameUDPAddr p.ActiveAddr addr
      | none => false
    match byActive with
    | some e => some e.2
    | none =>
      let byList := Peers.find? fun e =>
        match PeerHeap.get? e.2 with
        | some p => p.Addresses.any fun s =>
            match resolve s with
            | none => false
            | some udpAddr => sameUDPAddr (some udpAddr) addr
        | none => false
      match byList with
      | some e => some e.2
      | none => none

/-- Source: `Peer.NextAddress`; the results are the peer after the call, the
address and the flag.  A negative cursor makes `p.Addresses[p.AddrIndex]`
panic.  On an address that does not resolve the method calls itself while it
still holds `p.Mupeer`, which it locks on entry: the inner call blocks for
ever. -/
def Peer.NextAddress (resolve : Bytes → Option UDPAddr) (p : Peer) :
    Except Fault (Peer × Option UDPAddr × Bool) :=
  if p.Addresses.length = 0 then .ok (p, none, false)
  else if p.AddrIndex ≥ p.Addresses.length then .ok ({ p with AddrIndex := 0 }, none, false)
  else if p.AddrIndex < 0 then .error .indexOutOfRange
  else
    match p.Addresses.get? p.AddrIndex.toNat with
    | none => .error .indexOutOfRange
    | some addrString =>
      match resolve addrString with
      | none => .error .deadlock
      | some udpAddr =>
        .ok ({ p with ActiveAddr := some udpAddr, AddrIndex := p.AddrIndex + 1 },
          some udpAddr, true)

/-! ## Transactions: `client/transaction.go` -/

/-- Source: `Retries`, the package variable; nothing assigns to it. -/
def Retries : Int := 4

/-- The duration `time.Second`, in nanoseconds. -/
def Second : Int := 1000000000

/-- Source: `TxState`. -/
inductive TxState where
  | TxPending
  | TxResend
  | TxChangeAddrHello
  | TxChangeAddrNat
  | TxDone
  deriving DecidableEq, Repr

/-- Source: `Transaction`.  `Peer` is a pointer into the heap of peers, `none`
being nil; `SentAt` is an instant and `Timeout` a duration, in nanoseconds. -/
structure Transaction where
  Id : Nat
  Peer : Option Nat
  Addr : Option UDPAddr
  MsgType : Nat
  SentAt : Int
  Retries : Int
  Timeout : Int
  Msg : Bytes
  State : TxState
  DhPriv : Option Bytes
  deriving DecidableEq, Repr

/-- The map `Transactions`, from an id to a transaction. -/
abbrev TxTable := List (Nat × Transaction)

/-- The lookup `Transactions[id]`. -/
def txGet (T : TxTable) (id : Nat) : Option Transaction :=
  match T.find? (fun e => e.1 == id) with
  | some e => some e.2
  | none => none

/-- The statement `delete(Transactions, id)`. -/
def txDelete (T : TxTable) (id : Nat) : TxTable :=
  T.filter (fun e => !(e.1 == id))

/-- The assignment `Transactions[id] = tx`. -/
def txSet (T : TxTable) (id : Nat) (tx : Transaction) : TxTable :=
  (id, tx) :: txDelete T id

/-- Source: `addTransaction`. -/
def addTransaction (tx : Transaction) (T : TxTable) : TxTable :=
  txSet T tx.Id tx

/-- Source: `CreateTransaction`; `now` is the value of `time.Now()`.  The
literal in `SendHello` differs only by the field `DhPriv`. -/
def CreateTransaction (now : Int) (id : Nat) (p : Option Nat) (addr : Option UDPAddr)
    (msgType : Nat) (msg : Bytes) (retries : Int) (T : TxTable) : Transaction × TxTable :=
  let tx : Transaction :=
    { Id := id, Peer := p, Addr := addr, MsgType := msgType, SentAt := now,
      Timeout := 1 * Second, Retries := retries, Msg := msg, State := .TxPending,
      DhPriv := none }
  (tx, addTransaction tx T)

/-- Source: `resolveTransaction`. -/
def resolveTransaction (id : Nat) (T : TxTable) : Option Transaction × TxTable :=
  match txGet T id with
  | some tx =>
    let tx := { tx with State := .TxDone }
    (some tx, T.map fun e => if e.1 == id then (e.1, { e.2 with State := .TxDone }) else e)
  | none => (none, T)

/-- The library call `t.Sub(u)`: the difference, kept within the range of a
`time.Duration`. -/
def timeSub (t u : Int) : Int :=
  max (-(2 ^ 63)) (min (2 ^ 63 - 1) (t - u))

/-- The statement `tx.Peer.Window.OnTimeout()` on the heap of peers. -/
def windowTimeout (PeerHeap : List Peer) (p : Nat) : Except Fault (List Peer) :=
  match PeerHeap.get? p with
  | none => .error .nilDereference
  | some peer => .ok (PeerHeap.set p { peer with Window := peer.Window.OnTimeout })

/-- The test `tx.Peer.State == PeerAssociated`, which dereferences `tx.Peer`. -/
def peerAssociated (PeerHeap : List Peer) (p : Option Nat) : Except Fault Bool :=
  match p with
  | none => .error .nilDereference
  | some p =>
    match PeerHeap.get? p with
    | none => .error .nilDereference
    | some peer => .ok (decide (peer.State = .PeerAssociated))

/-- Source: the body of the first loop of `CleanupTransactions` for one entry
of the table; the result is the transaction left in the table, `none` when it
is deleted, and the heap of peers.  The decrement of `Retries` is guarded and
does not wrap. -/
def scanTransaction (now : Int) (tx : Transaction) (PeerHeap : List Peer) :
    Except Fault (Option Transaction × List Peer) :=
  if tx.State = .TxDone then .ok (none, PeerHeap)
  else if timeSub now tx.SentAt ≤ tx.Timeout then .ok (some tx, PeerHeap)
  else if tx.Retries ≤ 0 then
    let timedOut : Except Fault (List Peer) :=
      if tx.MsgType = DatumRequest then
        match tx.Peer with
        | some p => windowTimeout PeerHeap p
        | none => .ok PeerHeap
      else .ok PeerHeap
    match timedOut with
    | .error e => .error e
    | .ok PeerHeap =>
      if tx.MsgType = Hello then
        let tx := { tx with State := .TxChangeAddrHello }
        match peerAssociated PeerHeap tx.Peer with
        | .error e => .error e
        | .ok true => .ok (none, PeerHeap)
        | .ok false => .ok (some tx, PeerHeap)
      else if tx.MsgType = NatTraversalRequest then
        let tx := { tx with State := .TxChangeAddrNat }
        match peerAssociated PeerHeap tx.Peer with
        | .error e => .error e
        | .ok true => .ok (none, PeerHeap)
        | .ok false => .ok (some tx, PeerHeap)
      else .ok (none, PeerHeap)
  else
    let tx := { tx with Timeout := wrapInt (tx.Timeout * 2), SentAt := now,
                        Retries := tx.Retries - 1 }
    if tx.Timeout > 64 * Second then .ok (none, PeerHeap)
    else .ok (some { tx with State := .TxResend }, PeerHeap)

/-- Source: the first loop of `CleanupTransactions`, over the entries of the
table in the order of the list. -/
def cleanupScan (now : Int) : TxTable → List Peer → Except Fault (TxTable × List Peer)
  | [], PeerHeap => .ok ([], PeerHeap)
  | (id, tx) :: rest, PeerHeap =>
    match scanTransaction now tx PeerHeap with
    | .error e => .error e
    | .ok (kept, PeerHeap) =>
      match cleanupScan now rest PeerHeap with
      | .error e => .error e
      | .ok (rest, PeerHeap) =>
        match kept with
        | none => .ok (rest, PeerHeap)
        | some tx => .ok ((id, tx) :: rest, PeerHeap)

/-- Source: the writes of the second loop of `CleanupTransactions` to the
transactions that the first loop left in a state other than pending: one to
resend is pending again, one that changes address is done. -/
def cleanupStates (T : TxTable) : TxTable :=
  T.map fun e =>
    match e.2.State with
    | .TxResend => (e.1, { e.2 with State := .TxPending })
    | .TxChangeAddrHello => (e.1, { e.2 with State := .TxDone })
    | .TxChangeAddrNat => (e.1, { e.2 with State := .TxDone })
    | _ => e

/-! ## Datum replies: `HandleDatum` of `client/responseHandler.go` -/

/-- The state that `HandleDatum` reads and writes: the heap of peers and the
map `Peers`, the map `Transactions`, the Merkle store, the jobs sent to
`DatumQueue`, whether `OnPeerEvent` is set, and the calls made to it. -/
structure ClientState where
  PeerHeap : List Peer
  Peers : GoMap Nat
  Transactions : TxTable
  Store : MerkleState
  DatumQueue : List DatumJob
  observer : Bool
  Events : List PeerEvent

/-- Source: `HandleDatum`.  `decryptAESGCM key ciphertext` is the function of
`client/crypto.go`, `none` being its error.  The round-trip time is only
passed to `OnSuccess`, which does not use it. -/
def HandleDatum (Sha : Bytes → Bytes) (resolve : Bytes → Option UDPAddr)
    (decryptAESGCM : Bytes → Bytes → Option Bytes)
    (id : Nat) (addr : Option UDPAddr) (body : Bytes) (st : ClientState) :
    Except Fault ClientState :=
  let (tr, T) := resolveTransaction id st.Transactions
  let st := { st with Transactions := T }
  match tr with
  | none => .ok st
  | some tr =>
    if tr.MsgType ≠ DatumRequest then .ok st
    else
      match FindPeerByAddr resolve st.PeerHeap st.Peers addr, addr with
      | none, _ => .ok st
      | some _, none => .ok st
      | some p, some udpAddr =>
        match st.PeerHeap.get? p with
        | none => .error .nilDereference
        | some peer =>
          let peer := { peer with Window := peer.Window.OnSuccess }
          let st := { st with PeerHeap := st.PeerHeap.set p peer }
          let DataBody : Option Bytes :=
            match peer.SharedKey with
            | some key =>
              if body.length < HashSize then none
              else decryptAESGCM key body
            | none => some body
          match DataBody with
          | none => .ok st
          | some DataBody =>
            let (requested, len, ok) := getBody tr.Msg
            if !ok then .ok st
            else if VerifyDataIntegrity Sha DataBody (slice requested 0 len) then
              match HandlefileDataWindow Sha DataBody udpAddr st.Store st.DatumQueue with
              | .error e => .error e
              | .ok (Store, DatumQueue) =>
                let st := { st with Store := Store, DatumQueue := DatumQueue }
                match VerifyMerkle st.Store.MerkleMap (peer.Root.getD []) with
                | .error e => .error e
                | .ok verified =>
                  if !peer.MerkleDone && verified then
                    let peer := { peer with MerkleDone := true }
                    let st := { st with PeerHeap := st.PeerHeap.set p peer }
                    if peer.MerkleDownloadStart ≠ 0 ∧ st.observer then
                      .ok { st with Events := st.Events ++
                        [{ Peer := p, Event := .EventMerkleDownloadComplete }] }
                    else .ok st
                  else .ok st
            else .ok st

/-! ## Rebuilding files: `clientStorage/filesys.go` -/

/-- What the file system holds at the path given to `RebuildNode`: nothing, a
regular file or a directory with its entries in the order of their creation.
The directory that holds this path exists.  A path below it is the list of the
names that lead to it; a name is one path component (a directory listing
yields no name with a separator, nor `.` nor `..`). -/
abbrev FsState := Option FsNode

/-- The entry of a directory with a given name. -/
def lookupEntry : List (Bytes × FsNode) → Bytes → Option FsNode
  | [], _ => none
  | (n, c) :: rest, name => if n = name then some c else lookupEntry rest name

/-- A directory after the entry `name` is created or replaced. -/
def setEntry : List (Bytes × FsNode) → Bytes → FsNode → List (Bytes × FsNode)
  | [], name, child => [(name, child)]
  | (n, c) :: rest, name, child =>
    if n = name then (n, child) :: rest else (n, c) :: setEntry rest name child

/-- What the file system holds at a path. -/
def fsLookup : FsState → List Bytes → Option FsNode
  | cur, [] => cur
  | none, _ :: _ => none
  | some (.file _), _ :: _ => none
  | some (.dir entries), name :: rest => fsLookup (lookupEntry entries name) rest

/-- A system call that replaces what a path holds by `f` of it; `none` is the
error of the call, which leaves the file system as it was.  The call fails
when a component of the path is a regular file, and when a component is
missing unless the call creates the missing directories. -/
def fsModify (mkdirs : Bool) (f : Option FsNode → Option FsNode) :
    FsState → List Bytes → Option FsNode
  | cur, [] => f cur
  | none, name :: rest =>
    if mkdirs then
      match fsModify mkdirs f none rest with
      | none => none
      | some c => some (.dir [(name, c)])
    else none
  | some (.file _), _ :: _ => none
  | some (.dir entries), name :: rest =>
    match fsModify mkdirs f (lookupEntry entries name) rest with
    | none => none
    | some c => some (.dir (setEntry entries name c))

/-- The library call `os.WriteFile(path, data, perm)`: it creates the file or
truncates it, and fails on a directory. -/
def osWriteFile (fs : FsState) (path : List Bytes) (data : Bytes) : Option FsNode :=
  fsModify false (fun cur =>
    match cur with
    | some (.dir _) => none
    | _ => some (.file data)) fs path

/-- The library call `os.Create(path)`. -/
def osCreate (fs : FsState) (path : List Bytes) : Option FsNode :=
  osWriteFile fs path []

/-- The library call `f.Write(data)` on the file opened by `os.Create(path)`:
it appends to the file. -/
def fileWrite (fs : FsState) (path : List Bytes) (data : Bytes) : Option FsNode :=
  fsModify false (fun cur =>
    match cur with
    | some (.file old) => some (.file (old ++ data))
    | _ => none) fs path

/-- The library call `os.MkdirAll(path, perm)`. -/
def osMkdirAll (fs : FsState) (path : List Bytes) : Option FsNode :=
  fsModify true (fun cur =>
    match cur with
    | none => some (.dir [])
    | some (.dir entries) => some (.dir entries)
    | some (.file _) => none) fs path

/-- The test `os.IsNotExist(err)` on the error of `os.Stat(path)`, negated. -/
def osStatExists (fs : FsState) (path : List Bytes) : Bool :=
  (fsLookup fs path).isSome

/-- The library call `filepath.Join(path, name)` for a name that is one path
component or empty. -/
def joinPath (path : List Bytes) (name : Bytes) : List Bytes :=
  if name = [] then path else path ++ [name]

/-- The library call `filepath.Ext(name)`: the suffix that begins at the last
dot of the last path element, empty when there is none. -/
def pathExt (name : Bytes) : Bytes :=
  let last := (name.reverse.takeWhile fun c => c ≠ 47).reverse
  if 46 ∈ last then 46 :: (last.reverse.takeWhile fun c => c ≠ 46).reverse else []

/-- The decimal digits that `%d` prints for a counter. -/
def decimal (n : Nat) : Bytes := (Nat.toDigits 10 n).map Char.toNat

/-- The loop of `UniqueName`, with a bound on its rounds. -/
def uniqueNameLoop (fs : FsState) (dir : List Bytes) (baseName extension : Bytes) :
    Nat → Bytes → Nat → Except Fault Bytes
  | 0, _, _ => .error .outOfFuel
  | fuel + 1, name, counter =>
    if !osStatExists fs (joinPath dir name) then .ok name
    else
      uniqueNameLoop fs dir baseName extension fuel
        (baseName ++ [40] ++ decimal counter ++ [41] ++ extension) (counter + 1)

/-- Source: `UniqueName`. -/
def UniqueName (fuel : Nat) (fs : FsState) (dir : List Bytes) (name : Bytes) :
    Except Fault Bytes :=
  let extension := pathExt name
  let baseName := name.take (name.length - extension.length)
  uniqueNameLoop fs dir baseName extension fuel name 1

/-- The library call `bytes.TrimRight(b, "\x00")`. -/
def trimRightZero (b : Bytes) : Bytes :=
  (b.reverse.dropWhile fun c => c == 0).reverse

/-- The errors that `RebuildNode` and `WriteBigToFile` return. -/
inductive RebuildError where
  | nodeNotFound
  | unknownNodeType
  | invalidChild
  | fileSystem
  deriving DecidableEq, Repr

/-- The loops `for ... { if err := step(...); err != nil { return err } }`
over the entries of a node. -/
def rebuildEach {α : Type}
    (step : α → FsState → Except Fault (FsState × Option RebuildError)) :
    List α → FsState → Except Fault (FsState × Option RebuildError)
  | [], fs => .ok (fs, none)
  | x :: rest, fs =>
    match step x fs with
    | .error e => .error e
    | .ok (fs1, some err) => .ok (fs1, some err)
    | .ok (fs1, none) => rebuildEach step rest fs1

/-- The statement `f.Write(childNode[IdSize:])` with its error check. -/
def writeChunk (path : List Bytes) (childNode : Bytes) (fs : FsState) :
    Except Fault (FsState × Option RebuildError) :=
  match fileWrite fs path (slice childNode IdSize childNode.length) with
  | none => .ok (fs, some .fileSystem)
  | some r => .ok (some r, none)

/-- The body of the loop of `WriteBigToFile`, `write` being the recursive
call.  The read `MerkleMap[...]` of an absent key is the nil slice, on which
`childNode[0]` panics. -/
def writeBigChild (MerkleMap : GoMap Bytes) (path : List Bytes)
    (write : Bytes → FsState → Except Fault (FsState × Option RebuildError))
    (childHash : Bytes) (fs : FsState) : Except Fault (FsState × Option RebuildError) :=
  let childNode := (mapGet MerkleMap childHash).getD []
  match index childNode 0 with
  | .error e => .error e
  | .ok tag =>
    if tag = Chunk then writeChunk path childNode fs
    else if tag = Big then write childNode fs
    else .ok (fs, some .invalidChild)

/-- Source: `WriteBigToFile`; the open file is the one at `path`. -/
def WriteBigToFile (MerkleMap : GoMap Bytes) (path : List Bytes) :
    Nat → Bytes → FsState → Except Fault (FsState × Option RebuildError)
  | 0, _, _ => .error .outOfFuel
  | fuel + 1, node, fs =>
    rebuildEach (writeBigChild MerkleMap path (WriteBigToFile MerkleMap path fuel))
      (bigChildHashes node) fs

/-- The body of the `Big` loop of `RebuildNode`. -/
def rebuildBigChild (MerkleMap : GoMap Bytes) (path : List Bytes) (fuel : Nat)
    (childHash : Bytes) (fs : FsState) : Except Fault (FsState × Option RebuildError) :=
  let childNode := (mapGet MerkleMap childHash).getD []
  match index childNode 0 with
  | .error e => .error e
  | .ok tag =>
    if tag ≠ Chunk then WriteBigToFile MerkleMap path fuel childNode fs
    else writeChunk path childNode fs

/-- The body of the `Directory` loop of `RebuildNode` for the entry with the
name bytes `e.1` and the child hash `e.2`, `rebuild` being the recursive
call. -/
def rebuildEntry (fuel : Nat) (path : List Bytes)
    (rebuild : Bytes → List Bytes → FsState → Except Fault (FsState × Option RebuildError))
    (e : Bytes × Bytes) (fs : FsState) : Except Fault (FsState × Option RebuildError) :=
  let name := trimRightZero e.1
  match UniqueName fuel fs path name with
  | .error err => .error err
  | .ok Thename => rebuild e.2 (joinPath path Thename) fs

/-- The names and child hashes read by the `Directory` loop of `RebuildNode`:
`node[IdSize+i*DirEntrySize : IdSize+i*DirEntrySize+NameSize]` and
`node[IdSize+i*DirEntrySize+NameSize : IdSize+i*DirEntrySize+DirEntrySize]`
for `i` below `(len(node) - IdSize) / DirEntrySize`. -/
def dirEntriesOf (node : Bytes) : List (Bytes × Bytes) :=
  (List.range ((node.length - IdSize) / DirEntrySize)).map fun i =>
    (slice node (IdSize + i * DirEntrySize) (IdSize + i * DirEntrySize + NameSize),
     slice node (IdSize + i * DirEntrySize + NameSize) (IdSize + i * DirEntrySize + DirEntrySize))

/-- Source: `RebuildNode`; the result is the file system at the path and the
error returned, `none` being nil. -/
def RebuildNode (MerkleMap : GoMap Bytes) :
    Nat → Bytes → List Bytes → FsState → Except Fault (FsState × Option RebuildError)
  | 0, _, _, _ => .error .outOfFuel
  | fuel + 1, hash, path, fs =>
    match mapGet MerkleMap hash with
    | none => .ok (fs, some .nodeNotFound)
    | some node =>
      if node.length = 0 then .ok (fs, none)
      else
        let tag := node.getD 0 0
        if tag = Chunk then
          match osWriteFile fs path (slice node IdSize node.length) with
          | none => .ok (fs, some .fileSystem)
          | some r => .ok (some r, none)
        else if tag = Directory then
          match osMkdirAll fs path with
          | none => .ok (fs, some .fileSystem)
          | some r =>
            rebuildEach (rebuildEntry fuel path (RebuildNode MerkleMap fuel))
              (dirEntriesOf node) (some r)
        else if tag = Big then
          match osCreate fs path with
          | none => .ok (fs, some .fileSystem)
          | some r =>
            rebuildEach (rebuildBigChild MerkleMap path fuel) (bigChildHashes node) (some r)
        else if tag = BigDirectory then
          rebuildEach (fun childHash fs => RebuildNode MerkleMap fuel childHash path fs)
            (bigChildHashes node) fs
        else .ok (fs, some .unknownNodeType)

/-! ## Root histories: `AddListRoot`, `AddRootToPeer` of `client/peer.go`,
`UpdateMyMerkle` of `UI/merkleActions.go` -/

/-- Source: `AddListRoot`.  `listRoots` is the argument and `MyListroots` the
package variable of that name, which the function reads; the loop over `Peers`
goes over the map in the order of the list.  `bytes.Equal` takes a nil slice
for an empty one, so the nil root of a peer is the empty list.  The results are
the returned list, the Merkle store, and the root on which `DeleteMerkleTree`
was called, `none` when it was not called. -/
def AddListRoot (PeerHeap : List Peer) (Peers : GoMap Nat) (MyListroots : List Bytes)
    (listRoots : List Bytes) (newRoot : Bytes) (s : MerkleState) :
    Except Fault (List Bytes × MerkleState × Option Bytes) :=
  let listRoots := listRoots ++ [newRoot]
  if listRoots.length > 3 then
    match listRoots with
    | [] => .error .indexOutOfRange
    | oldRoot :: rest =>
      let listRoots := rest
      if Peers.any (fun e =>
          match PeerHeap.get? e.2 with
          | some p => bytesEqual (p.Root.getD []) oldRoot
          | none => false) then .ok (listRoots, s, none)
      else if MyListroots.any (fun l => bytesEqual l oldRoot) then .ok (listRoots, s, none)
      else
        match DeleteMerkleTree oldRoot s with
        | .error e => .error e
        | .ok s1 => .ok (listRoots, s1, some oldRoot)
  else .ok (listRoots, s, none)

/-- Source: `AddRootToPeer`, on the peer at pointer `p`; `hash` is the body of
a RootReply, which is not nil.  The call of `OnPeerEvent` for an unchanged root
is not guarded: it panics when no callback is set. -/
def AddRootToPeer (MyListroots : List Bytes) (p : Nat) (hash : Bytes) (st : ClientState) :
    Except Fault ClientState :=
  match st.PeerHeap.get? p with
  | none => .error .nilDereference
  | some peer =>
    if peer.Root.isSome ∧ bytesEqual (peer.Root.getD []) hash then
      if st.observer then
        .ok { st with Events := st.Events ++ [{ Peer := p, Event := .EventNewRoot }] }
      else .error .nilDereference
    else
      let peer := { peer with Root := some hash }
      let st := { st with PeerHeap := st.PeerHeap.set p peer }
      match AddListRoot st.PeerHeap st.Peers MyListroots peer.Listroots hash st.Store with
      | .error e => .error e
      | .ok (listRoots, Store, _) =>
        let peer := { peer with Listroots := listRoots, RootChanged := true }
        let st := { st with PeerHeap := st.PeerHeap.set p peer, Store := Store }
        if st.observer then
          .ok { st with Events := st.Events ++ [{ Peer := p, Event := .EventNewRoot }] }
        else .ok st

/-- The package variables that `UpdateMyMerkle` reads and writes:
`clientStorage.RootHash` (nil is the empty list), `client.MyListroots` and the
Merkle store. -/
structure LocalRoots where
  RootHash : Bytes
  MyListroots : List Bytes
  Store : MerkleState
  deriving DecidableEq, Repr

/-- Source: `UpdateMyMerkle`; `dataDirectory` is what the file system holds at
`DATA_DIRECTORY`.  The results are the package variables after the call and
the root on which `DeleteMerkleTree` was called, `none` when it was not
called. -/
def UpdateMyMerkle (Sha : Bytes → Bytes) (PeerHeap : List Peer) (Peers : GoMap Nat)
    (dataDirectory : FsNode) (g : LocalRoots) : Except Fault (LocalRoots × Option Bytes) :=
  match BuildMerkleNode Sha dataDirectory g.Store with
  | .error e => .error e
  | .ok (racine, Store) =>
    let oldroot := g.RootHash
    let g := { g with RootHash := Sha racine, Store := Store }
    if bytesEqual oldroot g.RootHash then .ok (g, none)
    else
      match AddListRoot PeerHeap Peers g.MyListroots g.MyListroots g.RootHash g.Store with
      | .error e => .error e
      | .ok (listRoots, Store, deleted) =>
        .ok ({ g with MyListroots := listRoots, Store := Store }, deleted)

/-! ## Signatures and replies: `client/crypto.go`, `client/extension.go`,
`client/responseHandler.go` -/

/-- Source: `NameofServeurUDP`, the text `jch.irif.fr`. -/
def NameofServeurUDP : Bytes := [106, 99, 104, 46, 105, 114, 105, 102, 46, 102, 114]

/-- Source: `ParsePublicKey`; a key is the 64 bytes of its two coordinates and
`none` is the error. -/
def ParsePublicKey (data : Bytes) : Option Bytes :=
  if data.length ≠ 64 then none else some data

/-- Source: `VerifyMessage`; `none` is the returned error.  `ecdsaVerify` is
the library call `ecdsa.Verify` on the key (`none` is the nil pointer), the
digest and the 64 bytes of the signature; an error of it is a panic. -/
def VerifyMessage (Sha : Bytes → Bytes)
    (ecdsaVerify : Option Bytes → Bytes → Bytes → Except Fault Bool)
    (pub : Option Bytes) (message signature : Option Bytes) : Except Fault (Option Bool) :=
  match signature, message with
  | some signature, some message =>
    if signature.length ≠ 64 then .ok none
    else
      match ecdsaVerify pub (Sha message) signature with
      | .error e => .error e
      | .ok valid => .ok (some valid)
  | _, _ => .ok none

/-- Source: `VerifSign`.  `GetPeerKey` is the request of the key of a peer to
the directory server, `none` being its error; the function stores the key in
the peer, so the state is a result. -/
def VerifSign (Sha : Bytes → Bytes) (resolve : Bytes → Option UDPAddr)
    (GetPeerKey : Bytes → Option Bytes)
    (ecdsaVerify : Option Bytes → Bytes → Bytes → Except Fault Bool)
    (addr : Option UDPAddr) (message sig : Option Bytes) (st : ClientState) :
    Except Fault (ClientState × Bool) :=
  match FindPeerByAddr resolve st.PeerHeap st.Peers addr with
  | none => .ok (st, false)
  | some p =>
    match st.PeerHeap.get? p with
    | none => .error .nilDereference
    | some peer =>
      match GetPeerKey peer.Name with
      | none => .ok (st, false)
      | some peerkey =>
        let peer := { peer with PublicKey := some peerkey }
        let st := { st with PeerHeap := st.PeerHeap.set p peer }
        match VerifyMessage Sha ecdsaVerify peer.PublicKey message sig with
        | .error e => .error e
        | .ok none => .ok (st, false)
        | .ok (some check) => .ok (st, check)

/-- Source: `ParseExtensions`; `none` is the error. -/
def ParseExtensions (body : Bytes) : Option Nat :=
  if body.length < 4 then none
  else some ((body.getD 0 0 <<< 24) ||| (body.getD 1 0 <<< 16) ||| (body.getD 2 0 <<< 8) |||
    body.getD 3 0)

def ExtensionNat : Nat := 0
def ExtensionChiffrement : Nat := 1

/-- Source: `IsChiffrementEnabled`. -/
def IsChiffrementEnabled (body : Bytes) : Bool :=
  match ParseExtensions body with
  | none => false
  | some ext => (ext &&& (1 <<< ExtensionChiffrement)) != 0

/-- Source: `GetNameByAddr`; the loop goes over the map in the order of the
list and the result is the key of the entry. -/
def GetNameByAddr (PeerHeap : List Peer) (Peers : GoMap Nat) (addr : UDPAddr) :
    Option Bytes :=
  let found := Peers.find? fun e =>
    match PeerHeap.get? e.2 with
    | some p =>
      match p.ActiveAddr with
      | some a => ipEqual a.IP addr.IP && decide (a.Port = addr.Port)
      | none => false
    | none => false
  match found with
  | some e => some e.1
  | none => none

/-- Source: `FindPeer`. -/
def FindPeer (Peers : GoMap Nat) (name : Bytes) : Option Nat := mapGet Peers name

/-- Source: `AddRootToPeerbyaddr`; the returned error is not used by the
caller. -/
def AddRootToPeerbyaddr (MyListroots : List Bytes) (addr : UDPAddr) (hash : Bytes)
    (st : ClientState) : Except Fault ClientState :=
  match GetNameByAddr st.PeerHeap st.Peers addr with
  | none => .ok st
  | some name =>
    match FindPeer st.Peers name with
    | none => .ok st
    | some p => AddRootToPeer MyListroots p hash st

/-- Source: `HandleRootReply`.  `addr` is the sender of the packet; it is not
nil when `VerifSign` has found a peer for it. -/
def HandleRootReply (Sha : Bytes → Bytes) (resolve : Bytes → Option UDPAddr)
    (GetPeerKey : Bytes → Option Bytes)
    (ecdsaVerify : Option Bytes → Bytes → Bytes → Except Fault Bool)
    (MyListroots : List Bytes) (id : Nat) (addr : Option UDPAddr)
    (signed sig : Option Bytes) (body : Bytes) (st : ClientState) :
    Except Fault ClientState :=
  let (tr, T) := resolveTransaction id st.Transactions
  let st := { st with Transactions := T }
  match tr with
  | none => .ok st
  | some tr =>
    if tr.MsgType ≠ RootRequest then .ok st
    else
      match VerifSign Sha resolve GetPeerKey ecdsaVerify addr signed sig st with
      | .error e => .error e
      | .ok (st, false) => .ok st
      | .ok (st, true) =>
        match addr with
        | none => .error .nilDereference
        | some udpAddr => AddRootToPeerbyaddr MyListroots udpAddr body st

/-- Source: `HandleNoDatum`.  The result of `VerifSign` is only printed. -/
def HandleNoDatum (Sha : Bytes → Bytes) (resolve : Bytes → Option UDPAddr)
    (GetPeerKey : Bytes → Option Bytes)
    (ecdsaVerify : Option Bytes → Bytes → Bytes → Except Fault Bool)
    (id : Nat) (addr : Option UDPAddr) (signed sig : Option Bytes) (st : ClientState) :
    Except Fault ClientState :=
  let (tr, T) := resolveTransaction id st.Transactions
  let st := { st with Transactions := T }
  match tr with
  | none => .ok st
  | some tr =>
    if tr.MsgType ≠ DatumRequest then .ok st
    else
      match FindPeerByAddr resolve st.PeerHeap st.Peers addr with
      | none => .ok st
      | some p =>
        match st.PeerHeap.get? p with
        | none => .error .nilDereference
        | some peer =>
          let peer := { peer with Window := peer.Window.OnSuccess }
          let st := { st with PeerHeap := st.PeerHeap.set p peer }
          match VerifSign Sha resolve GetPeerKey ecdsaVerify addr signed sig st with
          | .error e => .error e
          | .ok (st, _) =>
            if st.observer then
              .ok { st with Events := st.Events ++ [{ Peer := p, Event := .EventNoDatum }] }
            else .ok st

/-- Source: `connectPeer`, on the peer at pointer `p`; `now` is the value of
`time.Now()`. -/
def connectPeer (now : Int) (p : Nat) (st : ClientState) : Except Fault ClientState :=
  match st.PeerHeap.get? p with
  | none => .error .nilDereference
  | some peer =>
    if peer.State = .PeerDiscovered then
      let peer := { peer with State := .PeerAssociated, LastSeen := now, AddrIndex := 0 }
      let st := { st with PeerHeap := st.PeerHeap.set p peer }
      if st.observer then
        .ok { st with Events := st.Events ++ [{ Peer := p, Event := .EventConnected }] }
      else .ok st
    else
      if st.observer then
        .ok { st with Events := st.Events ++ [{ Peer := p, Event := .EventConnected }] }
      else .ok st

/-- Source: `handlePlainHelloReply`; the function always returns a nil error.
The goroutine `MaintenancePerPeer` that it starts for a peer in state
Discovered runs beside the handler and is not part of the call. -/
def handlePlainHelloReply (now : Int) (transaction : Transaction) (p : Nat)
    (st : ClientState) : Except Fault ClientState :=
  if transaction.MsgType ≠ Hello then .ok st
  else
    match st.PeerHeap.get? p with
    | none => .error .nilDereference
    | some _ => connectPeer now p st

/-- Source: `ComputeSharedKey`; `ecdh` is the scalar multiplication of the
library followed by the digest, an error of it being a panic.  The function
reads `privateKey.D`, so it panics on a nil key. -/
def ComputeSharedKey (ecdh : Bytes → Bytes → Except Fault Bytes)
    (privateKey : Option Bytes) (peerPublicKey : Bytes) : Except Fault Bytes :=
  match privateKey with
  | none => .error .nilDereference
  | some priv => ecdh priv peerPublicKey

/-- Source: `handleDHHelloReply`; the flag of the result tells whether the
function returns an error.  The debug print of `body[len(body)-64:]`
(`debugResponse` is true) panics on a body of fewer than 64 bytes. -/
def handleDHHelloReply (ecdh : Bytes → Bytes → Except Fault Bytes) (now : Int)
    (transaction : Transaction) (p : Nat) (signed : Option Bytes) (body : Bytes)
    (st : ClientState) : Except Fault (ClientState × Bool) :=
  let signed := signed.getD []
  if signed.length < 64 then .ok (st, true)
  else
    match ParsePublicKey (signed.drop (signed.length - 64)) with
    | none => .ok (st, true)
    | some dhPub =>
      match ComputeSharedKey ecdh transaction.DhPriv dhPub with
      | .error e => .error e
      | .ok sharedKey =>
        if body.length < 64 then .error .indexOutOfRange
        else if transaction.MsgType = Hello then
          match st.PeerHeap.get? p with
          | none => .error .nilDereference
          | some peer =>
            let peer := { peer with SharedKey := some sharedKey }
            let st := { st with PeerHeap := st.PeerHeap.set p peer }
            match connectPeer now p st with
            | .error e => .error e
            | .ok st => .ok (st, false)
        else .ok (st, false)

/-- Source: `HandleHelloReply`; the flag of the result tells whether the
function returns an error.  The call of `OnPeerEvent` for a signature that
does not verify is not guarded: it panics when no callback is set. -/
def HandleHelloReply (Sha : Bytes → Bytes)
    (ecdsaVerify : Option Bytes → Bytes → Bytes → Except Fault Bool)
    (ecdh : Bytes → Bytes → Except Fault Bytes) (now : Int)
    (id : Nat) (signed sig : Option Bytes) (st : ClientState) :
    Except Fault (ClientState × Bool) :=
  let (tr, T) := resolveTransaction id st.Transactions
  let st := { st with Transactions := T }
  match tr with
  | none => .ok (st, false)
  | some transaction =>
    match transaction.Peer with
    | none => .ok (st, true)
    | some p =>
      match st.PeerHeap.get? p with
      | none => .error .nilDereference
      | some peer =>
        match VerifyMessage Sha ecdsaVerify peer.PublicKey signed sig with
        | .error e => .error e
        | .ok none => .ok (st, true)
        | .ok (some false) =>
          if st.observer then
            .ok ({ st with Events := st.Events ++
              [{ Peer := p, Event := .EventConnectionFailed }] }, false)
          else .error .nilDereference
        | .ok (some true) =>
          let (body, _, ok) := getBody transaction.Msg
          if !ok then .ok (st, true)
          else
            let crypted := IsChiffrementEnabled body
            if !crypted || decide (peer.Name = NameofServeurUDP) then
              match handlePlainHelloReply now transaction p st with
              | .error e => .error e
              | .ok st => .ok (st, false)
            else handleDHHelloReply ecdh now transaction p signed body st

/-! ## Requests: `client/requestHandler.go`, `HandleDatumRequest` of
`client/datum.go`, `ParseNATBody` of `client/parsePacket.go` -/

/-- The slice expression `b[lo:hi]` of Go with an explicit upper bound, which
is checked against the capacity of `b`, not against its length: `room` is what
lies in the underlying array between the length and the capacity. -/
def sliceCap (b room : Bytes) (lo hi : Nat) : Except Fault Bytes :=
  if lo ≤ hi ∧ hi ≤ b.length + room.length then .ok (slice (b ++ room) lo hi)
  else .error .indexOutOfRange

/-- The library call `binary.BigEndian.Uint16` on a 2-byte slice. -/
def bigEndianUint16 (b : Bytes) : Nat := b.getD 0 0 * 2 ^ 8 + b.getD 1 0

/-- Source: `ParseNATBody`; `len` is its `uint8` argument and `none` is the
returned error.  `room` is what follows `body` within its capacity. -/
def ParseNATBody (body room : Bytes) (len : Nat) : Except Fault (Option UDPAddr) :=
  if len = 6 then
    match sliceCap body room 0 4 with
    | .error e => .error e
    | .ok ip =>
      match sliceCap body room 4 6 with
      | .error e => .error e
      | .ok port => .ok (some { IP := ip, Port := bigEndianUint16 port })
  else if len = 18 then
    match sliceCap body room 0 16 with
    | .error e => .error e
    | .ok ip =>
      match sliceCap body room 16 18 with
      | .error e => .error e
      | .ok port => .ok (some { IP := ip, Port := bigEndianUint16 port })
  else .ok none

/-- The conversion `uint8(n)` of an `int`. -/
def uint8 (n : Nat) : Nat := n % 2 ^ 8

/-- The state of the node that the handlers of requests read and write: the
state of the handlers of replies, the map `ban`, the variable
`clientStorage.RootHash`, the counter `globalId`, and the datagrams written to
the socket with their destination, oldest first. -/
structure NodeState where
  client : ClientState
  ban : GoMap Nat
  RootHash : Bytes
  globalId : Nat
  Sent : List (UDPAddr × Bytes)

/-- Source: `SendMessage`; the write to a nil address fails and sends
nothing. -/
def SendMessage (addr : Option UDPAddr) (msg : Bytes) (st : NodeState) : NodeState :=
  match addr with
  | none => st
  | some a => { st with Sent := st.Sent ++ [(a, msg)] }

/-- Source: `SendOk`. -/
def SendOk (SignMessage : Bytes → Except String Bytes) (id : Nat) (addr : Option UDPAddr)
    (st : NodeState) : NodeState :=
  match BuildMessage SignMessage id Ok [] false with
  | .error _ => st
  | .ok msg => SendMessage addr msg st

/-- Source: `SendErrorMessage`. -/
def SendErrorMessage (SignMessage : Bytes → Except String Bytes) (id : Nat)
    (addr : Option UDPAddr) (msg : Bytes) (st : NodeState) : NodeState :=
  let body := msg
  match BuildMessage SignMessage id Error body false with
  | .error _ => st
  | .ok pkt => SendMessage addr pkt st

/-- Source: `SendError`. -/
def SendError (SignMessage : Bytes → Except String Bytes) (id : Nat) (addr : Option UDPAddr)
    (st : NodeState) : NodeState :=
  match BuildMessage SignMessage id Error [] false with
  | .error _ => st
  | .ok msg => SendMessage addr msg st

/-- Source: `sendGenericMessage`. -/
def sendGenericMessage (SignMessage : Bytes → Except String Bytes) (addr : Option UDPAddr)
    (id msgType : Nat) (body : Bytes) (sign : Bool) (st : NodeState) : NodeState :=
  match BuildMessage SignMessage id msgType body sign with
  | .error _ => st
  | .ok msg => SendMessage addr msg st

/-- Source: `IsBanByaddr`. -/
def IsBanByaddr (st : NodeState) (addr : UDPAddr) : Bool :=
  match GetNameByAddr st.client.PeerHeap st.client.Peers addr with
  | none => false
  | some name => (mapGet st.ban name).isSome

/-- The text `Tu es banni.` -/
def banText : Bytes := [84, 117, 32, 101, 115, 32, 98, 97, 110, 110, 105, 46]

/-- The text `Please Hello First ! ;)` -/
def helloFirstText : Bytes :=
  [80, 108, 101, 97, 115, 101, 32, 72, 101, 108, 108, 111, 32, 70, 105, 114, 115, 116, 32,
   33, 32, 59, 41]

/-- Source: `NameofOurPeer`, the text `jouer`. -/
def NameofOurPeer : Bytes := [106, 111, 117, 101, 114]

/-- Source: `HandleRootRequest`. -/
def HandleRootRequest (SignMessage : Bytes → Except String Bytes) (id : Nat) (addr : UDPAddr)
    (st : NodeState) : NodeState :=
  if IsBanByaddr st addr then SendErrorMessage SignMessage id (some addr) banText st
  else sendGenericMessage SignMessage (some addr) id RootReply st.RootHash true st

/-- Source: `GenerateId`: the value of the counter before its increment, which
wraps at `2^32`. -/
def GenerateId (st : NodeState) : Nat × NodeState :=
  (st.globalId, { st with globalId := (st.globalId + 1) % 2 ^ 32 })

/-- Source: `BuildExtension`; the constant `chiffre` is false, so only the bit
of the NAT extension is set. -/
def BuildExtension : Nat := 0 ||| (1 <<< ExtensionNat)

/-- Source: `SendHello`, on the peer at pointer `p`; the result tells whether
the Hello was sent.  The constant `chiffre` is false, so the branch that adds
an ephemeral key to the Hello is never taken and is left out. -/
def SendHello (SignMessage : Bytes → Except String Bytes) (GetPeerKey : Bytes → Option Bytes)
    (now : Int) (p : Nat) (st : NodeState) : Except Fault (NodeState × Bool) :=
  match st.client.PeerHeap.get? p with
  | none => .error .nilDereference
  | some peer =>
    let fetched : Option Peer :=
      match peer.PublicKey with
      | some _ => some peer
      | none =>
        match GetPeerKey peer.Name with
        | none => none
        | some pub => some { peer with PublicKey := some pub }
    match fetched with
    | none => .ok (st, false)
    | some peer =>
      let st := { st with client := { st.client with PeerHeap := st.client.PeerHeap.set p peer } }
      let (id, st) := GenerateId st
      let ext := BuildExtension
      match BuildHello SignMessage id ext NameofOurPeer Hello with
      | .error _ => .ok (st, false)
      | .ok msg =>
        let (_, T) := CreateTransaction now id (some p) peer.ActiveAddr Hello msg (Retries - 1)
          st.client.Transactions
        let st := { st with client := { st.client with Transactions := T } }
        .ok (SendMessage peer.ActiveAddr msg st, true)

/-- Source: `NoChangeAddr`. -/
def NoChangeAddr (peer : Peer) (addr : UDPAddr) : Peer :=
  { peer with AddrIndex := -1, ActiveAddr := some addr }

/-- Source: `HandlePing`. -/
def HandlePing (SignMessage : Bytes → Except String Bytes) (resolve : Bytes → Option UDPAddr)
    (GetPeerKey : Bytes → Option Bytes) (now : Int) (id : Nat) (addr : UDPAddr)
    (st : NodeState) : Except Fault NodeState :=
  match FindPeerByAddr resolve st.client.PeerHeap st.client.Peers (some addr) with
  | none => .ok (SendErrorMessage SignMessage id (some addr) helloFirstText st)
  | some p =>
    match st.client.PeerHeap.get? p with
    | none => .error .nilDereference
    | some peer =>
      let state := peer.State
      if state = .PeerWaitHelloNat then
        let peer := NoChangeAddr { peer with State := .PeerDiscovered } addr
        let st := { st with client := { st.client with PeerHeap := st.client.PeerHeap.set p peer } }
        match SendHello SignMessage GetPeerKey now p st with
        | .error e => .error e
        | .ok (st, _) => .ok (sendGenericMessage SignMessage (some addr) id Ok [] false st)
      else if state = .PeerDiscovered ∨ state = .PeerExpired then
        .ok (SendErrorMessage SignMessage id (some addr) helloFirstText st)
      else .ok (sendGenericMessage SignMessage (some addr) id Ok [] false st)

/-- Source: `HandleDatumRequest`.  `room` is what follows `body` within its
capacity: `body[:HashSize]` panics when the capacity is below 32, and reads
beyond the body when only its length is.  `encryptAESGCM key plaintext` is
the function of `client/crypto.go`, `none` being its error. -/
def HandleDatumRequest (SignMessage : Bytes → Except String Bytes) (Sha : Bytes → Bytes)
    (resolve : Bytes → Option UDPAddr) (encryptAESGCM : Bytes → Bytes → Option Bytes)
    (addr : UDPAddr) (id : Nat) (body room : Bytes) (st : NodeState) :
    Except Fault NodeState :=
  match sliceCap body room 0 HashSize with
  | .error e => .error e
  | .ok hash =>
    match mapGet st.client.Store.MerkleMap hash with
    | some data =>
      let value := data
      let hash := Sha value
      let body := hash ++ value
      match FindPeerByAddr resolve st.client.PeerHeap st.client.Peers (some addr) with
      | none => .ok st
      | some p =>
        match st.client.PeerHeap.get? p with
        | none => .error .nilDereference
        | some peer =>
          match peer.SharedKey with
          | some key =>
            match encryptAESGCM key body with
            | none => .ok st
            | some body_encrypted =>
              .ok (sendGenericMessage SignMessage (some addr) id Datum body_encrypted false st)
          | none => .ok (sendGenericMessage SignMessage (some addr) id Datum body false st)
    | none => .ok (sendGenericMessage SignMessage (some addr) id NoDatum hash true st)

/-- Source: `HandleDatumRequestWrapper`. -/
def HandleDatumRequestWrapper (SignMessage : Bytes → Except String Bytes)
    (Sha : Bytes → Bytes) (resolve : Bytes → Option UDPAddr)
    (encryptAESGCM : Bytes → Bytes → Option Bytes)
    (id : Nat) (addr : UDPAddr) (body room : Bytes) (st : NodeState) :
    Except Fault NodeState :=
  if IsBanByaddr st addr then .ok (SendErrorMessage SignMessage id (some addr) banText st)
  else HandleDatumRequest SignMessage Sha resolve encryptAESGCM addr id body room st

/-- Source: `updateLastSeen`; `now` is the value of `time.Now()`. -/
def updateLastSeen (resolve : Bytes → Option UDPAddr) (now : Int) (addr : UDPAddr)
    (st : NodeState) : Except Fault NodeState :=
  match FindPeerByAddr resolve st.client.PeerHeap st.client.Peers (some addr) with
  | none => .ok st
  | some p =>
    match st.client.PeerHeap.get? p with
    | none => .error .nilDereference
    | some peer =>
      .ok { st with client := { st.client with
        PeerHeap := st.client.PeerHeap.set p { peer with LastSeen := now } } }

/-- Source: the body of the loop of `RequestHandler` for one packet `pkt`
received from `addr`.  The packet was made by `CaptureMessage` with
`make([]byte, n)`, so its capacity is its length and what follows the body
within its capacity is the rest of the packet.  The handlers of Hello, of
NatTraversalRequest and of NatTraversalRequest2 are not embedded: they are the
parameters `onHello`, `onNat` and `onNat2`, given the parsed frame, what
follows the body, and the sender. -/
def RequestHandler (SignMessage : Bytes → Except String Bytes) (Sha : Bytes → Bytes)
    (resolve : Bytes → Option UDPAddr) (GetPeerKey : Bytes → Option Bytes)
    (encryptAESGCM : Bytes → Bytes → Option Bytes)
    (onHello onNat onNat2 : Parsed → Bytes → UDPAddr → NodeState → Except Fault NodeState)
    (now : Int) (pkt : Bytes) (addr : UDPAddr) (st : NodeState) : Except Fault NodeState :=
  match parseRecvMessage pkt with
  | .error e => .error e
  | .ok p =>
    if !p.ok then .ok st
    else
      let room := pkt.drop (OffsetBody + p.bodyLen)
      let handled : Except Fault NodeState :=
        if p.typ = NatTraversalRequest then onNat p room addr st
        else if p.typ = NatTraversalRequest2 then onNat2 p room addr st
        else if p.typ = Hello then onHello p room addr st
        else if p.typ = RootRequest then .ok (HandleRootRequest SignMessage p.id addr st)
        else if p.typ = Ping then HandlePing SignMessage resolve GetPeerKey now p.id addr st
        else if p.typ = DatumRequest then
          HandleDatumRequestWrapper SignMessage Sha resolve encryptAESGCM p.id addr p.body
            room st
        else .ok (SendError SignMessage p.id (some addr) st)
      match handled with
      | .error e => .error e
      | .ok st => updateLastSeen resolve now addr st

/-! ## Definitions used to state the properties -/

/-- The child references of a node as `verifyNode` and `deleteNode` read them. -/
def childHashes (node : Bytes) : List Bytes :=
  if node.getD 0 0 = Directory then dirChildHashes node
  else if node.getD 0 0 = Big ∨ node.getD 0 0 = BigDirectory then bigChildHashes node
  else []

/-- `child` is a child reference of the node stored under `hash`. -/
def ChildRef (M : GoMap Bytes) (hash child : Bytes) : Prop :=
  ∃ node, mapGet M hash = some node ∧ child ∈ childHashes node

/-- `h` is reachable from `root` by following child references of stored nodes. -/
def Reachable (M : GoMap Bytes) (root h : Bytes) : Prop :=
  Relation.ReflTransGen (ChildRef M) root h

/-- Every stored node carries a tag in {0, 1, 2, 3}. -/
def TagsValid (M : GoMap Bytes) : Prop :=
  ∀ k node, mapGet M k = some node → node ≠ [] ∧ node.getD 0 0 ≤ 3

/-- The number of entries of `K` that are not yet in `visited`. -/
def unvisited (K visited : List Bytes) : Nat :=
  (K.filter fun k => decide (k ∉ visited)).length

/-- What a successful walk over newly visited keys guarantees: every key
visited since `v` is stored and all the child references of its node are
visited. -/
def ClosedSince (M : GoMap Bytes) (v v1 : List Bytes) : Prop :=
  ∀ x ∈ v1, x ∉ v → ∃ n, mapGet M x = some n ∧ ∀ c ∈ childHashes n, c ∈ v1

/-- The relation between the store and the visited set before (`s`, `v`) and
after (`s1`, `v1`) a deletion walk: the visited set grows; an entry of the
store is unchanged, or it is removed, and then its count was 1 and it was
visited by this walk; the counts of the keys that this walk did not visit are
unchanged. -/
def DelStep (s : MerkleState) (v : List Bytes) (s1 : MerkleState) (v1 : List Bytes) : Prop :=
  (∀ x ∈ v, x ∈ v1) ∧
  (∀ k, mapGet s1.MerkleMap k = mapGet s.MerkleMap k ∨
    (mapGet s1.MerkleMap k = none ∧ countOf s.CountMap k % uintSize = 1 ∧ k ∉ v ∧ k ∈ v1)) ∧
  (∀ k, k ∈ v ∨ k ∉ v1 → mapGet s1.CountMap k = mapGet s.CountMap k)

/-- No stored node is the empty byte sequence. -/
def NoEmptyNode (M : GoMap Bytes) : Prop := ∀ k node, mapGet M k = some node → node ≠ []

/-- The store invariant: every entry is keyed by the hash of its node. -/
def StoreInv (Sha : Bytes → Bytes) (M : GoMap Bytes) : Prop :=
  ∀ k node, mapGet M k = some node → k = Sha node

/-- The store after the calls `FillMap(n)` for the nodes `n` of a list, in
order. -/
def fillAll (Sha : Bytes → Bytes) (nodes : List Bytes) (s : MerkleState) : MerkleState :=
  nodes.foldl (fun acc n => FillMap Sha n acc) s

/-- The nodes that one call of `mergeNodes` builds, which are also the nodes
it passes to `FillMap`, in order. -/
def mergeNodesTrace (Sha : Bytes → Bytes) (children : List Bytes) (nodeType : Nat) :
    List Bytes :=
  (strides children MaxBigEntries).map (hashChildren Sha nodeType)

/-- The final list of the loop `mergeUntilOne` and the nodes passed to
`FillMap` during the loop, in order. -/
def mergeUntilOneTrace (Sha : Bytes → Bytes) (nodeType : Nat) :
    Nat → List Bytes → Except Fault (List Bytes × List Bytes)
  | 0, children =>
    if children.length > 1 then .error .outOfFuel else .ok (children, [])
  | fuel + 1, children =>
    if children.length > 1 then
      match mergeUntilOneTrace Sha nodeType fuel (mergeNodesTrace Sha children nodeType) with
      | .error e => .error e
      | .ok (final, installed) =>
        .ok (final, mergeNodesTrace Sha children nodeType ++ installed)
    else .ok (children, [])

/-- The root node returned by `buildDirectoryNode` and the nodes it passes to
`FillMap`, in order. -/
def dirTrace (Sha : Bytes → Bytes) (names : List Bytes) (children : List Bytes) :
    Except Fault (Bytes × List Bytes) :=
  let dirEntries : List DirectoryEntry :=
    List.zipWith (fun name child => { Name := name, Hash := child }) names children
  if dirEntries.length ≤ MaxDirEntries then
    .ok (HashDirectory Sha dirEntries, [HashDirectory Sha dirEntries])
  else
    let subNodes := (strides dirEntries MaxDirEntries).map (HashDirectory Sha)
    match mergeUntilOneTrace Sha BigDirectory subNodes.length subNodes with
    | .error e => .error e
    | .ok (chunkHashes, installed) =>
      match firstNode chunkHashes with
      | .error e => .error e
      | .ok node => .ok (node, subNodes ++ installed)

/-- The root node returned by the regular-file branch of `BuildMerkleNode` and
the nodes it passes to `FillMap`, in order. -/
def fileTrace (Sha : Bytes → Bytes) (data : Bytes) : Except Fault (Bytes × List Bytes) :=
  let chunkNodes := (SplitIntoChunks data).map HashChunk
  match mergeUntilOneTrace Sha Big chunkNodes.length chunkNodes with
  | .error e => .error e
  | .ok (children, installed) =>
    match firstNode children with
    | .error e => .error e
    | .ok node => .ok (node, chunkNodes ++ installed ++ [node])

mutual
/-- The root node returned by `BuildMerkleNode` and the nodes it passes to
`FillMap`, in order (`BuildMerkleNode_eq_trace`). -/
def buildTrace (Sha : Bytes → Bytes) : FsNode → Except Fault (Bytes × List Bytes)
  | .dir entries =>
    match childTraces Sha entries with
    | .error e => .error e
    | .ok (children, installed) =>
      match dirTrace Sha (entries.map Prod.fst) children with
      | .error e => .error e
      | .ok (node, installed1) => .ok (node, installed ++ installed1)
  | .file data => fileTrace Sha data
/-- The child nodes of a directory and the nodes passed to `FillMap` while
they are built. -/
def childTraces (Sha : Bytes → Bytes) :
    List (Bytes × FsNode) → Except Fault (List Bytes × List Bytes)
  | [] => .ok ([], [])
  | (_, child) :: rest =>
    match buildTrace Sha child with
    | .error e => .error e
    | .ok (childNode, installed) =>
      match childTraces Sha rest with
      | .error e => .error e
      | .ok (children, installed1) => .ok (childNode :: children, installed ++ installed1)
end

/-- The nodes that `BuildMerkleNode` passes to `FillMap` for a subtree, in
order; empty when the build panics. -/
def installs (Sha : Bytes → Bytes) (t : FsNode) : List Bytes :=
  match buildTrace Sha t with
  | .ok (_, installed) => installed
  | .error _ => []

/-- A well-formed installed node relative to the nodes `avail`: it is not
empty, its tag is one of 0, 1, 2, 3, and each of its child references is the
hash of a node of `avail`. -/
def NodeOK (Sha : Bytes → Bytes) (avail : List Bytes) (n : Bytes) : Prop :=
  n ≠ [] ∧ n.getD 0 0 ≤ 3 ∧ ∀ c ∈ childHashes n, ∃ m ∈ avail, Sha m = c

/-- The first node of a list whose hash is `k`. -/
def firstWithKey (Sha : Bytes → Bytes) (L : List Bytes) (k : Bytes) : Option Bytes :=
  L.find? fun n => decide (Sha n = k)

/-- The number of nodes of a list whose hash is `k`. -/
def installCount (Sha : Bytes → Bytes) (L : List Bytes) (k : Bytes) : Nat :=
  (L.map Sha).count k

/-- The set of keys `A` is closed under the child references of the store. -/
def ClosedUnder (A : Bytes → Prop) (M : GoMap Bytes) : Prop :=
  ∀ p node, A p → mapGet M p = some node → ∀ c ∈ childHashes node, A c

/-- The calls made on a window. -/
inductive WindowCall where
  | send
  | success
  | timeout
  deriving DecidableEq, Repr

/-- One call applied to a window. -/
def SlidingWindow.call (w : SlidingWindow) : WindowCall → SlidingWindow
  | .send => w.OnSend
  | .success => w.OnSuccess
  | .timeout => w.OnTimeout

/-- A finite sequence of calls applied from left to right. -/
def SlidingWindow.run (w : SlidingWindow) (calls : List WindowCall) : SlidingWindow :=
  calls.foldl SlidingWindow.call w

/-- The bounds that every call keeps: the size stays between `Min` and `Max`
and the number in flight stays between 0 and `Max`. -/
def WindowBounds (w : SlidingWindow) : Prop :=
  0 ≤ w.Min ∧ w.Min ≤ w.Size ∧ w.Size ≤ w.Max ∧ 0 ≤ w.InFlight ∧ w.InFlight ≤ w.Max ∧
    w.Max < 2 ^ 63 - 1

/-- The peer after `k` successive calls of `NextAddress` and the results of
the calls, oldest first. -/
def nextAddressCalls (resolve : Bytes → Option UDPAddr) :
    Nat → Peer → Except Fault (Peer × List (Option UDPAddr × Bool))
  | 0, p => .ok (p, [])
  | k + 1, p =>
    match p.NextAddress resolve with
    | .error e => .error e
    | .ok (p1, a, ok) =>
      match nextAddressCalls resolve k p1 with
      | .error e => .error e
      | .ok (p2, rs) => .ok (p2, (a, ok) :: rs)

/-- The operations of the program that write the table of transactions: a
creation by `CreateTransaction` or by the literal of `SendHello`, with a retry
count that is not negative; the first loop of `CleanupTransactions` at any
clock value and with any peers; the writes of its second loop; and
`resolveTransaction`. -/
inductive TableStep : TxTable → TxTable → Prop where
  | create (now : Int) (id : Nat) (p : Option Nat) (addr : Option UDPAddr) (msgType : Nat)
      (msg : Bytes) (retries : Int) (dh : Option Bytes) (T : TxTable) :
      0 ≤ retries →
      TableStep T (addTransaction
        { (CreateTransaction now id p addr msgType msg retries T).1 with DhPriv := dh } T)
  | scan (now : Int) (PeerHeap PeerHeap1 : List Peer) (T T1 : TxTable) :
      cleanupScan now T PeerHeap = .ok (T1, PeerHeap1) → TableStep T T1
  | dispatch (T : TxTable) : TableStep T (cleanupStates T)
  | resolve (id : Nat) (T : TxTable) : TableStep T (resolveTransaction id T).2

/-- The bounds of an outstanding transaction. -/
def TxBounds (tx : Transaction) : Prop :=
  0 < tx.Timeout ∧ tx.Timeout ≤ 64 * Second ∧ 0 ≤ tx.Retries

/-- The timeout periods that a transaction waits through when no reply
arrives.  Each period ends at a scan of the first loop of
`CleanupTransactions` that finds the transaction expired, `late` nanoseconds
after the end of the timeout; when the scan marks it for a resend the second
loop makes it pending again and the next period starts; otherwise, removed or
escalated, it waits no more. -/
def waitPeriods : List Int → Transaction → List Peer → List Int
  | [], _, _ => []
  | late :: rest, tx, PeerHeap =>
    tx.Timeout ::
      match scanTransaction (tx.SentAt + tx.Timeout + late) tx PeerHeap with
      | .ok (some tx1, PeerHeap1) =>
        if tx1.State = .TxResend then
          waitPeriods rest { tx1 with State := .TxPending } PeerHeap1
        else []
      | _ => []

/-- The doubling periods from `c` with `r` retries left, at most `n` of them,
capped at 64 s. -/
def doublingPeriods : Nat → Int → Int → List Int
  | 0, _, _ => []
  | n + 1, c, r =>
    c :: if 0 < r ∧ 2 * c ≤ 64 * Second then doublingPeriods n (2 * c) (r - 1) else []

/-- The layout limits of a node: a Chunk with at most 1024 data bytes, a
Directory with at most 16 entries, each the padded name followed by the hash
of the child node, or a Big or BigDirectory with at most 32 child hashes. -/
def LayoutOK (Sha : Bytes → Bytes) (n : Bytes) : Prop :=
  (∃ data : Bytes, n = Chunk :: data ∧ data.length ≤ ChunkSize) ∨
  (∃ es : List DirectoryEntry, es.length ≤ MaxDirEntries ∧
    n = Directory :: (es.map fun e => padTo32 e.Name ++ Sha e.Hash).flatten ∧
    n.length = 1 + 64 * es.length) ∨
  (∃ cs : List Bytes, cs.length ≤ MaxBigEntries ∧
    (n = Big :: (cs.map Sha).flatten ∨ n = BigDirectory :: (cs.map Sha).flatten) ∧
    n.length = 1 + 32 * cs.length)

/-- The directory with the entries `E` followed by the entry `name` that holds
`inner`, when `inner` is something. -/
def under (E : List (Bytes × FsNode)) (name : Bytes) : FsState → FsState
  | none => some (.dir E)
  | some c => some (.dir (E ++ [(name, c)]))

/-- A result about what the entry `name` holds, seen from the directory. -/
def liftUnder (E : List (Bytes × FsNode)) (name : Bytes)
    (r : Except Fault (FsState × Option RebuildError)) :
    Except Fault (FsState × Option RebuildError) :=
  match r with
  | .error e => .error e
  | .ok (c, err) => .ok (under E name c, err)

/-- The node `n` is stored under its hash. -/
def Stored (Sha : Bytes → Bytes) (M : GoMap Bytes) (n : Bytes) : Prop :=
  mapGet M (Sha n) = some n

/-- With enough fuel `RebuildNode` on the hash of `c`, at a path that holds
nothing, returns without error and leaves the subtree `t` there. -/
def TreeOK (Sha : Bytes → Bytes) (M : GoMap Bytes) (c : Bytes) (t : FsNode) : Prop :=
  ∃ N, ∀ fuel, N ≤ fuel → RebuildNode M fuel (Sha c) [] none = .ok (some t, none)

/-- The stored node `c` stands for the file content `d`: `RebuildNode` on its
hash writes a file that holds `d`, and either `c` is the Chunk node of `d` or
it is a Big node on which `WriteBigToFile` appends `d` to the open file. -/
def FileOK (Sha : Bytes → Bytes) (M : GoMap Bytes) (c : Bytes) (d : Bytes) : Prop :=
  Stored Sha M c ∧ TreeOK Sha M c (.file d) ∧
  (c = HashChunk d ∨
    (c.getD 0 0 = Big ∧ ∃ N, ∀ fuel, N ≤ fuel → ∀ d0,
      WriteBigToFile M [] fuel c (some (.file d0)) = .ok (some (.file (d0 ++ d)), none)))

/-- The stored node `c` stands for the directory entries `E`: with enough
fuel `RebuildNode` on its hash appends them to a directory whose names are
different from theirs, and creates the directory when the path holds
nothing. -/
def DirOK (Sha : Bytes → Bytes) (M : GoMap Bytes) (c : Bytes) (E : List (Bytes × FsNode)) :
    Prop :=
  Stored Sha M c ∧ ∃ N, ∀ fuel, N ≤ fuel →
    (∀ E0 : List (Bytes × FsNode), ((E0 ++ E).map Prod.fst).Nodup →
      RebuildNode M fuel (Sha c) [] (some (.dir E0)) = .ok (some (.dir (E0 ++ E)), none)) ∧
    ((E.map Prod.fst).Nodup →
      RebuildNode M fuel (Sha c) [] none = .ok (some (.dir E), none))

/-- A name that a directory listing can return and that fits the 32 bytes of
an entry: not empty, without a zero byte and without a separator, other than
`.` and `..`, and at most 32 bytes long. -/
def goodName (name : Bytes) : Bool :=
  name != [] && !name.contains 0 && !name.contains 47 && name != [46] && name != [46, 46] &&
    decide (name.length ≤ NameSize)

mutual
/-- A subtree in which no regular file is empty and in which the names of the
entries of each directory are good names, different from one another. -/
def goodTree : FsNode → Bool
  | .file data => data != []
  | .dir entries =>
    decide (entries.map Prod.fst).Nodup && (entries.map Prod.fst).all goodName &&
      goodEntries entries
/-- The subtrees of the entries of a directory are good trees. -/
def goodEntries : List (Bytes × FsNode) → Bool
  | [] => true
  | (_, child) :: rest => goodTree child && goodEntries rest
end

/-- A store whose single node refers to its own key: a `Big` node stored under
the key of 32 zero bytes whose only child reference is that key. -/
def selfLoopStore : MerkleState :=
  { MerkleMap := [(List.replicate 32 0, Big :: List.replicate 32 0)],
    CountMap := [(List.replicate 32 0, 1)] }

/-- The calls `UpdateMyMerkle` made one after the other for the successive
contents of the data directory; the result is the package variables after the
last call and the roots on which `DeleteMerkleTree` was called. -/
def updateAll (Sha : Bytes → Bytes) (PeerHeap : List Peer) (Peers : GoMap Nat) :
    List FsNode → LocalRoots → Except Fault (LocalRoots × List Bytes)
  | [], g => .ok (g, [])
  | t :: rest, g =>
    match UpdateMyMerkle Sha PeerHeap Peers t g with
    | .error e => .error e
    | .ok (g1, deleted) =>
      match updateAll Sha PeerHeap Peers rest g1 with
      | .error e => .error e
      | .ok (g2, ds) => .ok (g2, deleted.toList ++ ds)

/-- The calls `AddRootToPeer` made one after the other on the peer at pointer
`p` for the successive roots that it announces. -/
def addRoots (MyListroots : List Bytes) (p : Nat) :
    List Bytes → ClientState → Except Fault ClientState
  | [], st => .ok st
  | hash :: rest, st =>
    match AddRootToPeer MyListroots p hash st with
    | .error e => .error e
    | .ok st1 => addRoots MyListroots p rest st1

/-- A 32-byte digest used in examples in place of SHA-256: 31 zero bytes
followed by the sum of the input bytes and of the input length, modulo 256. -/
def sampleSha (b : Bytes) : Bytes :=
  List.replicate 31 0 ++ [(b.sum + b.length) % 256]

/-- A directory with one file `a` holding the byte 7. -/
def sampleTree1 : FsNode := .dir [([97], .file [7])]

/-- A directory with one file `b` holding the byte 7. -/
def sampleTree2 : FsNode := .dir [([98], .file [7])]

/-- A signer used in examples: it returns 64 bytes equal to 9. -/
def sampleSigner (_ : Bytes) : Except String Bytes := .ok (List.replicate 64 9)

/-- A resolver used in examples: the first four bytes of the text are the
address and the fifth is the port; a shorter text does not resolve. -/
def sampleResolve (s : Bytes) : Option UDPAddr :=
  if s.length < 5 then none else some { IP := s.take 4, Port := s.getD 4 0 }

/-- A peer with two candidate addresses and the cursor at 0. -/
def samplePeer : Peer :=
  { Name := [112], Addresses := [[10, 0, 0, 1, 80], [10, 0, 0, 2, 81]], AddrIndex := 0,
    ActiveAddr := none, PublicKey := none, LastSeen := 0, Root := none, Listroots := [],
    SharedKey := none, Window := NewSlidingWindow 1 32 10000, MerkleDownloadStart := 0,
    MerkleDone := false, RootChanged := false, State := .PeerDiscovered }

/-- The table after the creation of a RootRequest transaction at instant 0
and a scan two seconds later. -/
def sampleTable : TxTable :=
  [(7, { Id := 7, Peer := none, Addr := none, MsgType := RootRequest, SentAt := 2 * Second,
         Timeout := 2 * Second, Retries := 3, Msg := [], State := .TxResend, DhPriv := none })]

/-- The address 10.0.0.1, port 80. -/
def sampleAddr : UDPAddr := { IP := [10, 0, 0, 1], Port := 80 }

/-- A state with one associated peer at `sampleAddr`, which has one request in
flight in a window of size 32, and one pending DatumRequest transaction of id
5 for the hash made of 32 zero bytes. -/
def sampleDatumState : ClientState :=
  { PeerHeap := [{ samplePeer with
                    ActiveAddr := some sampleAddr, State := .PeerAssociated,
                    Window := { Size := 32, Min := 1, Max := 10000, InFlight := 1 } }],
    Peers := [([112], 0)],
    Transactions := [(5, { Id := 5, Peer := some 0, Addr := some sampleAddr,
                           MsgType := DatumRequest, SentAt := 0, Retries := 6,
                           Timeout := Second,
                           Msg := [0, 0, 0, 5, 3, 0, 32] ++ List.replicate 32 0,
                           State := .TxPending, DhPriv := none })],
    Store := MerkleState.empty,
    DatumQueue := [],
    observer := false,
    Events := [] }

/-- A Datum body that announces the hash made of 32 zero bytes for the node
`[1, 2, 3]`, whose digest under `sampleSha` ends with 9. -/
def sampleBadDatum : Bytes := List.replicate 32 0 ++ [1, 2, 3]

/-- A decryption used in examples: it always fails. -/
def sampleDecrypt (_ _ : Bytes) : Option Bytes := none

/-- A directory with one file, whose name is 33 bytes long. -/
def sampleTree33 : FsNode := .dir [(List.replicate 33 97, .file [7])]

/-- A Hello transaction to the peer at pointer 0, sent at instant 0 with a
timeout of one second and no retry left. -/
def sampleHelloTx : Transaction :=
  { Id := 9, Peer := some 0, Addr := some sampleAddr, MsgType := Hello, SentAt := 0,
    Retries := 0, Timeout := Second, Msg := [], State := .TxPending, DhPriv := none }

/-- Four contents of the data directory: one file `a` holding the byte 1, 2, 3
or 4. -/
def sampleDirs : List FsNode :=
  [.dir [([97], .file [1])], .dir [([97], .file [2])], .dir [([97], .file [3])],
   .dir [([97], .file [4])]]

/-- A state with the peer of `sampleDatumState` and a store that holds three
one-chunk trees, whose roots under `sampleSha` end with 3, 4 and 5. -/
def sampleRootsState : ClientState :=
  { sampleDatumState with
    Store := fillAll sampleSha [[0, 1], [0, 2], [0, 3]] MerkleState.empty }

/-- A verification used in examples: it panics on a nil key and accepts the
signatures of `sampleSigner`, 64 bytes equal to 9. -/
def sampleVerify (pub : Option Bytes) (_ sig : Bytes) : Except Fault Bool :=
  match pub with
  | none => .error .nilDereference
  | some _ => .ok (decide (sig = List.replicate 64 9))

/-- A key agreement used in examples: the shared key is the private key. -/
def sampleEcdh (priv _ : Bytes) : Except Fault Bytes := .ok priv

/-- A directory server used in examples: every peer has the key made of 64
bytes equal to 1. -/
def sampleKeys (_ : Bytes) : Option Bytes := some (List.replicate 64 1)

/-- The Hello frame of id 9 that `BuildHello` makes for the extensions 1 and
the name `p` with `sampleSigner`. -/
def sampleHelloFrame : Bytes :=
  [0, 0, 0, 9, 1, 0, 5, 0, 0, 0, 1, 112] ++ List.replicate 64 9

/-- A state with one peer, in state Expired, whose key is known, and one
pending Hello transaction of id 9 to that peer. -/
def sampleHelloState : ClientState :=
  { PeerHeap := [{ samplePeer with
                    ActiveAddr := some sampleAddr, State := .PeerExpired,
                    PublicKey := some (List.replicate 64 1) }],
    Peers := [([112], 0)],
    Transactions := [(9, { sampleHelloTx with Msg := sampleHelloFrame })],
    Store := MerkleState.empty,
    DatumQueue := [],
    observer := true,
    Events := [] }

/-- A node whose only peer, associated at `sampleAddr`, is banned. -/
def sampleBanState : NodeState :=
  { client := sampleDatumState, ban := [([112], 0)], RootHash := sampleSha [0, 1],
    globalId := 0, Sent := [] }

/-- A handler used in examples for the requests whose handlers are not
embedded: it does nothing. -/
def sampleHandler (_ : Parsed) (_ : Bytes) (_ : UDPAddr) (st : NodeState) :
    Except Fault NodeState := .ok st

/-- An encryption used in examples: it always fails. -/
def sampleEncrypt (_ _ : Bytes) : Option Bytes := none

/-- A NatTraversalRequest2 frame that declares a body of 262 bytes: the
address 10.0.0.9, the port 80 and 256 zero bytes. -/
def sampleNatFrame : Bytes :=
  [0, 0, 0, 1, 5, 1, 6] ++ ([10, 0, 0, 9, 0, 80] ++ List.replicate 256 0)

/-- The result of `parseRecvMessage` on `sampleNatFrame`. -/
def sampleNatParsed : Parsed :=
  { id := 1, typ := NatTraversalRequest2, bodyLen := 262,
    body := [10, 0, 0, 9, 0, 80] ++ List.replicate 256 0,
    signed := none, sig := none, ok := true }

/-! # Theorems -/

/-! ## Wire codec -/

theorem shl8_or (a b : Nat) (hb : b < 256) : (a <<< 8) ||| b = a * 256 + b := by
  have h := Nat.mul_add_lt_is_or (i := 8) (b := b) (by simpa using hb) a
  rw [Nat.shiftLeft_eq]
  simp only [Nat.reducePow] at h ⊢
  rw [Nat.mul_comm a 256]
  exact h.symm

theorem bigEndianUint32_putUint32 (v : Nat) (hv : v < 2 ^ 32) :
    bigEndianUint32 (putUint32 v) = v := by
  simp only [bigEndianUint32, putUint32, List.getD_cons_zero, List.getD_cons_succ]
  omega

theorem header_length (id typ n : Nat) :
    (putUint32 id ++ [typ] ++ putUint16 n).length = 7 := by
  simp [putUint32, putUint16]

theorem declaredLen_frame (id typ n : Nat) (rest : Bytes) (hn : n < 2 ^ 16) :
    declaredLen (putUint32 id ++ [typ] ++ putUint16 n ++ rest) = n := by
  simp only [declaredLen, putUint32, putUint16, OffsetLength, EndLength, List.cons_append,
    List.nil_append, List.getD_cons_zero, List.getD_cons_succ]
  rw [shl8_or _ _ (by omega)]
  omega

theorem slice_append_left (a b : Bytes) (hi : Nat) (h : hi = a.length) :
    slice (a ++ b) 0 hi = a := by
  subst h
  simp [slice]

theorem slice_append_mid (a b c : Bytes) (lo hi : Nat) (hlo : lo = a.length)
    (hhi : hi = lo + b.length) : slice (a ++ b ++ c) lo hi = b := by
  subst hlo; subst hhi
  simp [slice]

theorem slice_append_right (a b : Bytes) (n k : Nat) (h : n = a.length) :
    slice (a ++ b) n (n + k) = b.take k := by
  subst h
  simp [slice]

/-- What `parseRecvMessage` returns on a header followed by the declared body
and any trailing bytes. -/
theorem parseRecvMessage_frame (id typ : Nat) (body rest : Bytes)
    (hid : id < 2 ^ 32) (hlen : body.length < 2 ^ 16) :
    parseRecvMessage (putUint32 id ++ [typ] ++ putUint16 body.length ++ body ++ rest) =
      .ok { id := id, typ := typ, bodyLen := body.length, body := body,
            signed := if rest.length < 64 then none
                      else some (putUint32 id ++ [typ] ++ putUint16 body.length ++ body),
            sig := if rest.length < 64 then none else some (rest.take 64),
            ok := true } := by
  have hdl := declaredLen_frame id typ body.length (body ++ rest) hlen
  have hhl := header_length id typ body.length
  have hlenpkt : (putUint32 id ++ [typ] ++ putUint16 body.length ++ body ++ rest).length
      = 7 + body.length + rest.length := by
    simp only [List.length_append, hhl]
  have hID : getID (putUint32 id ++ [typ] ++ putUint16 body.length ++ body ++ rest)
      = (id, true) := by
    have : ¬ (7 + body.length + rest.length < 7) := by omega
    simp only [getID, hlenpkt, HeaderSize, OffsetBody, this, if_false]
    have hs : slice (putUint32 id ++ [typ] ++ putUint16 body.length ++ body ++ rest) OffsetID
        (OffsetID + SizeID) = putUint32 id := by
      simp [slice, putUint32, OffsetID, SizeID]
    rw [hs, bigEndianUint32_putUint32 id hid]
  have hTy : getType (putUint32 id ++ [typ] ++ putUint16 body.length ++ body ++ rest)
      = (typ, true) := by
    have : ¬ (7 + body.length + rest.length < 5) := by omega
    simp only [getType, hlenpkt, OffsetLength, this, if_false]
    simp [putUint32, OffsetType]
  have hdl2 : declaredLen (putUint32 id ++ [typ] ++ putUint16 body.length ++ body ++ rest)
      = body.length := by
    rw [List.append_assoc]; exact hdl
  have hBody : getBody (putUint32 id ++ [typ] ++ putUint16 body.length ++ body ++ rest)
      = (body, body.length, true) := by
    have h1 : ¬ (7 + body.length + rest.length < 7) := by omega
    have h2 : ¬ (7 + body.length + rest.length < 7 + body.length) := by omega
    simp only [getBody, hlenpkt, HeaderSize, OffsetBody, h1, h2, hdl2, if_false]
    rw [slice_append_mid _ _ _ _ _ hhl.symm rfl]
  have hSigned : getSigned (putUint32 id ++ [typ] ++ putUint16 body.length ++ body ++ rest)
      = (some (putUint32 id ++ [typ] ++ putUint16 body.length ++ body), true) := by
    have h1 : ¬ (7 + body.length + rest.length < 7) := by omega
    have h2 : ¬ (7 + body.length + rest.length < 7 + body.length) := by omega
    simp only [getSigned, hlenpkt, HeaderSize, OffsetBody, h1, h2, hdl2, if_false]
    rw [slice_append_left _ _ _ (by rw [List.length_append, hhl])]
  have hSig : getSig (putUint32 id ++ [typ] ++ putUint16 body.length ++ body ++ rest)
      = .ok (if rest.length < 64 then (none, false) else (some (rest.take 64), true)) := by
    have hi5 : index (putUint32 id ++ [typ] ++ putUint16 body.length ++ body ++ rest)
        OffsetLength = .ok (body.length / 2 ^ 8 % 256) := by
      simp [index, putUint32, putUint16, OffsetLength]
    have hi6 : index (putUint32 id ++ [typ] ++ putUint16 body.length ++ body ++ rest)
        EndLength = .ok (body.length % 256) := by
      simp [index, putUint32, putUint16, EndLength]
    have hl : ((body.length / 2 ^ 8 % 256) <<< 8) ||| (body.length % 256) = body.length := by
      rw [shl8_or _ _ (by omega)]; omega
    simp only [getSig, hi5, hi6, bind, Except.bind, hl, hlenpkt, HeaderSize, OffsetBody,
      SizeSignature]
    by_cases hr : rest.length < 64
    · have : 7 + body.length + rest.length < 7 + body.length + 64 := by omega
      simp [this, hr, pure, Except.pure]
    · have : ¬ (7 + body.length + rest.length < 7 + body.length + 64) := by omega
      simp only [this, hr, if_false, pure, Except.pure]
      rw [slice_append_right _ _ _ _ (by rw [List.length_append, hhl])]
  simp only [parseRecvMessage, hID, hTy, hBody, hSigned, hSig]
  by_cases hr : rest.length < 64 <;> simp [hr]

/-- The frame that `BuildMessage` returns is the header, the body and, when
signing, the bytes returned by the signer. -/
theorem BuildMessage_ok (SignMessage : Bytes → Except String Bytes) (id types : Nat)
    (body : Bytes) (sign : Bool) (frame : Bytes) (hbody : body.length ≤ 65535)
    (hbuild : BuildMessage SignMessage id types body sign = .ok frame) :
    ∃ rest, frame = putUint32 id ++ [types] ++ putUint16 body.length ++ body ++ rest ∧
      (sign = false → rest = []) ∧
      (sign = true → SignMessage (putUint32 id ++ [types] ++ putUint16 body.length ++ body)
        = .ok rest) := by
  have hmod : body.length % 2 ^ 16 = body.length := Nat.mod_eq_of_lt (by omega)
  unfold BuildMessage at hbuild
  rw [hmod] at hbuild
  cases sign with
  | false =>
    simp only [Bool.false_eq_true, if_false, Except.ok.injEq] at hbuild
    exact ⟨[], by simp [← hbuild], fun _ => rfl, fun h => by simp at h⟩
  | true =>
    cases hs : SignMessage (putUint32 id ++ [types] ++ putUint16 body.length ++ body) with
    | error e =>
      rw [if_pos rfl] at hbuild
      rw [hs] at hbuild
      exact Except.noConfusion hbuild
    | ok sig =>
      rw [if_pos rfl] at hbuild
      rw [hs] at hbuild
      exact ⟨sig, (Except.ok.inj hbuild).symm, fun h => by simp at h, fun _ => rfl⟩

/-- C1: for every 32-bit id, every type, every body of at most 65535 bytes and
either signing choice, `parseRecvMessage` applied to the frame produced by
`BuildMessage` returns ok = true with the same id, the same type, a body length
equal to `len(body)` and the original body (whatever bytes the signer
appended). -/
theorem parseRecvMessage_BuildMessage (SignMessage : Bytes → Except String Bytes)
    (id types : Nat) (body : Bytes) (sign : Bool) (frame : Bytes)
    (hid : id < 2 ^ 32) (hbody : body.length ≤ 65535)
    (hbuild : BuildMessage SignMessage id types body sign = .ok frame) :
    ∃ p, parseRecvMessage frame = .ok p ∧ p.ok = true ∧ p.id = id ∧ p.typ = types ∧
      p.bodyLen = body.length ∧ p.body = body := by
  obtain ⟨rest, hframe, -, -⟩ := BuildMessage_ok SignMessage id types body sign frame hbody hbuild
  rw [hframe, parseRecvMessage_frame id types body rest hid (by omega)]
  exact ⟨_, rfl, rfl, rfl, rfl, rfl, rfl⟩

/-- Witness of C1: a signed Hello frame with id 258 and body 10, 20, 30. -/
theorem parseRecvMessage_BuildMessage_witness :
    ∃ p, parseRecvMessage ([0, 0, 1, 2, 1, 0, 3, 10, 20, 30] ++ List.replicate 64 9) = .ok p ∧
      p.ok = true ∧ p.id = 258 ∧ p.typ = Hello ∧ p.bodyLen = [10, 20, 30].length ∧
      p.body = [10, 20, 30] :=
  parseRecvMessage_BuildMessage sampleSigner 258 Hello [10, 20, 30] true
    ([0, 0, 1, 2, 1, 0, 3, 10, 20, 30] ++ List.replicate 64 9) (by decide) (by decide) rfl

/-- C2 (amended): for every frame produced by `BuildMessage` (body of at most
65535 bytes, signer returning 64 bytes), `parseRecvMessage` returns, when the
frame was signed, the first `7 + len(body)` bytes of the frame, which are
id‖type‖len‖body, as signed bytes, and the 64 appended signature bytes as
signature; when the frame was not signed it returns neither signed bytes nor
signature (both are nil). -/
theorem parseRecvMessage_signed_part (SignMessage : Bytes → Except String Bytes)
    (id types : Nat) (body : Bytes) (sign : Bool) (frame : Bytes)
    (hid : id < 2 ^ 32) (hbody : body.length ≤ 65535)
    (hsig : ∀ m s, SignMessage m = .ok s → s.length = 64)
    (hbuild : BuildMessage SignMessage id types body sign = .ok frame) :
    ∃ p, parseRecvMessage frame = .ok p ∧
      (sign = true →
        p.signed = some (frame.take (7 + body.length)) ∧
        frame.take (7 + body.length)
          = putUint32 id ++ [types] ++ putUint16 body.length ++ body ∧
        ∃ sig, SignMessage (frame.take (7 + body.length)) = .ok sig ∧
          frame = frame.take (7 + body.length) ++ sig ∧ p.sig = some sig) ∧
      (sign = false → p.signed = none ∧ p.sig = none) := by
  obtain ⟨rest, hframe, hns, hs⟩ :=
    BuildMessage_ok SignMessage id types body sign frame hbody hbuild
  have hhl := header_length id types body.length
  have htake : frame.take (7 + body.length)
      = putUint32 id ++ [types] ++ putUint16 body.length ++ body := by
    rw [hframe]
    exact List.take_left' (by rw [List.length_append, hhl])
  rw [htake]
  rw [hframe, parseRecvMessage_frame id types body rest hid (by omega)]
  refine ⟨_, rfl, ?_, ?_⟩
  · intro h
    have hrest := hs h
    have hl := hsig _ _ hrest
    have : ¬ rest.length < 64 := by omega
    refine ⟨by simp [this], rfl, rest, hrest, rfl, ?_⟩
    · simp only [this, if_false]
      rw [List.take_of_length_le (by omega)]
  · intro h
    have := hns h
    subst this
    simp

/-- Witness of C2 (amended): the signed Hello frame of the C1 witness. -/
theorem parseRecvMessage_signed_part_witness :
    ∃ p, parseRecvMessage ([0, 0, 1, 2, 1, 0, 3, 10, 20, 30] ++ List.replicate 64 9) = .ok p ∧
      (true = true →
        p.signed = some (([0, 0, 1, 2, 1, 0, 3, 10, 20, 30] ++ List.replicate 64 9).take
          (7 + [10, 20, 30].length)) ∧
        ([0, 0, 1, 2, 1, 0, 3, 10, 20, 30] ++ List.replicate 64 9).take (7 + [10, 20, 30].length)
          = putUint32 258 ++ [Hello] ++ putUint16 [10, 20, 30].length ++ [10, 20, 30] ∧
        ∃ sig, sampleSigner (([0, 0, 1, 2, 1, 0, 3, 10, 20, 30] ++ List.replicate 64 9).take
            (7 + [10, 20, 30].length)) = .ok sig ∧
          [0, 0, 1, 2, 1, 0, 3, 10, 20, 30] ++ List.replicate 64 9
            = ([0, 0, 1, 2, 1, 0, 3, 10, 20, 30] ++ List.replicate 64 9).take
              (7 + [10, 20, 30].length) ++ sig ∧
          p.sig = some sig) ∧
      (true = false → p.signed = none ∧ p.sig = none) :=
  parseRecvMessage_signed_part sampleSigner 258 Hello [10, 20, 30] true
    ([0, 0, 1, 2, 1, 0, 3, 10, 20, 30] ++ List.replicate 64 9) (by decide) (by decide)
    (fun _ s h => by cases h; rfl) rfl

/-- C2 fails as stated: the unsigned Ping frame with id 7 is the 7 bytes
`0 0 0 7 0 0 0`, and `parseRecvMessage` returns nil, not these 7 bytes, as its
signed bytes. -/
theorem parseRecvMessage_unsigned_counterexample :
    BuildMessage sampleSigner 7 Ping [] false = .ok [0, 0, 0, 7, 0, 0, 0] ∧
    parseRecvMessage [0, 0, 0, 7, 0, 0, 0] =
      .ok { id := 7, typ := Ping, bodyLen := 0, body := [], signed := none, sig := none,
            ok := true } ∧
    (none : Option Bytes) ≠ some (List.take (7 + 0) [0, 0, 0, 7, 0, 0, 0]) := by
  refine ⟨rfl, rfl, ?_⟩
  simp

theorem declaredLen_eq (pkt : Bytes) (hb : IsBytes pkt) :
    declaredLen pkt = 256 * pkt.getD 5 0 + pkt.getD 6 0 := by
  unfold declaredLen OffsetLength EndLength
  have h6 : pkt.getD 6 0 < 256 := by
    rw [List.getD_eq_getElem?_getD]
    cases h : pkt[6]? with
    | none => simp
    | some x =>
      have := List.getElem?_mem h
      simpa using hb x this
  rw [shl8_or _ _ h6]; omega

theorem index_of_lt (b : Bytes) (i : Nat) (h : i < b.length) :
    index b i = .ok (b.getD i 0) := by
  unfold index
  rw [List.get?_eq_getElem?, List.getD_eq_getElem?_getD, List.getElem?_eq_getElem h]
  rfl

theorem parseRecvMessage_short (pkt : Bytes) (h : pkt.length < 7) :
    parseRecvMessage pkt = .ok Parsed.failure := by
  simp [parseRecvMessage, getID, HeaderSize, OffsetBody, h]

theorem parseRecvMessage_truncated (pkt : Bytes) (h : pkt.length < 7 + declaredLen pkt) :
    parseRecvMessage pkt = .ok Parsed.failure := by
  by_cases h7 : pkt.length < 7
  · exact parseRecvMessage_short pkt h7
  · have h5 : ¬ pkt.length < 5 := by omega
    simp [parseRecvMessage, getID, getType, getBody, HeaderSize, OffsetBody, OffsetLength, h7,
      h5, h]

/-- The result of `parseRecvMessage` on a packet that holds its declared body. -/
theorem parseRecvMessage_complete (pkt : Bytes) (h7 : 7 ≤ pkt.length)
    (h : 7 + declaredLen pkt ≤ pkt.length) :
    parseRecvMessage pkt =
      .ok { id := bigEndianUint32 (slice pkt 0 4), typ := pkt.getD 4 0,
            bodyLen := declaredLen pkt,
            body := slice pkt 7 (7 + declaredLen pkt),
            signed := if pkt.length < 7 + declaredLen pkt + 64 then none
                      else some (slice pkt 0 (7 + declaredLen pkt)),
            sig := if pkt.length < 7 + declaredLen pkt + 64 then none
                   else some (slice pkt (7 + declaredLen pkt) (7 + declaredLen pkt + 64)),
            ok := true } := by
  have h7n : ¬ pkt.length < 7 := by omega
  have h5 : ¬ pkt.length < 5 := by omega
  have hn : ¬ pkt.length < 7 + declaredLen pkt := by omega
  have hsig : getSig pkt = .ok (if pkt.length < 7 + declaredLen pkt + 64 then (none, false)
      else (some (slice pkt (7 + declaredLen pkt) (7 + declaredLen pkt + 64)), true)) := by
    simp only [getSig, index_of_lt pkt OffsetLength (by unfold OffsetLength; omega),
      index_of_lt pkt EndLength (by unfold EndLength; omega), bind, Except.bind, HeaderSize,
      OffsetBody, SizeSignature, pure, Except.pure]
    unfold declaredLen
    split <;> rfl
  simp only [parseRecvMessage, getID, getType, getBody, getSigned, hsig, HeaderSize, OffsetBody,
    OffsetLength, OffsetID, SizeID, OffsetType, h7n, h5, hn, if_false, Bool.not_true,
    Bool.false_eq_true, Bool.not_false]
  by_cases hs : pkt.length < 7 + declaredLen pkt + 64 <;> simp [hs]

/-- C3: `parseRecvMessage` returns the failure result (ok = false) for every
packet shorter than 7 bytes and for every packet shorter than `7 + len`, where
`len` is the big-endian 16-bit value of bytes 5..6; for every packet of at
least `7 + len` bytes (in particular one whose type requires no signature) it
returns ok = true with the id read big-endian from bytes 0..3, the type from
byte 4 and the body equal to bytes `7 .. 7+len`. -/
theorem parseRecvMessage_lengths (pkt : Bytes) (hb : IsBytes pkt) :
    (pkt.length < 7 → parseRecvMessage pkt = .ok Parsed.failure) ∧
    (pkt.length < 7 + (256 * pkt.getD 5 0 + pkt.getD 6 0) →
      parseRecvMessage pkt = .ok Parsed.failure) ∧
    (7 ≤ pkt.length → 7 + (256 * pkt.getD 5 0 + pkt.getD 6 0) ≤ pkt.length →
      ∃ p, parseRecvMessage pkt = .ok p ∧ p.ok = true ∧
        p.id = pkt.getD 0 0 * 2 ^ 24 + pkt.getD 1 0 * 2 ^ 16 + pkt.getD 2 0 * 2 ^ 8
          + pkt.getD 3 0 ∧
        p.typ = pkt.getD 4 0 ∧
        p.bodyLen = 256 * pkt.getD 5 0 + pkt.getD 6 0 ∧
        p.body = (pkt.drop 7).take (256 * pkt.getD 5 0 + pkt.getD 6 0)) := by
  rw [← declaredLen_eq pkt hb]
  refine ⟨parseRecvMessage_short pkt, parseRecvMessage_truncated pkt, ?_⟩
  intro h7 h
  rw [parseRecvMessage_complete pkt h7 h]
  refine ⟨_, rfl, rfl, ?_, rfl, rfl, ?_⟩
  · simp only [bigEndianUint32, slice, List.getD_eq_getElem?_getD, List.drop_zero,
      List.getElem?_take]
    simp
  · simp [slice]

/-- Witness of C3: a RootRequest-typed packet with a 2-byte body. -/
theorem parseRecvMessage_lengths_witness :
    ∃ p, parseRecvMessage [0, 0, 1, 2, 2, 0, 2, 5, 6] = .ok p ∧ p.ok = true ∧
      p.id = [0, 0, 1, 2, 2, 0, 2, 5, 6].getD 0 0 * 2 ^ 24
        + [0, 0, 1, 2, 2, 0, 2, 5, 6].getD 1 0 * 2 ^ 16
        + [0, 0, 1, 2, 2, 0, 2, 5, 6].getD 2 0 * 2 ^ 8 + [0, 0, 1, 2, 2, 0, 2, 5, 6].getD 3 0 ∧
      p.typ = [0, 0, 1, 2, 2, 0, 2, 5, 6].getD 4 0 ∧
      p.bodyLen = 256 * [0, 0, 1, 2, 2, 0, 2, 5, 6].getD 5 0 + [0, 0, 1, 2, 2, 0, 2, 5, 6].getD 6 0 ∧
      p.body = ([0, 0, 1, 2, 2, 0, 2, 5, 6].drop 7).take
        (256 * [0, 0, 1, 2, 2, 0, 2, 5, 6].getD 5 0 + [0, 0, 1, 2, 2, 0, 2, 5, 6].getD 6 0) :=
  (parseRecvMessage_lengths [0, 0, 1, 2, 2, 0, 2, 5, 6] (by decide)).2.2 (by decide) (by decide)

/-- C4 fails as stated: a 7-byte Hello packet with declared length 0 carries no
signature, its length 7 is below `7 + 0 + 64`, and `parseRecvMessage` returns
ok = true (with nil signed bytes and nil signature). -/
theorem parseRecvMessage_signature_counterexample :
    requiresSignature Hello = true ∧
    [0, 0, 0, 0, Hello, 0, 0].length < 7 + 0 + 64 ∧
    parseRecvMessage [0, 0, 0, 0, Hello, 0, 0] =
      .ok { id := 0, typ := Hello, bodyLen := 0, body := [], signed := none, sig := none,
            ok := true } :=
  ⟨rfl, by decide, rfl⟩

/-- C4 (amended): for every packet of at least `7 + len` bytes whose total
length is below `7 + len + 64`, whatever its type (the types that require a
signature included), `parseRecvMessage` returns ok = true with nil signed bytes
and nil signature; the parser does not look at the type. -/
theorem parseRecvMessage_missing_signature (pkt : Bytes) (hb : IsBytes pkt)
    (h7 : 7 ≤ pkt.length) (hlo : 7 + (256 * pkt.getD 5 0 + pkt.getD 6 0) ≤ pkt.length)
    (hhi : pkt.length < 7 + (256 * pkt.getD 5 0 + pkt.getD 6 0) + 64) :
    ∃ p, parseRecvMessage pkt = .ok p ∧ p.ok = true ∧ p.typ = pkt.getD 4 0 ∧
      p.signed = none ∧ p.sig = none := by
  rw [← declaredLen_eq pkt hb] at hlo hhi
  rw [parseRecvMessage_complete pkt h7 hlo]
  exact ⟨_, rfl, rfl, rfl, by simp [hhi], by simp [hhi]⟩

/-- Witness of C4 (amended): a NoDatum packet with 1 body byte and 3 trailing bytes. -/
theorem parseRecvMessage_missing_signature_witness :
    ∃ p, parseRecvMessage [0, 0, 0, 9, NoDatum, 0, 1, 77, 1, 2, 3] = .ok p ∧ p.ok = true ∧
      p.typ = [0, 0, 0, 9, NoDatum, 0, 1, 77, 1, 2, 3].getD 4 0 ∧
      p.signed = none ∧ p.sig = none :=
  parseRecvMessage_missing_signature [0, 0, 0, 9, NoDatum, 0, 1, 77, 1, 2, 3] (by decide)
    (by decide) (by decide) (by decide)

/-! ## Data integrity -/

/-- C5: `VerifyDataIntegrity(body, requestHash)` returns true if and only if
`body` has at least 32 bytes, its first 32 bytes equal `requestHash`, and the
hash of the remaining bytes equals `requestHash`. -/
theorem VerifyDataIntegrity_iff (Sha : Bytes → Bytes) (body requestHash : Bytes) :
    VerifyDataIntegrity Sha body requestHash = true ↔
      32 ≤ body.length ∧ body.take 32 = requestHash ∧ Sha (body.drop 32) = requestHash := by
  unfold VerifyDataIntegrity HashSize bytesEqual slice
  by_cases hl : body.length < 32
  · simp only [hl, if_true]
    constructor
    · intro h; cases h
    · intro h; omega
  · have hd : List.take (body.length - 32) (List.drop 32 body) = List.drop 32 body :=
      List.take_of_length_le (by simp)
    simp only [hl, if_false, List.drop_zero, Nat.sub_zero, hd]
    by_cases h1 : requestHash = Sha (List.drop 32 body)
    · by_cases h2 : requestHash = List.take 32 body
      · simp [← h1, ← h2]; omega
      · simp only [← h1, decide_True, Bool.not_true, h2, decide_False, Bool.not_false]
        simp
        intro _ h; exact absurd h.symm h2
    · simp only [h1, decide_False, Bool.not_false, if_true]
      simp
      intro _ _ h; exact absurd h.symm h1

/-! ## Go maps -/

theorem mapGet_mapDelete_self {β : Type} (m : GoMap β) (k : Bytes) :
    mapGet (mapDelete m k) k = none := by
  induction m with
  | nil => rfl
  | cons p m ih =>
    obtain ⟨k1, v⟩ := p
    by_cases h : k1 = k
    · simp [mapDelete, h, ih]
    · simp [mapDelete, mapGet, h, ih]

theorem mapGet_mapDelete_ne {β : Type} (m : GoMap β) (k k2 : Bytes) (hne : k2 ≠ k) :
    mapGet (mapDelete m k) k2 = mapGet m k2 := by
  induction m with
  | nil => rfl
  | cons p m ih =>
    obtain ⟨k1, v⟩ := p
    by_cases h : k1 = k
    · have h3 : ¬ k = k2 := fun h2 => hne h2.symm
      subst h
      simp [mapDelete, mapGet, ih, h3]
    · by_cases h2 : k1 = k2
      · subst h2
        simp [mapDelete, mapGet, h]
      · simp [mapDelete, mapGet, h, h2, ih]

theorem mapGet_mapSet_self {β : Type} (m : GoMap β) (k : Bytes) (v : β) :
    mapGet (mapSet m k v) k = some v := by
  simp [mapSet, mapGet]

theorem mapGet_mapSet_ne {β : Type} (m : GoMap β) (k k2 : Bytes) (v : β) (hne : k2 ≠ k) :
    mapGet (mapSet m k v) k2 = mapGet m k2 := by
  have : k ≠ k2 := fun h => hne h.symm
  simp [mapSet, mapGet, this, mapGet_mapDelete_ne m k k2 hne]

theorem countOf_mapSet_self (c : GoMap Nat) (k : Bytes) (v : Nat) :
    countOf (mapSet c k v) k = v := by
  simp [countOf, mapGet_mapSet_self]

theorem countOf_congr (c1 c2 : GoMap Nat) (k : Bytes) (h : mapGet c1 k = mapGet c2 k) :
    countOf c1 k = countOf c2 k := by
  simp [countOf, h]

/-! ## `FillMap` -/

theorem FillMap_absent (Sha : Bytes → Bytes) (node : Bytes) (s : MerkleState)
    (h : mapGet s.MerkleMap (Sha node) = none) :
    FillMap Sha node s =
      { MerkleMap := mapSet s.MerkleMap (Sha node) node,
        CountMap := mapSet s.CountMap (Sha node) 1 } := by
  simp [FillMap, h]

theorem FillMap_present (Sha : Bytes → Bytes) (node old : Bytes) (s : MerkleState)
    (h : mapGet s.MerkleMap (Sha node) = some old) :
    FillMap Sha node s =
      { MerkleMap := s.MerkleMap,
        CountMap := mapSet s.CountMap (Sha node)
          ((countOf s.CountMap (Sha node) + 1) % uintSize) } := by
  simp [FillMap, h]

/-- C7 (amended): for every node `n` and every store state, `FillMap(n)` with
key = hash of `n`: if the key is absent it inserts `store[key] = n` and sets
`refcount[key] = 1`; if the key is present it leaves `store[key]` unchanged and
increases `refcount[key]` by 1 modulo `2^64`, that is by exactly 1 whenever
`refcount[key] < 2^64 - 1`; in both cases every other key of the store and of
the refcount map is unchanged. -/
theorem FillMap_spec (Sha : Bytes → Bytes) (node : Bytes) (s : MerkleState) :
    (mapGet s.MerkleMap (Sha node) = none →
      mapGet (FillMap Sha node s).MerkleMap (Sha node) = some node ∧
      mapGet (FillMap Sha node s).CountMap (Sha node) = some 1) ∧
    (∀ old, mapGet s.MerkleMap (Sha node) = some old →
      mapGet (FillMap Sha node s).MerkleMap (Sha node) = some old ∧
      countOf (FillMap Sha node s).CountMap (Sha node)
        = (countOf s.CountMap (Sha node) + 1) % uintSize ∧
      (countOf s.CountMap (Sha node) < uintSize - 1 →
        countOf (FillMap Sha node s).CountMap (Sha node)
          = countOf s.CountMap (Sha node) + 1)) ∧
    (∀ k, k ≠ Sha node →
      mapGet (FillMap Sha node s).MerkleMap k = mapGet s.MerkleMap k ∧
      mapGet (FillMap Sha node s).CountMap k = mapGet s.CountMap k) := by
  refine ⟨?_, ?_, ?_⟩
  · intro h
    rw [FillMap_absent Sha node s h]
    exact ⟨mapGet_mapSet_self _ _ _, mapGet_mapSet_self _ _ _⟩
  · intro old h
    rw [FillMap_present Sha node old s h]
    refine ⟨h, countOf_mapSet_self _ _ _, ?_⟩
    intro hlt
    simp only [countOf_mapSet_self]
    exact Nat.mod_eq_of_lt (by unfold uintSize at *; omega)
  · intro k hk
    cases h : mapGet s.MerkleMap (Sha node) with
    | none =>
      rw [FillMap_absent Sha node s h]
      exact ⟨mapGet_mapSet_ne _ _ _ _ hk, mapGet_mapSet_ne _ _ _ _ hk⟩
    | some old =>
      rw [FillMap_present Sha node old s h]
      exact ⟨rfl, mapGet_mapSet_ne _ _ _ _ hk⟩

/-- Witness of C7 (amended): `FillMap` of the node `0 7` in the empty store. -/
theorem FillMap_spec_witness :
    mapGet (FillMap sampleSha [0, 7] MerkleState.empty).MerkleMap (sampleSha [0, 7])
      = some [0, 7] ∧
    mapGet (FillMap sampleSha [0, 7] MerkleState.empty).CountMap (sampleSha [0, 7]) = some 1 :=
  (FillMap_spec sampleSha [0, 7] MerkleState.empty).1 rfl

/-- C7 fails as stated: in a store that holds the node `0 7` with a reference
count of `2^64 - 1`, `FillMap` of that node leaves a reference count of 0, not
of `2^64`. -/
theorem FillMap_wraps_counterexample :
    mapGet [(sampleSha [0, 7], [0, 7])] (sampleSha [0, 7]) = some [0, 7] ∧
    countOf [(sampleSha [0, 7], 2 ^ 64 - 1)] (sampleSha [0, 7]) = 2 ^ 64 - 1 ∧
    countOf (FillMap sampleSha [0, 7]
      { MerkleMap := [(sampleSha [0, 7], [0, 7])],
        CountMap := [(sampleSha [0, 7], 2 ^ 64 - 1)] }).CountMap (sampleSha [0, 7]) = 0 := by
  refine ⟨by decide, by decide, ?_⟩
  rw [FillMap_present sampleSha [0, 7] [0, 7] _ (by decide)]
  simp only [countOf_mapSet_self]
  decide

/-! ## Merkle store: traversals -/

theorem unvisited_mono (K v1 v2 : List Bytes) (h : ∀ x ∈ v1, x ∈ v2) :
    unvisited K v2 ≤ unvisited K v1 := by
  induction K with
  | nil => simp [unvisited]
  | cons k K ih =>
    unfold unvisited at *
    by_cases h2 : k ∈ v2
    · simp only [List.filter_cons, h2, not_true_eq_false, decide_False]
      by_cases h1 : k ∈ v1
      · simpa [h1] using ih
      · simp only [h1, not_false_eq_true, decide_True, if_true, List.length_cons]
        simp at ih ⊢
        omega
    · have h1 : k ∉ v1 := fun hh => h2 (h k hh)
      simp only [List.filter_cons, h2, h1, not_false_eq_true, decide_True, if_true,
        List.length_cons]
      simp at ih ⊢
      omega

theorem unvisited_lt (K v : List Bytes) (k : Bytes) (hk : k ∈ K) (hv : k ∉ v) :
    unvisited K (k :: v) < unvisited K v := by
  induction K with
  | nil => cases hk
  | cons a K ih =>
    have hmono := unvisited_mono K v (k :: v) (fun x hx => List.mem_cons_of_mem _ hx)
    unfold unvisited at *
    by_cases ha : a = k
    · subst ha
      simp [hv]
      simp at hmono
      omega
    · have hk2 : k ∈ K := by
        cases hk with
        | head => exact absurd rfl ha
        | tail _ h => exact h
      have := ih hk2
      by_cases hav : a ∈ v
      · simp [hav, ha]
        simpa using this
      · simp [hav, ha]
        simpa using this

theorem unvisited_nil (K : List Bytes) : unvisited K [] = K.length := by
  simp [unvisited]

theorem mapGet_mem_keys {β : Type} (m : GoMap β) (k : Bytes) (v : β)
    (h : mapGet m k = some v) : k ∈ mapKeys m := by
  induction m with
  | nil => simp [mapGet] at h
  | cons p m ih =>
    obtain ⟨k1, v1⟩ := p
    by_cases hk : k1 = k
    · simp [mapKeys, hk]
    · simp only [mapGet, hk, if_false] at h
      have := ih h
      simp only [mapKeys, List.map_cons, List.mem_cons] at this ⊢
      exact Or.inr this

theorem verifyChildren_post (M : GoMap Bytes)
    (visit : Bytes → List Bytes → Except Fault (Bool × List Bytes))
    (hvisit : ∀ c v b v1, visit c v = .ok (b, v1) →
      (∀ x ∈ v, x ∈ v1) ∧ (b = true → c ∈ v1 ∧ ClosedSince M v v1) ∧
      (b = false → ∃ h1, Reachable M c h1 ∧ ∀ node, mapGet M h1 = some node → 3 < node.getD 0 0))
    (cs : List Bytes) :
    ∀ v b v1, verifyChildren visit cs v = .ok (b, v1) →
      (∀ x ∈ v, x ∈ v1) ∧ (b = true → (∀ c ∈ cs, c ∈ v1) ∧ ClosedSince M v v1) ∧
      (b = false → ∃ c ∈ cs, ∃ h1, Reachable M c h1 ∧
        ∀ node, mapGet M h1 = some node → 3 < node.getD 0 0) := by
  induction cs with
  | nil =>
    intro v b v1 h
    simp only [verifyChildren, Except.ok.injEq, Prod.mk.injEq] at h
    obtain ⟨hb, hv⟩ := h
    subst hb; subst hv
    refine ⟨fun x hx => hx, fun _ => ⟨fun c hc => (by cases hc), fun x hx hnx => absurd hx hnx⟩,
      fun h => (by cases h)⟩
  | cons c rest ih =>
    intro v b v1 h
    unfold verifyChildren at h
    cases hc : visit c v with
    | error e => rw [hc] at h; cases h
    | ok r =>
      obtain ⟨b0, v0⟩ := r
      rw [hc] at h
      obtain ⟨hsub0, htrue0, hfalse0⟩ := hvisit c v b0 v0 hc
      cases b0 with
      | false =>
        simp only [Except.ok.injEq, Prod.mk.injEq] at h
        obtain ⟨hb, hv⟩ := h
        subst hb; subst hv
        refine ⟨hsub0, fun h => (by cases h), fun _ => ?_⟩
        obtain ⟨h1, hr, hm⟩ := hfalse0 rfl
        exact ⟨c, List.mem_cons_self _ _, h1, hr, hm⟩
      | true =>
        simp only at h
        obtain ⟨hsub1, htrue1, hfalse1⟩ := ih v0 b v1 h
        obtain ⟨hc0, hcl0⟩ := htrue0 rfl
        refine ⟨fun x hx => hsub1 x (hsub0 x hx), ?_, ?_⟩
        · intro hb
          obtain ⟨hall, hcl1⟩ := htrue1 hb
          refine ⟨?_, ?_⟩
          · intro c1 hc1
            cases hc1 with
            | head => exact hsub1 _ hc0
            | tail _ hmem => exact hall c1 hmem
          · intro x hx hnx
            by_cases hx0 : x ∈ v0
            · obtain ⟨n, hn, hch⟩ := hcl0 x hx0 hnx
              exact ⟨n, hn, fun c1 hc1 => hsub1 _ (hch c1 hc1)⟩
            · exact hcl1 x hx hx0
        · intro hb
          obtain ⟨c1, hc1, h1, hr, hm⟩ := hfalse1 hb
          exact ⟨c1, List.mem_cons_of_mem _ hc1, h1, hr, hm⟩

theorem childHashes_of_chunk (node : Bytes) (h : node.getD 0 0 = Chunk) :
    childHashes node = [] := by
  unfold childHashes
  rw [h, if_neg (by decide), if_neg (by decide)]

theorem childHashes_of_directory (node : Bytes) (h : node.getD 0 0 = Directory) :
    childHashes node = dirChildHashes node := by
  unfold childHashes
  rw [if_pos h]

theorem childHashes_of_big (node : Bytes)
    (h : node.getD 0 0 = Big ∨ node.getD 0 0 = BigDirectory) :
    childHashes node = bigChildHashes node := by
  have hne : node.getD 0 0 ≠ Directory := by
    rcases h with h | h <;> rw [h] <;> decide
  unfold childHashes
  rw [if_neg hne, if_pos h]

theorem childHashes_of_other (node : Bytes) (h1 : node.getD 0 0 ≠ Directory)
    (h2 : ¬ (node.getD 0 0 = Big ∨ node.getD 0 0 = BigDirectory)) :
    childHashes node = [] := by
  unfold childHashes
  rw [if_neg h1, if_neg h2]

theorem childHashes_of_empty (node : Bytes) (h : node.length = 0) : childHashes node = [] := by
  have : node = [] := List.length_eq_zero.mp h
  subst this
  exact childHashes_of_chunk [] rfl

theorem closedSince_cons (M : GoMap Bytes) (h : Bytes) (v v1 : List Bytes) (node : Bytes)
    (hnode : mapGet M h = some node) (hch : ∀ c ∈ childHashes node, c ∈ v1)
    (hcl : ClosedSince M (h :: v) v1) : ClosedSince M v v1 := by
  intro x hx hnx
  by_cases hxh : x = h
  · subst hxh
    exact ⟨node, hnode, hch⟩
  · exact hcl x hx (by simp [hxh, hnx])

theorem closedSince_nil_children (M : GoMap Bytes) (h : Bytes) (v : List Bytes) (node : Bytes)
    (hnode : mapGet M h = some node) (hch : childHashes node = []) :
    ClosedSince M v (h :: v) :=
  closedSince_cons M h v (h :: v) node hnode (by simp [hch])
    (fun x hx hnx => absurd hx hnx)

theorem verifyNode_post (M : GoMap Bytes) :
    ∀ fuel h v b v1, verifyNode M fuel h v = .ok (b, v1) →
      (∀ x ∈ v, x ∈ v1) ∧ (b = true → h ∈ v1 ∧ ClosedSince M v v1) ∧
      (b = false → ∃ h1, Reachable M h h1 ∧ ∀ node, mapGet M h1 = some node → 3 < node.getD 0 0) := by
  intro fuel
  induction fuel with
  | zero => intro h v b v1 hres; simp [verifyNode] at hres
  | succ fuel ih =>
    intro h v b v1 hres
    simp only [verifyNode] at hres
    split at hres
    · -- already visited
      rename_i hv
      simp only [Except.ok.injEq, Prod.mk.injEq] at hres
      obtain ⟨hb, hv1⟩ := hres
      subst hb; subst hv1
      exact ⟨fun x hx => hx, fun _ => ⟨hv, fun x hx hnx => absurd hx hnx⟩, fun h => (by cases h)⟩
    · split at hres
      · -- missing node
        rename_i hnone
        simp only [Except.ok.injEq, Prod.mk.injEq] at hres
        obtain ⟨hb, hv1⟩ := hres
        subst hb; subst hv1
        exact ⟨fun x hx => List.mem_cons_of_mem _ hx, fun h => (by cases h),
          fun _ => ⟨h, Relation.ReflTransGen.refl, fun node hn => (by rw [hnone] at hn; cases hn)⟩⟩
      · rename_i node hnode
        split at hres
        · -- empty node
          rename_i hlen
          simp only [Except.ok.injEq, Prod.mk.injEq] at hres
          obtain ⟨hb, hv1⟩ := hres
          subst hb; subst hv1
          exact ⟨fun x hx => List.mem_cons_of_mem _ hx,
            fun _ => ⟨List.mem_cons_self _ _,
              closedSince_nil_children M h v node hnode (childHashes_of_empty node hlen)⟩,
            fun h => (by cases h)⟩
        · split at hres
          · -- Chunk
            rename_i htag
            simp only [Except.ok.injEq, Prod.mk.injEq] at hres
            obtain ⟨hb, hv1⟩ := hres
            subst hb; subst hv1
            exact ⟨fun x hx => List.mem_cons_of_mem _ hx,
              fun _ => ⟨List.mem_cons_self _ _,
                closedSince_nil_children M h v node hnode (childHashes_of_chunk node htag)⟩,
              fun h => (by cases h)⟩
          · split at hres
            · -- Directory
              rename_i htag
              obtain ⟨hsub, htrue, hfalse⟩ :=
                verifyChildren_post M (verifyNode M fuel) ih (dirChildHashes node) _ _ _ hres
              rw [← childHashes_of_directory node htag] at htrue hfalse
              refine ⟨fun x hx => hsub x (List.mem_cons_of_mem _ hx), ?_, ?_⟩
              · intro hb
                obtain ⟨hall, hcl⟩ := htrue hb
                exact ⟨hsub h (List.mem_cons_self _ _), closedSince_cons M h v v1 node hnode hall hcl⟩
              · intro hb
                obtain ⟨c, hc, h1, hr, hm⟩ := hfalse hb
                exact ⟨h1, Relation.ReflTransGen.head ⟨node, hnode, hc⟩ hr, hm⟩
            · split at hres
              · -- Big, BigDirectory
                rename_i htag
                obtain ⟨hsub, htrue, hfalse⟩ :=
                  verifyChildren_post M (verifyNode M fuel) ih (bigChildHashes node) _ _ _ hres
                rw [← childHashes_of_big node htag] at htrue hfalse
                refine ⟨fun x hx => hsub x (List.mem_cons_of_mem _ hx), ?_, ?_⟩
                · intro hb
                  obtain ⟨hall, hcl⟩ := htrue hb
                  exact ⟨hsub h (List.mem_cons_self _ _),
                    closedSince_cons M h v v1 node hnode hall hcl⟩
                · intro hb
                  obtain ⟨c, hc, h1, hr, hm⟩ := hfalse hb
                  exact ⟨h1, Relation.ReflTransGen.head ⟨node, hnode, hc⟩ hr, hm⟩
              · -- unknown tag
                rename_i hnc hnd hnb
                simp only [Except.ok.injEq, Prod.mk.injEq] at hres
                obtain ⟨hb, hv1⟩ := hres
                subst hb; subst hv1
                refine ⟨fun x hx => List.mem_cons_of_mem _ hx, fun h => (by cases h), ?_⟩
                intro _
                refine ⟨h, Relation.ReflTransGen.refl, ?_⟩
                intro node1 hnode1
                rw [hnode] at hnode1
                cases hnode1
                simp only [Chunk, Directory, Big, BigDirectory] at hnc hnd hnb
                omega

theorem verifyChildren_total (K : List Bytes) (n : Nat)
    (visit : Bytes → List Bytes → Except Fault (Bool × List Bytes))
    (htot : ∀ c v, unvisited K v ≤ n →
      ∃ b v1, visit c v = .ok (b, v1) ∧ ∀ x ∈ v, x ∈ v1)
    (cs : List Bytes) :
    ∀ v, unvisited K v ≤ n → ∃ b v1, verifyChildren visit cs v = .ok (b, v1) := by
  induction cs with
  | nil => intro v _; exact ⟨true, v, rfl⟩
  | cons c rest ih =>
    intro v hv
    obtain ⟨b, v1, hc, hsub⟩ := htot c v hv
    unfold verifyChildren
    rw [hc]
    cases b with
    | false => exact ⟨false, v1, rfl⟩
    | true =>
      exact ih v1 (Nat.le_trans (unvisited_mono K v v1 hsub) hv)

theorem verifyNode_total (M : GoMap Bytes) :
    ∀ fuel h v, unvisited (mapKeys M) v < fuel → ∃ b v1, verifyNode M fuel h v = .ok (b, v1) := by
  intro fuel
  induction fuel with
  | zero => intro h v hlt; omega
  | succ fuel ih =>
    intro h v hlt
    simp only [verifyNode]
    split
    · exact ⟨_, _, rfl⟩
    · rename_i hv
      split
      · exact ⟨_, _, rfl⟩
      · rename_i node hnode
        have hlt2 : unvisited (mapKeys M) (h :: v) ≤ fuel - 1 := by
          have := unvisited_lt (mapKeys M) v h (mapGet_mem_keys M h node hnode) hv
          omega
        have hfuel : 0 < fuel := by
          have := unvisited_lt (mapKeys M) v h (mapGet_mem_keys M h node hnode) hv
          omega
        have htot : ∀ c w, unvisited (mapKeys M) w ≤ fuel - 1 →
            ∃ b w1, verifyNode M fuel c w = .ok (b, w1) ∧ ∀ x ∈ w, x ∈ w1 := by
          intro c w hw
          obtain ⟨b, w1, hr⟩ := ih c w (by omega)
          exact ⟨b, w1, hr, (verifyNode_post M fuel c w b w1 hr).1⟩
        split
        · exact ⟨_, _, rfl⟩
        · split
          · exact ⟨_, _, rfl⟩
          · split
            · exact verifyChildren_total (mapKeys M) (fuel - 1) _ htot _ _ hlt2
            · split
              · exact verifyChildren_total (mapKeys M) (fuel - 1) _ htot _ _ hlt2
              · exact ⟨_, _, rfl⟩

/-- `VerifyMerkle` never runs out of fuel and never panics. -/
theorem VerifyMerkle_total (M : GoMap Bytes) (rootHash : Bytes) :
    ∃ b, VerifyMerkle M rootHash = .ok b := by
  obtain ⟨b, v1, hr⟩ := verifyNode_total M (M.length + 1) rootHash []
    (by rw [unvisited_nil]; simp [mapKeys])
  exact ⟨b, by simp [VerifyMerkle, hr]⟩

theorem reachable_mem_of_closed (M : GoMap Bytes) (root : Bytes) (v1 : List Bytes)
    (hroot : root ∈ v1) (hcl : ClosedSince M [] v1) :
    ∀ h, Reachable M root h → h ∈ v1 := by
  intro h hr
  induction hr with
  | refl => exact hroot
  | tail _ hstep ih =>
    obtain ⟨node, hnode, hc⟩ := hstep
    obtain ⟨n, hn, hch⟩ := hcl _ ih (by simp)
    rw [hnode] at hn
    cases hn
    exact hch _ hc

/-- C8: for every store whose nodes carry a tag in {0,1,2,3} and every root
hash, `VerifyMerkle(rootHash)` returns (it neither panics nor runs out of
fuel), and it returns true if and only if every hash reachable from `rootHash`
by following child references (the trailing 32 bytes of each 64-byte Directory
entry, each 32-byte entry of a Big or BigDirectory node, none for a Chunk) is
a key of the store: the visited set never turns a tree with a missing node
into a valid one. -/
theorem VerifyMerkle_iff (M : GoMap Bytes) (rootHash : Bytes) (hM : TagsValid M) :
    ∃ b, VerifyMerkle M rootHash = .ok b ∧
      (b = true ↔ ∀ h, Reachable M rootHash h → ∃ node, mapGet M h = some node) := by
  obtain ⟨b, v1, hr⟩ := verifyNode_total M (M.length + 1) rootHash []
    (by rw [unvisited_nil]; simp [mapKeys])
  refine ⟨b, by simp [VerifyMerkle, hr], ?_⟩
  obtain ⟨-, htrue, hfalse⟩ := verifyNode_post M _ _ _ _ _ hr
  constructor
  · intro hb h hreach
    obtain ⟨hroot, hcl⟩ := htrue hb
    have hmem := reachable_mem_of_closed M rootHash v1 hroot hcl h hreach
    obtain ⟨n, hn, -⟩ := hcl h hmem (by simp)
    exact ⟨n, hn⟩
  · intro hall
    cases b with
    | true => rfl
    | false =>
      obtain ⟨h1, hreach, hbad⟩ := hfalse rfl
      obtain ⟨node, hnode⟩ := hall h1 hreach
      have h3 := hbad node hnode
      have := (hM h1 node hnode).2
      omega

theorem tagsValid_of_all (M : GoMap Bytes) (h : ∀ p ∈ M, p.2 ≠ [] ∧ p.2.getD 0 0 ≤ 3) :
    TagsValid M := by
  intro k node hk
  induction M with
  | nil => cases hk
  | cons p rest ih =>
    obtain ⟨k1, v⟩ := p
    by_cases hk1 : k1 = k
    · simp only [mapGet, hk1, if_true, Option.some.injEq] at hk
      subst hk
      exact h (k1, v) (List.mem_cons_self _ _)
    · simp only [mapGet, hk1, if_false] at hk
      exact ih (fun p hp => h p (List.mem_cons_of_mem _ hp)) hk

/-- Witness of C8: the store built from a directory with one file, verified
from the hash of the directory node. -/
theorem VerifyMerkle_iff_witness :
    ∃ b, VerifyMerkle (fillAll sampleSha (installs sampleSha sampleTree1)
        MerkleState.empty).MerkleMap
        (sampleSha (HashDirectory sampleSha [{ Name := [97], Hash := [0, 7] }])) = .ok b ∧
      (b = true ↔ ∀ h, Reachable (fillAll sampleSha (installs sampleSha sampleTree1)
          MerkleState.empty).MerkleMap
          (sampleSha (HashDirectory sampleSha [{ Name := [97], Hash := [0, 7] }])) h →
        ∃ node, mapGet (fillAll sampleSha (installs sampleSha sampleTree1)
          MerkleState.empty).MerkleMap h = some node) :=
  VerifyMerkle_iff _ _ (tagsValid_of_all _ (by decide))

/-! ## Merkle store: deletion -/

theorem DelStep.refl (s : MerkleState) (v : List Bytes) : DelStep s v s v :=
  ⟨fun _ hx => hx, fun _ => Or.inl rfl, fun _ _ => rfl⟩

theorem DelStep.trans {s s1 s2 : MerkleState} {v v1 v2 : List Bytes}
    (h1 : DelStep s v s1 v1) (h2 : DelStep s1 v1 s2 v2) : DelStep s v s2 v2 := by
  obtain ⟨ha1, hb1, hc1⟩ := h1
  obtain ⟨ha2, hb2, hc2⟩ := h2
  refine ⟨fun x hx => ha2 x (ha1 x hx), ?_, ?_⟩
  · intro k
    rcases hb2 k with h | ⟨hn, hcnt, hnv1, hv2⟩
    · rcases hb1 k with h0 | ⟨hn0, hcnt0, hnv, hv1⟩
      · exact Or.inl (h.trans h0)
      · exact Or.inr ⟨h.trans hn0, hcnt0, hnv, ha2 k hv1⟩
    · refine Or.inr ⟨hn, ?_, fun hv => hnv1 (ha1 k hv), hv2⟩
      rw [← countOf_congr _ _ k (hc1 k (Or.inr hnv1))]
      exact hcnt
  · intro k hk
    have hk1 : k ∈ v1 ∨ k ∉ v2 := by
      rcases hk with h | h
      · exact Or.inl (ha1 k h)
      · exact Or.inr h
    have hk0 : k ∈ v ∨ k ∉ v1 := by
      rcases hk with h | h
      · exact Or.inl h
      · exact Or.inr (fun hv1 => h (ha2 k hv1))
    exact (hc2 k hk1).trans (hc1 k hk0)

theorem DelStep.submap {s s1 : MerkleState} {v v1 : List Bytes} (h : DelStep s v s1 v1)
    (k node : Bytes) (hk : mapGet s1.MerkleMap k = some node) :
    mapGet s.MerkleMap k = some node := by
  rcases h.2.1 k with h0 | ⟨hn, -⟩
  · rw [← h0]; exact hk
  · rw [hn] at hk; cases hk

theorem deleteChildren_step
    (visit : Bytes → MerkleState → List Bytes → Except Fault (MerkleState × List Bytes))
    (hvisit : ∀ c s v s1 v1, visit c s v = .ok (s1, v1) → DelStep s v s1 v1)
    (cs : List Bytes) :
    ∀ s v s1 v1, deleteChildren visit cs s v = .ok (s1, v1) → DelStep s v s1 v1 := by
  induction cs with
  | nil =>
    intro s v s1 v1 h
    simp only [deleteChildren, Except.ok.injEq, Prod.mk.injEq] at h
    obtain ⟨hs, hv⟩ := h
    subst hs; subst hv
    exact DelStep.refl _ _
  | cons c rest ih =>
    intro s v s1 v1 h
    unfold deleteChildren at h
    cases hc : visit c s v with
    | error e => rw [hc] at h; cases h
    | ok r =>
      obtain ⟨s0, v0⟩ := r
      rw [hc] at h
      exact (hvisit c s v s0 v0 hc).trans (ih s0 v0 s1 v1 h)

theorem decrement_zero (c : Nat) (h : ¬ (c + uintSize - 1) % uintSize > 0) :
    c % uintSize = 1 := by
  unfold uintSize at *
  omega

theorem deleteNode_step :
    ∀ fuel h s v s1 v1, deleteNode fuel h s v = .ok (s1, v1) → DelStep s v s1 v1 := by
  intro fuel
  induction fuel with
  | zero => intro h s v s1 v1 hres; simp [deleteNode] at hres
  | succ fuel ih =>
    intro h s v s1 v1 hres
    simp only [deleteNode] at hres
    split at hres
    · simp only [Except.ok.injEq, Prod.mk.injEq] at hres
      obtain ⟨hs, hv⟩ := hres
      subst hs; subst hv
      exact DelStep.refl _ _
    · rename_i hv
      split at hres
      · simp only [Except.ok.injEq, Prod.mk.injEq] at hres
        obtain ⟨hs, hv1⟩ := hres
        subst hs; subst hv1
        exact ⟨fun x hx => List.mem_cons_of_mem _ hx, fun _ => Or.inl rfl, fun _ _ => rfl⟩
      · rename_i node hnode
        -- the decrement of the count of `h`
        have hdec : DelStep s v
            { MerkleMap := s.MerkleMap,
              CountMap := mapSet s.CountMap h
                ((countOf s.CountMap h + uintSize - 1) % uintSize) } (h :: v) := by
          refine ⟨fun x hx => List.mem_cons_of_mem _ hx, fun _ => Or.inl rfl, ?_⟩
          intro k hk
          have hne : k ≠ h := by
            rcases hk with hk | hk
            · exact fun e => hv (e ▸ hk)
            · exact fun e => hk (e ▸ List.mem_cons_self _ _)
          exact mapGet_mapSet_ne _ _ _ _ hne
        split at hres
        · simp only [Except.ok.injEq, Prod.mk.injEq] at hres
          obtain ⟨hs, hv1⟩ := hres
          subst hs; subst hv1
          exact hdec
        · rename_i hcount
          split at hres
          · cases hres
          · rename_i tag htag
            split at hres
            · cases hres
            · rename_i s2 v2 hwalk
              simp only [Except.ok.injEq, Prod.mk.injEq] at hres
              obtain ⟨hs, hv1⟩ := hres
              subst hs; subst hv1
              have hstep2 : DelStep
                  { MerkleMap := s.MerkleMap,
                    CountMap := mapSet s.CountMap h
                      ((countOf s.CountMap h + uintSize - 1) % uintSize) } (h :: v) s2 v2 := by
                split at hwalk
                · exact deleteChildren_step _ ih _ _ _ _ _ hwalk
                · split at hwalk
                  · exact deleteChildren_step _ ih _ _ _ _ _ hwalk
                  · simp only [Except.ok.injEq, Prod.mk.injEq] at hwalk
                    obtain ⟨hs, hv1⟩ := hwalk
                    subst hs; subst hv1
                    exact DelStep.refl _ _
              have hall := hdec.trans hstep2
              obtain ⟨ha, hb, hc⟩ := hall
              have hhv2 : h ∈ v2 := hstep2.1 h (List.mem_cons_self _ _)
              refine ⟨ha, ?_, ?_⟩
              · intro k
                by_cases hk : k = h
                · subst hk
                  exact Or.inr ⟨mapGet_mapDelete_self _ _, decrement_zero _ hcount, hv, hhv2⟩
                · simp only [mapGet_mapDelete_ne _ _ _ hk]
                  exact hb k
              · intro k hk
                have hne : k ≠ h := by
                  rcases hk with hk | hk
                  · exact fun e => hv (e ▸ hk)
                  · exact fun e => hk (e ▸ hhv2)
                simp only [mapGet_mapDelete_ne _ _ _ hne]
                exact hc k hk

/-- The outcome of a deletion walk that had enough fuel: it returns, or it
panics on `node[0]` and then the store holds an empty node. -/
theorem deleteChildren_total (K : List Bytes) (n : Nat)
    (visit : Bytes → MerkleState → List Bytes → Except Fault (MerkleState × List Bytes))
    (hstep : ∀ c s v s1 v1, visit c s v = .ok (s1, v1) → DelStep s v s1 v1)
    (htot : ∀ c s v, (∀ k node, mapGet s.MerkleMap k = some node → k ∈ K) →
      unvisited K v ≤ n →
      (∃ s1 v1, visit c s v = .ok (s1, v1)) ∨
      (visit c s v = .error .indexOutOfRange ∧ ¬ NoEmptyNode s.MerkleMap))
    (cs : List Bytes) :
    ∀ s v, (∀ k node, mapGet s.MerkleMap k = some node → k ∈ K) → unvisited K v ≤ n →
      (∃ s1 v1, deleteChildren visit cs s v = .ok (s1, v1)) ∨
      (deleteChildren visit cs s v = .error .indexOutOfRange ∧ ¬ NoEmptyNode s.MerkleMap) := by
  induction cs with
  | nil => intro s v _ _; exact Or.inl ⟨s, v, rfl⟩
  | cons c rest ih =>
    intro s v hK hv
    unfold deleteChildren
    rcases htot c s v hK hv with ⟨s0, v0, hc⟩ | ⟨hc, hne⟩
    · rw [hc]
      have hst := hstep c s v s0 v0 hc
      have hK0 : ∀ k node, mapGet s0.MerkleMap k = some node → k ∈ K :=
        fun k node hk => hK k node (hst.submap k node hk)
      rcases ih s0 v0 hK0 (Nat.le_trans (unvisited_mono K v v0 hst.1) hv) with h | ⟨h, hne⟩
      · exact Or.inl h
      · refine Or.inr ⟨h, fun hno => hne ?_⟩
        exact fun k node hk => hno k node (hst.submap k node hk)
    · rw [hc]
      exact Or.inr ⟨rfl, hne⟩

theorem index_zero_of_ne_nil (node : Bytes) (h : node ≠ []) :
    index node 0 = .ok (node.getD 0 0) := by
  cases node with
  | nil => exact absurd rfl h
  | cons a rest => rfl

theorem index_zero_error (node : Bytes) (e : Fault) (h : index node 0 = .error e) :
    node = [] ∧ e = .indexOutOfRange := by
  cases node with
  | nil => simp [index] at h; exact ⟨rfl, h.symm⟩
  | cons a rest => simp [index] at h

theorem deleteNode_total (K : List Bytes) :
    ∀ fuel h s v, (∀ k node, mapGet s.MerkleMap k = some node → k ∈ K) →
      unvisited K v < fuel →
      (∃ s1 v1, deleteNode fuel h s v = .ok (s1, v1)) ∨
      (deleteNode fuel h s v = .error .indexOutOfRange ∧ ¬ NoEmptyNode s.MerkleMap) := by
  intro fuel
  induction fuel with
  | zero => intro h s v _ hlt; omega
  | succ fuel ih =>
    intro h s v hK hlt
    simp only [deleteNode]
    split
    · exact Or.inl ⟨_, _, rfl⟩
    · rename_i hv
      split
      · exact Or.inl ⟨_, _, rfl⟩
      · rename_i node hnode
        have hdrop := unvisited_lt K v h (hK h node hnode) hv
        have hlt2 : unvisited K (h :: v) ≤ fuel - 1 := by omega
        have htot : ∀ c s v, (∀ k node, mapGet s.MerkleMap k = some node → k ∈ K) →
            unvisited K v ≤ fuel - 1 →
            (∃ s1 v1, deleteNode fuel c s v = .ok (s1, v1)) ∨
            (deleteNode fuel c s v = .error .indexOutOfRange ∧ ¬ NoEmptyNode s.MerkleMap) :=
          fun c s v hK hv => ih c s v hK (by omega)
        split
        · exact Or.inl ⟨_, _, rfl⟩
        · cases hidx : index node 0 with
          | error e =>
            obtain ⟨hnil, he⟩ := index_zero_error node e hidx
            subst he
            exact Or.inr ⟨rfl, fun hno => hno h node hnode hnil⟩
          | ok tag =>
            simp only
            have hwalk : ∀ cs,
                (∃ s1 v1, deleteChildren (deleteNode fuel) cs
                  { MerkleMap := s.MerkleMap,
                    CountMap := mapSet s.CountMap h
                      ((countOf s.CountMap h + uintSize - 1) % uintSize) } (h :: v)
                    = .ok (s1, v1)) ∨
                (deleteChildren (deleteNode fuel) cs
                  { MerkleMap := s.MerkleMap,
                    CountMap := mapSet s.CountMap h
                      ((countOf s.CountMap h + uintSize - 1) % uintSize) } (h :: v)
                    = .error .indexOutOfRange ∧ ¬ NoEmptyNode s.MerkleMap) :=
              fun cs => deleteChildren_total K (fuel - 1) _ (deleteNode_step fuel) htot cs _ _
                hK hlt2
            split
            · rename_i e hw
              split at hw
              · rcases hwalk (dirChildHashes node) with ⟨s1, v1, h1⟩ | ⟨h1, hne⟩
                · rw [h1] at hw; cases hw
                · rw [h1] at hw; cases hw; exact Or.inr ⟨rfl, hne⟩
              · split at hw
                · rcases hwalk (bigChildHashes node) with ⟨s1, v1, h1⟩ | ⟨h1, hne⟩
                  · rw [h1] at hw; cases hw
                  · rw [h1] at hw; cases hw; exact Or.inr ⟨rfl, hne⟩
                · cases hw
            · exact Or.inl ⟨_, _, rfl⟩

/-- `DeleteMerkleTree` never runs out of fuel: it returns, or it panics on an
empty stored node. -/
theorem DeleteMerkleTree_total (rootHash : Bytes) (s : MerkleState) :
    (∃ s1, DeleteMerkleTree rootHash s = .ok s1) ∨
    (DeleteMerkleTree rootHash s = .error .indexOutOfRange ∧ ¬ NoEmptyNode s.MerkleMap) := by
  have := deleteNode_total (mapKeys s.MerkleMap) (s.MerkleMap.length + 1) rootHash s []
    (fun k node hk => mapGet_mem_keys _ k node hk) (by rw [unvisited_nil]; simp [mapKeys])
  unfold DeleteMerkleTree
  rcases this with ⟨s1, v1, h⟩ | ⟨h, hne⟩
  · rw [h]; exact Or.inl ⟨s1, rfl⟩
  · rw [h]; exact Or.inr ⟨rfl, hne⟩

theorem DeleteMerkleTree_step (rootHash : Bytes) (s s1 : MerkleState)
    (h : DeleteMerkleTree rootHash s = .ok s1) : ∃ v1, DelStep s [] s1 v1 := by
  unfold DeleteMerkleTree at h
  split at h
  · cases h
  · rename_i s2 v2 hd
    simp only [Except.ok.injEq] at h
    subst h
    exact ⟨v2, deleteNode_step _ _ _ _ _ _ hd⟩

theorem FillMap_storeInv (Sha : Bytes → Bytes) (node : Bytes) (s : MerkleState)
    (h : StoreInv Sha s.MerkleMap) : StoreInv Sha (FillMap Sha node s).MerkleMap := by
  intro k n hk
  cases hget : mapGet s.MerkleMap (Sha node) with
  | none =>
    rw [FillMap_absent Sha node s hget] at hk
    by_cases hkey : k = Sha node
    · subst hkey
      rw [mapGet_mapSet_self] at hk
      cases hk
      rfl
    · rw [mapGet_mapSet_ne _ _ _ _ hkey] at hk
      exact h k n hk
  | some old =>
    rw [FillMap_present Sha node old s hget] at hk
    exact h k n hk

theorem HandlefileDataWindow_store (Sha : Bytes → Bytes) (body : Bytes) (addr : UDPAddr)
    (s s1 : MerkleState) (q q1 : List DatumJob)
    (h : HandlefileDataWindow Sha body addr s q = .ok (s1, q1)) :
    s1 = FillMap Sha (slice body HashSize body.length) s := by
  unfold HandlefileDataWindow at h
  split at h
  · cases h
  · simp only at h
    split at h
    · cases h
    · split at h
      · simp only [Except.ok.injEq, Prod.mk.injEq] at h; exact h.1.symm
      · split at h
        · simp only [Except.ok.injEq, Prod.mk.injEq] at h; exact h.1.symm
        · split at h
          · simp only [Except.ok.injEq, Prod.mk.injEq] at h; exact h.1.symm
          · simp only [Except.ok.injEq, Prod.mk.injEq] at h; exact h.1.symm

theorem Typedata_of_ne_nil (node : Bytes) (h : node ≠ []) : ∃ t, Typedata node = .ok t := by
  unfold Typedata
  rw [index_zero_of_ne_nil node h]
  simp only
  split
  · exact ⟨_, rfl⟩
  · split
    · exact ⟨_, rfl⟩
    · split
      · exact ⟨_, rfl⟩
      · split <;> exact ⟨_, rfl⟩

theorem HandlefileDataWindow_returns (Sha : Bytes → Bytes) (body : Bytes) (addr : UDPAddr)
    (s : MerkleState) (q : List DatumJob) (hlen : 32 < body.length) :
    ∃ s1 q1, HandlefileDataWindow Sha body addr s q = .ok (s1, q1) := by
  have hne : slice body HashSize body.length ≠ [] := by
    intro h
    have := congrArg List.length h
    simp [slice, HashSize] at this
    omega
  obtain ⟨t, ht⟩ := Typedata_of_ne_nil _ hne
  unfold HandlefileDataWindow
  rw [if_neg (by unfold HashSize; omega)]
  simp only [ht]
  split
  · exact ⟨_, _, rfl⟩
  · split
    · exact ⟨_, _, rfl⟩
    · split <;> exact ⟨_, _, rfl⟩

/-- C6: every entry of the Merkle store satisfies key = hash of the node
bytes: the property holds in the empty store and is preserved by `FillMap`, by
`DeleteMerkleTree` (which returns unless the store holds an empty node, on
which `node[0]` panics) and by `HandlefileDataWindow` (which returns on every
body of more than 32 bytes), for every node, every root hash, every body and
every store state that satisfies it. -/
theorem StoreInv_preserved (Sha : Bytes → Bytes) :
    StoreInv Sha MerkleState.empty.MerkleMap ∧
    (∀ node s, StoreInv Sha s.MerkleMap → StoreInv Sha (FillMap Sha node s).MerkleMap) ∧
    (∀ rootHash s, StoreInv Sha s.MerkleMap →
      ((∃ s1, DeleteMerkleTree rootHash s = .ok s1) ∨
        (DeleteMerkleTree rootHash s = .error .indexOutOfRange ∧ ¬ NoEmptyNode s.MerkleMap)) ∧
      ∀ s1, DeleteMerkleTree rootHash s = .ok s1 → StoreInv Sha s1.MerkleMap) ∧
    (∀ body addr s q, StoreInv Sha s.MerkleMap →
      (32 < body.length → ∃ s1 q1, HandlefileDataWindow Sha body addr s q = .ok (s1, q1)) ∧
      ∀ s1 q1, HandlefileDataWindow Sha body addr s q = .ok (s1, q1) →
        StoreInv Sha s1.MerkleMap) := by
  refine ⟨?_, FillMap_storeInv Sha, ?_, ?_⟩
  · intro k node h
    cases h
  · intro rootHash s hs
    refine ⟨DeleteMerkleTree_total rootHash s, ?_⟩
    intro s1 h1 k node hk
    obtain ⟨v1, hstep⟩ := DeleteMerkleTree_step rootHash s s1 h1
    exact hs k node (hstep.submap k node hk)
  · intro body addr s q hs
    refine ⟨HandlefileDataWindow_returns Sha body addr s q, ?_⟩
    intro s1 q1 h1
    rw [HandlefileDataWindow_store Sha body addr s s1 q q1 h1]
    exact FillMap_storeInv Sha _ s hs

/-- Witness of C6: the store obtained by `FillMap` of the node `0 7` in the
empty store. -/
theorem StoreInv_preserved_witness :
    StoreInv sampleSha (FillMap sampleSha [0, 7] MerkleState.empty).MerkleMap :=
  (StoreInv_preserved sampleSha).2.1 [0, 7] MerkleState.empty (by intro k n h; cases h)

/-! ## Merkle builder: the nodes installed by a build -/

theorem fillAll_append (Sha : Bytes → Bytes) (a b : List Bytes) (s : MerkleState) :
    fillAll Sha (a ++ b) s = fillAll Sha b (fillAll Sha a s) := by
  simp [fillAll, List.foldl_append]

theorem fillAll_nil (Sha : Bytes → Bytes) (s : MerkleState) : fillAll Sha [] s = s := rfl

theorem fillAll_singleton (Sha : Bytes → Bytes) (n : Bytes) (s : MerkleState) :
    fillAll Sha [n] s = FillMap Sha n s := rfl

/-- A loop that builds one node per item, installs it and appends it. -/
theorem foldl_install (Sha : Bytes → Bytes) {α : Type} (f : α → Bytes) (items : List α) :
    ∀ (acc : List Bytes) (s : MerkleState),
      items.foldl (fun (r : List Bytes × MerkleState) x =>
        (r.1 ++ [f x], FillMap Sha (f x) r.2)) (acc, s)
      = (acc ++ items.map f, fillAll Sha (items.map f) s) := by
  induction items with
  | nil => intro acc s; simp [fillAll]
  | cons x rest ih =>
    intro acc s
    simp only [List.foldl_cons, List.map_cons]
    rw [ih]
    simp [fillAll]

theorem mergeNodes_eq_trace (Sha : Bytes → Bytes) (children : List Bytes) (nodeType : Nat)
    (s : MerkleState) :
    mergeNodes Sha children nodeType s =
      (mergeNodesTrace Sha children nodeType,
        fillAll Sha (mergeNodesTrace Sha children nodeType) s) := by
  unfold mergeNodes mergeNodesTrace
  have := foldl_install Sha (hashChildren Sha nodeType) (strides children MaxBigEntries) [] s
  simpa using this

theorem mergeUntilOne_eq_trace (Sha : Bytes → Bytes) (nodeType : Nat) :
    ∀ fuel children s,
      mergeUntilOne Sha nodeType fuel children s =
        match mergeUntilOneTrace Sha nodeType fuel children with
        | .error e => .error e
        | .ok (final, installed) => .ok (final, fillAll Sha installed s) := by
  intro fuel
  induction fuel with
  | zero =>
    intro children s
    unfold mergeUntilOne mergeUntilOneTrace
    split <;> rfl
  | succ fuel ih =>
    intro children s
    unfold mergeUntilOne mergeUntilOneTrace
    split
    · simp only [mergeNodes_eq_trace]
      rw [ih]
      cases mergeUntilOneTrace Sha nodeType fuel (mergeNodesTrace Sha children nodeType) with
      | error e => rfl
      | ok r =>
        obtain ⟨final, installed⟩ := r
        simp [fillAll_append]
    · rfl

theorem buildDirectoryNode_eq_trace (Sha : Bytes → Bytes) (names children : List Bytes)
    (s : MerkleState) :
    buildDirectoryNode Sha names children s =
      match dirTrace Sha names children with
      | .error e => .error e
      | .ok (node, installed) => .ok (node, fillAll Sha installed s) := by
  unfold buildDirectoryNode dirTrace
  simp only
  split
  · rfl
  · rw [foldl_install Sha (HashDirectory Sha)]
    simp only [List.nil_append]
    rw [mergeUntilOne_eq_trace]
    cases mergeUntilOneTrace Sha BigDirectory
        (List.map (HashDirectory Sha) (strides (List.zipWith
          (fun name child => ({ Name := name, Hash := child } : DirectoryEntry)) names children)
          MaxDirEntries)).length
        (List.map (HashDirectory Sha) (strides (List.zipWith
          (fun name child => ({ Name := name, Hash := child } : DirectoryEntry)) names children)
          MaxDirEntries)) with
    | error e => rfl
    | ok r =>
      obtain ⟨final, installed⟩ := r
      simp only
      cases firstNode final with
      | error e => rfl
      | ok node => simp [fillAll_append]

theorem buildFileNode_eq_trace (Sha : Bytes → Bytes) (data : Bytes) (s : MerkleState) :
    buildFileNode Sha data s =
      match fileTrace Sha data with
      | .error e => .error e
      | .ok (node, installed) => .ok (node, fillAll Sha installed s) := by
  unfold buildFileNode fileTrace
  simp only
  rw [foldl_install Sha HashChunk]
  simp only [List.nil_append]
  rw [mergeUntilOne_eq_trace]
  cases mergeUntilOneTrace Sha Big (List.map HashChunk (SplitIntoChunks data)).length
      (List.map HashChunk (SplitIntoChunks data)) with
  | error e => rfl
  | ok r =>
    obtain ⟨final, installed⟩ := r
    simp only
    cases firstNode final with
    | error e => rfl
    | ok node => simp [fillAll_append, fillAll_singleton]

mutual
/-- `BuildMerkleNode` returns the root of `buildTrace` and the store obtained by
`FillMap` of the nodes of `buildTrace`, in order, and panics when `buildTrace`
does. -/
theorem BuildMerkleNode_eq_trace (Sha : Bytes → Bytes) :
    ∀ (t : FsNode) (s : MerkleState),
      BuildMerkleNode Sha t s =
        match buildTrace Sha t with
        | .error e => .error e
        | .ok (node, installed) => .ok (node, fillAll Sha installed s)
  | .dir entries, s => by
    rw [BuildMerkleNode, buildTrace, buildChildNodes_eq_trace Sha entries s]
    cases childTraces Sha entries with
    | error e => rfl
    | ok r =>
      obtain ⟨children, installed⟩ := r
      simp only
      rw [buildDirectoryNode_eq_trace]
      cases dirTrace Sha (List.map Prod.fst entries) children with
      | error e => rfl
      | ok r1 =>
        obtain ⟨node, installed1⟩ := r1
        simp [fillAll_append]
  | .file data, s => by
    rw [BuildMerkleNode, buildTrace, buildFileNode_eq_trace]
theorem buildChildNodes_eq_trace (Sha : Bytes → Bytes) :
    ∀ (entries : List (Bytes × FsNode)) (s : MerkleState),
      buildChildNodes Sha entries s =
        match childTraces Sha entries with
        | .error e => .error e
        | .ok (children, installed) => .ok (children, fillAll Sha installed s)
  | [], s => by
    rw [buildChildNodes, childTraces]
    rfl
  | (name, child) :: rest, s => by
    rw [buildChildNodes, childTraces, BuildMerkleNode_eq_trace Sha child s]
    cases buildTrace Sha child with
    | error e => rfl
    | ok r =>
      obtain ⟨childNode, installed⟩ := r
      simp only
      rw [buildChildNodes_eq_trace Sha rest]
      cases childTraces Sha rest with
      | error e => rfl
      | ok r1 =>
        obtain ⟨children, installed1⟩ := r1
        simp [fillAll_append]
end

theorem BuildMerkleNode_installs (Sha : Bytes → Bytes) (t : FsNode) (s s1 : MerkleState)
    (node : Bytes) (h : BuildMerkleNode Sha t s = .ok (node, s1)) :
    buildTrace Sha t = .ok (node, installs Sha t) ∧ s1 = fillAll Sha (installs Sha t) s := by
  rw [BuildMerkleNode_eq_trace] at h
  unfold installs
  cases hb : buildTrace Sha t with
  | error e => rw [hb] at h; cases h
  | ok r =>
    obtain ⟨n0, L⟩ := r
    rw [hb] at h
    simp only [Except.ok.injEq, Prod.mk.injEq] at h
    exact ⟨by rw [h.1], h.2.symm⟩

/-! ## Merkle builder: layout of the built nodes -/

theorem NodeOK.mono {Sha : Bytes → Bytes} {a b : List Bytes} {n : Bytes}
    (h : NodeOK Sha a n) (hab : ∀ x ∈ a, x ∈ b) : NodeOK Sha b n :=
  ⟨h.1, h.2.1, fun c hc => by
    obtain ⟨m, hm, hs⟩ := h.2.2 c hc
    exact ⟨m, hab m hm, hs⟩⟩

theorem slice_cons_succ (t : Nat) (x : Bytes) (p q : Nat) :
    slice (t :: x) (1 + p) (1 + q) = slice x p q := by
  unfold slice
  rw [Nat.add_comm 1 p, List.drop_succ_cons]
  congr 1
  omega

theorem slice_append_of_le (blk r : Bytes) (a b : Nat) (hb : b ≤ blk.length) :
    slice (blk ++ r) a b = slice blk a b := by
  unfold slice
  by_cases ha : a ≤ blk.length
  · rw [List.drop_append_of_le_length ha, List.take_append_of_le_length]
    simp only [List.length_drop]
    omega
  · have h0 : b - a = 0 := by omega
    rw [h0]
    simp

theorem slice_append_shift (blk r : Bytes) (p q : Nat) :
    slice (blk ++ r) (blk.length + p) (blk.length + q) = slice r p q := by
  unfold slice
  rw [List.drop_append]
  congr 1
  omega

theorem range_map_slices (w a b : Nat) (hbw : b ≤ w) (bs : List Bytes)
    (hlen : ∀ blk ∈ bs, blk.length = w) :
    (List.range bs.length).map (fun i => slice bs.flatten (i * w + a) (i * w + b))
      = bs.map (fun blk => slice blk a b) := by
  induction bs with
  | nil => rfl
  | cons blk rest ih =>
    have hblk : blk.length = w := hlen blk (List.mem_cons_self _ _)
    have ih1 := ih (fun x hx => hlen x (List.mem_cons_of_mem _ hx))
    rw [List.length_cons, List.range_succ_eq_map, List.map_cons, List.map_map, List.map_cons,
      List.flatten_cons]
    congr 1
    · simp only [Nat.zero_mul, Nat.zero_add]
      exact slice_append_of_le blk _ a b (by omega)
    · rw [← ih1]
      apply List.map_congr_left
      intro i _
      simp only [Function.comp]
      have e1 : (i + 1) * w + a = blk.length + (i * w + a) := by rw [hblk, Nat.succ_mul]; omega
      have e2 : (i + 1) * w + b = blk.length + (i * w + b) := by rw [hblk, Nat.succ_mul]; omega
      rw [e1, e2, slice_append_shift]

theorem join_length_const (w : Nat) (bs : List Bytes) (hlen : ∀ blk ∈ bs, blk.length = w) :
    bs.flatten.length = bs.length * w := by
  induction bs with
  | nil => simp
  | cons blk rest ih =>
    rw [List.flatten_cons, List.length_append, hlen blk (List.mem_cons_self _ _),
      ih (fun x hx => hlen x (List.mem_cons_of_mem _ hx)), List.length_cons, Nat.succ_mul]
    omega

theorem padTo32_length (input : Bytes) : (padTo32 input).length = 32 := by
  simp only [padTo32, NameSize, List.length_append, List.length_take, List.length_replicate]
  omega

theorem hashChildren_eq (Sha : Bytes → Bytes) (nodeType : Nat) (hs : List Bytes) :
    hashChildren Sha nodeType hs = nodeType :: (hs.map Sha).flatten := by
  unfold hashChildren
  have : ∀ (acc : Bytes), hs.foldl (fun node h => node ++ Sha h) acc
      = acc ++ (hs.map Sha).flatten := by
    induction hs with
    | nil => intro acc; simp
    | cons h rest ih => intro acc; simp [ih]
  rw [this]
  rfl

theorem HashDirectory_eq (Sha : Bytes → Bytes) (es : List DirectoryEntry) :
    HashDirectory Sha es
      = Directory :: (es.map (fun e => padTo32 e.Name ++ Sha e.Hash)).flatten := by
  unfold HashDirectory
  have : ∀ (acc : Bytes), es.foldl (fun node e => node ++ padTo32 e.Name ++ Sha e.Hash) acc
      = acc ++ (es.map (fun e => padTo32 e.Name ++ Sha e.Hash)).flatten := by
    induction es with
    | nil => intro acc; simp
    | cons h rest ih =>
      intro acc
      simp only [List.foldl_cons, List.map_cons, List.flatten_cons]
      rw [ih]
      simp only [List.append_assoc]
  rw [this]
  rfl

theorem bigChildHashes_cons_join (Sha : Bytes → Bytes) (hsha : ∀ b, (Sha b).length = 32)
    (t : Nat) (hs : List Bytes) :
    bigChildHashes (t :: (hs.map Sha).flatten) = hs.map Sha := by
  have hlen : ∀ blk ∈ hs.map Sha, blk.length = 32 := by
    intro blk hblk
    obtain ⟨x, -, rfl⟩ := List.mem_map.mp hblk
    exact hsha x
  have hj := join_length_const 32 (hs.map Sha) hlen
  unfold bigChildHashes
  simp only [IdSize, HashSize, List.length_cons, hj, Nat.add_sub_cancel]
  rw [Nat.mul_div_cancel _ (by decide : 0 < 32)]
  have hfun : (fun i => slice (t :: (hs.map Sha).flatten) (1 + i * 32) (1 + i * 32 + 32))
      = fun i => slice (hs.map Sha).flatten (i * 32 + 0) (i * 32 + 32) := by
    funext i
    rw [Nat.add_assoc, slice_cons_succ]
    rfl
  rw [hfun, range_map_slices 32 0 32 (Nat.le_refl _) _ hlen]
  rw [List.map_map]
  apply List.map_congr_left
  intro x _
  simp only [Function.comp, slice, List.drop_zero, Nat.sub_zero]
  exact List.take_of_length_le (by rw [hsha])

theorem dirChildHashes_cons_join (Sha : Bytes → Bytes) (hsha : ∀ b, (Sha b).length = 32)
    (t : Nat) (es : List DirectoryEntry) :
    dirChildHashes (t :: (es.map (fun e => padTo32 e.Name ++ Sha e.Hash)).flatten)
      = es.map (fun e => Sha e.Hash) := by
  have hlen : ∀ blk ∈ es.map (fun e => padTo32 e.Name ++ Sha e.Hash), blk.length = 64 := by
    intro blk hblk
    obtain ⟨x, -, rfl⟩ := List.mem_map.mp hblk
    rw [List.length_append, padTo32_length, hsha]
  have hj := join_length_const 64 _ hlen
  unfold dirChildHashes
  simp only [IdSize, DirEntrySize, NameSize, HashSize, List.length_cons, hj,
    Nat.add_sub_cancel, Nat.reduceAdd]
  rw [Nat.mul_div_cancel _ (by decide : 0 < 64)]
  have hfun : (fun i => slice (t :: (es.map (fun e => padTo32 e.Name ++ Sha e.Hash)).flatten)
        (1 + i * 64 + 32) (1 + i * 64 + 64))
      = fun i => slice (es.map (fun e => padTo32 e.Name ++ Sha e.Hash)).flatten
        (i * 64 + 32) (i * 64 + 64) := by
    funext i
    rw [Nat.add_assoc, Nat.add_assoc, slice_cons_succ]
  rw [hfun, range_map_slices 64 32 64 (Nat.le_refl _) _ hlen]
  rw [List.map_map]
  apply List.map_congr_left
  intro x _
  simp only [Function.comp, slice]
  rw [List.drop_append_of_le_length (by rw [padTo32_length])]
  have h32 : (padTo32 x.Name).length = 32 := padTo32_length _
  rw [List.drop_of_length_le (by omega), List.nil_append]
  exact List.take_of_length_le (by rw [hsha])

theorem strideLoop_mem {α : Type} (xs : List α) (n : Nat) :
    ∀ fuel i g, g ∈ strideLoop xs n fuel i → ∀ x ∈ g, x ∈ xs := by
  intro fuel
  induction fuel with
  | zero => intro i g hg; simp [strideLoop] at hg
  | succ fuel ih =>
    intro i g hg x hx
    unfold strideLoop at hg
    split at hg
    · simp only [List.mem_cons] at hg
      rcases hg with hg | hg
      · subst hg
        exact List.mem_of_mem_drop (List.mem_of_mem_take hx)
      · exact ih _ g hg x hx
    · cases hg

theorem strides_mem {α : Type} (xs : List α) (n : Nat) (g : List α) (hg : g ∈ strides xs n)
    (x : α) (hx : x ∈ g) : x ∈ xs :=
  strideLoop_mem xs n _ _ g hg x hx

theorem childHashes_HashChunk (c : Bytes) : childHashes (HashChunk c) = [] :=
  childHashes_of_chunk _ rfl

theorem childHashes_hashChildren (Sha : Bytes → Bytes) (hsha : ∀ b, (Sha b).length = 32)
    (nodeType : Nat) (hnt : nodeType = Big ∨ nodeType = BigDirectory) (hs : List Bytes) :
    childHashes (hashChildren Sha nodeType hs) = hs.map Sha := by
  rw [hashChildren_eq, childHashes_of_big _ (by simpa using hnt)]
  exact bigChildHashes_cons_join Sha hsha nodeType hs

theorem childHashes_HashDirectory (Sha : Bytes → Bytes) (hsha : ∀ b, (Sha b).length = 32)
    (es : List DirectoryEntry) :
    childHashes (HashDirectory Sha es) = es.map (fun e => Sha e.Hash) := by
  rw [HashDirectory_eq, childHashes_of_directory _ (List.getD_cons_zero)]
  exact dirChildHashes_cons_join Sha hsha Directory es

theorem NodeOK_HashChunk (Sha : Bytes → Bytes) (avail : List Bytes) (c : Bytes) :
    NodeOK Sha avail (HashChunk c) := by
  refine ⟨by simp [HashChunk], by simp [HashChunk, Chunk], ?_⟩
  rw [childHashes_HashChunk]
  intro c hc
  cases hc

theorem NodeOK_hashChildren (Sha : Bytes → Bytes) (hsha : ∀ b, (Sha b).length = 32)
    (avail : List Bytes) (nodeType : Nat) (hnt : nodeType = Big ∨ nodeType = BigDirectory)
    (hs : List Bytes) (havail : ∀ h ∈ hs, h ∈ avail) :
    NodeOK Sha avail (hashChildren Sha nodeType hs) := by
  refine ⟨by simp [hashChildren_eq], ?_, ?_⟩
  · rw [hashChildren_eq, List.getD_cons_zero]
    rcases hnt with h | h <;> subst h <;> decide
  · rw [childHashes_hashChildren Sha hsha nodeType hnt]
    intro c hc
    obtain ⟨m, hm, rfl⟩ := List.mem_map.mp hc
    exact ⟨m, havail m hm, rfl⟩

theorem NodeOK_HashDirectory (Sha : Bytes → Bytes) (hsha : ∀ b, (Sha b).length = 32)
    (avail : List Bytes) (es : List DirectoryEntry) (havail : ∀ e ∈ es, e.Hash ∈ avail) :
    NodeOK Sha avail (HashDirectory Sha es) := by
  refine ⟨by simp [HashDirectory_eq], by rw [HashDirectory_eq, List.getD_cons_zero]; decide, ?_⟩
  rw [childHashes_HashDirectory Sha hsha]
  intro c hc
  obtain ⟨e, he, rfl⟩ := List.mem_map.mp hc
  exact ⟨e.Hash, havail e he, rfl⟩

theorem mergeNodesTrace_ok (Sha : Bytes → Bytes) (hsha : ∀ b, (Sha b).length = 32)
    (children : List Bytes) (nodeType : Nat) (hnt : nodeType = Big ∨ nodeType = BigDirectory) :
    ∀ n ∈ mergeNodesTrace Sha children nodeType, NodeOK Sha children n := by
  intro n hn
  unfold mergeNodesTrace at hn
  obtain ⟨g, hg, rfl⟩ := List.mem_map.mp hn
  exact NodeOK_hashChildren Sha hsha children nodeType hnt g
    (fun h hh => strides_mem children _ g hg h hh)

theorem mergeUntilOneTrace_ok (Sha : Bytes → Bytes) (hsha : ∀ b, (Sha b).length = 32)
    (nodeType : Nat) (hnt : nodeType = Big ∨ nodeType = BigDirectory) :
    ∀ fuel children final installed,
      mergeUntilOneTrace Sha nodeType fuel children = .ok (final, installed) →
      (∀ n ∈ final, n ∈ children ++ installed) ∧
      ∀ n ∈ installed, NodeOK Sha (children ++ installed) n := by
  intro fuel
  induction fuel with
  | zero =>
    intro children final installed h
    unfold mergeUntilOneTrace at h
    split at h
    · cases h
    · simp only [Except.ok.injEq, Prod.mk.injEq] at h
      obtain ⟨h1, h2⟩ := h
      subst h1; subst h2
      exact ⟨fun n hn => by simpa using hn, fun n hn => by cases hn⟩
  | succ fuel ih =>
    intro children final installed h
    unfold mergeUntilOneTrace at h
    split at h
    · split at h
      · cases h
      · rename_i final0 installed0 hrec
        simp only [Except.ok.injEq, Prod.mk.injEq] at h
        obtain ⟨h1, h2⟩ := h
        subst h1; subst h2
        obtain ⟨hfin, hok⟩ := ih _ _ _ hrec
        refine ⟨?_, ?_⟩
        · intro n hn
          have := hfin n hn
          simp only [List.mem_append] at this ⊢
          exact Or.inr this
        · intro n hn
          rcases List.mem_append.mp hn with hn | hn
          · exact (mergeNodesTrace_ok Sha hsha children nodeType hnt n hn).mono
              (fun x hx => List.mem_append_left _ hx)
          · exact (hok n hn).mono (fun x hx => by
              simp only [List.mem_append] at hx ⊢
              exact Or.inr hx)
    · simp only [Except.ok.injEq, Prod.mk.injEq] at h
      obtain ⟨h1, h2⟩ := h
      subst h1; subst h2
      exact ⟨fun n hn => by simpa using hn, fun n hn => by cases hn⟩

theorem firstNode_mem (children : List Bytes) (node : Bytes)
    (h : firstNode children = .ok node) : node ∈ children := by
  cases children with
  | nil => cases h
  | cons a rest =>
    simp only [firstNode, Except.ok.injEq] at h
    subst h
    exact List.mem_cons_self _ _

theorem fileTrace_ok (Sha : Bytes → Bytes) (hsha : ∀ b, (Sha b).length = 32)
    (data root : Bytes) (L : List Bytes) (h : fileTrace Sha data = .ok (root, L)) :
    root ∈ L ∧ ∀ n ∈ L, NodeOK Sha L n := by
  unfold fileTrace at h
  simp only at h
  split at h
  · cases h
  · rename_i final installed hm
    split at h
    · cases h
    · rename_i node hf
      simp only [Except.ok.injEq, Prod.mk.injEq] at h
      obtain ⟨h1, h2⟩ := h
      subst h1; subst h2
      obtain ⟨hfin, hok⟩ := mergeUntilOneTrace_ok Sha hsha Big (Or.inl rfl) _ _ _ _ hm
      have hnode := hfin node (firstNode_mem final node hf)
      have hsub : ∀ x ∈ List.map HashChunk (SplitIntoChunks data) ++ installed,
          x ∈ List.map HashChunk (SplitIntoChunks data) ++ installed ++ [node] :=
        fun x hx => List.mem_append_left _ hx
      have hall : ∀ n ∈ List.map HashChunk (SplitIntoChunks data) ++ installed,
          NodeOK Sha (List.map HashChunk (SplitIntoChunks data) ++ installed ++ [node]) n := by
        intro n hn
        rcases List.mem_append.mp hn with hn1 | hn1
        · obtain ⟨c, -, rfl⟩ := List.mem_map.mp hn1
          exact NodeOK_HashChunk Sha _ c
        · exact (hok n hn1).mono hsub
      refine ⟨by simp, ?_⟩
      intro n hn
      rcases List.mem_append.mp hn with hn1 | hn1
      · exact hall n hn1
      · simp only [List.mem_singleton] at hn1
        subst hn1
        exact hall n hnode

theorem zipWith_hash_mem (names children : List Bytes) :
    ∀ e ∈ List.zipWith (fun name child => ({ Name := name, Hash := child } : DirectoryEntry))
      names children, e.Hash ∈ children := by
  induction names generalizing children with
  | nil => intro e he; simp at he
  | cons nm rest ih =>
    intro e he
    cases children with
    | nil => simp at he
    | cons c cs =>
      simp only [List.zipWith_cons_cons, List.mem_cons] at he
      rcases he with he | he
      · subst he
        exact List.mem_cons_self _ _
      · exact List.mem_cons_of_mem _ (ih cs e he)

theorem dirTrace_ok (Sha : Bytes → Bytes) (hsha : ∀ b, (Sha b).length = 32)
    (names children : List Bytes) (root : Bytes) (L : List Bytes)
    (h : dirTrace Sha names children = .ok (root, L)) :
    root ∈ L ∧ ∀ n ∈ L, NodeOK Sha (children ++ L) n := by
  unfold dirTrace at h
  simp only at h
  split at h
  · simp only [Except.ok.injEq, Prod.mk.injEq] at h
    obtain ⟨h1, h2⟩ := h
    subst h1; subst h2
    refine ⟨List.mem_singleton_self _, ?_⟩
    intro n hn
    simp only [List.mem_singleton] at hn
    subst hn
    exact (NodeOK_HashDirectory Sha hsha children _ (zipWith_hash_mem names children)).mono
      (fun x hx => List.mem_append_left _ hx)
  · split at h
    · cases h
    · rename_i final installed hm
      split at h
      · cases h
      · rename_i node hf
        simp only [Except.ok.injEq, Prod.mk.injEq] at h
        obtain ⟨h1, h2⟩ := h
        subst h1; subst h2
        obtain ⟨hfin, hok⟩ :=
          mergeUntilOneTrace_ok Sha hsha BigDirectory (Or.inr rfl) _ _ _ _ hm
        refine ⟨hfin node (firstNode_mem final node hf), ?_⟩
        intro n hn
        rcases List.mem_append.mp hn with hn1 | hn1
        · obtain ⟨g, hg, rfl⟩ := List.mem_map.mp hn1
          refine (NodeOK_HashDirectory Sha hsha children g ?_).mono
            (fun x hx => List.mem_append_left _ hx)
          intro e he
          exact zipWith_hash_mem names children e (strides_mem _ _ g hg e he)
        · exact (hok n hn1).mono (fun x hx => List.mem_append_right _ hx)

mutual
/-- The nodes installed by a build contain the root; each is well formed and
each of its child references is the hash of an installed node. -/
theorem buildTrace_ok (Sha : Bytes → Bytes) (hsha : ∀ b, (Sha b).length = 32) :
    ∀ (t : FsNode) (root : Bytes) (L : List Bytes), buildTrace Sha t = .ok (root, L) →
      root ∈ L ∧ ∀ n ∈ L, NodeOK Sha L n
  | .file data, root, L, h => by
    rw [buildTrace] at h
    exact fileTrace_ok Sha hsha data root L h
  | .dir entries, root, L, h => by
    rw [buildTrace] at h
    split at h
    · cases h
    · rename_i children installed hc
      split at h
      · cases h
      · rename_i node installed1 hd
        simp only [Except.ok.injEq, Prod.mk.injEq] at h
        obtain ⟨h1, h2⟩ := h
        subst h1; subst h2
        obtain ⟨hch, hokc⟩ := childTraces_ok Sha hsha entries children installed hc
        obtain ⟨hroot, hokd⟩ := dirTrace_ok Sha hsha _ children node installed1 hd
        refine ⟨List.mem_append_right _ hroot, ?_⟩
        intro n hn
        rcases List.mem_append.mp hn with hn1 | hn1
        · exact (hokc n hn1).mono (fun x hx => List.mem_append_left _ hx)
        · refine (hokd n hn1).mono (fun x hx => ?_)
          rcases List.mem_append.mp hx with hx1 | hx1
          · exact List.mem_append_left _ (hch x hx1)
          · exact List.mem_append_right _ hx1
theorem childTraces_ok (Sha : Bytes → Bytes) (hsha : ∀ b, (Sha b).length = 32) :
    ∀ (entries : List (Bytes × FsNode)) (children L : List Bytes),
      childTraces Sha entries = .ok (children, L) →
      (∀ c ∈ children, c ∈ L) ∧ ∀ n ∈ L, NodeOK Sha L n
  | [], children, L, h => by
    rw [childTraces] at h
    simp only [Except.ok.injEq, Prod.mk.injEq] at h
    obtain ⟨h1, h2⟩ := h
    subst h1; subst h2
    exact ⟨fun c hc => (by cases hc), fun n hn => (by cases hn)⟩
  | (name, child) :: rest, children, L, h => by
    rw [childTraces] at h
    split at h
    · cases h
    · rename_i childNode installed hb
      split at h
      · cases h
      · rename_i children1 installed1 hr
        simp only [Except.ok.injEq, Prod.mk.injEq] at h
        obtain ⟨h1, h2⟩ := h
        subst h1; subst h2
        obtain ⟨hroot, hok⟩ := buildTrace_ok Sha hsha child childNode installed hb
        obtain ⟨hch, hok1⟩ := childTraces_ok Sha hsha rest children1 installed1 hr
        refine ⟨?_, ?_⟩
        · intro c hc
          rcases List.mem_cons.mp hc with hc1 | hc1
          · subst hc1
            exact List.mem_append_left _ hroot
          · exact List.mem_append_right _ (hch c hc1)
        · intro n hn
          rcases List.mem_append.mp hn with hn1 | hn1
          · exact (hok n hn1).mono (fun x hx => List.mem_append_left _ hx)
          · exact (hok1 n hn1).mono (fun x hx => List.mem_append_right _ hx)
end

/-! ## Merkle store: the store after a sequence of installs -/

theorem installCount_le (Sha : Bytes → Bytes) (L : List Bytes) (k : Bytes) :
    installCount Sha L k ≤ L.length := by
  unfold installCount
  have := List.count_le_length k (L.map Sha)
  simpa using this

theorem installCount_append (Sha : Bytes → Bytes) (L1 L2 : List Bytes) (k : Bytes) :
    installCount Sha (L1 ++ L2) k = installCount Sha L1 k + installCount Sha L2 k := by
  simp [installCount]

theorem installCount_pos (Sha : Bytes → Bytes) (L : List Bytes) (n : Bytes) (hn : n ∈ L) :
    0 < installCount Sha L (Sha n) := by
  unfold installCount
  exact List.count_pos_iff.mpr (List.mem_map_of_mem Sha hn)

theorem firstWithKey_none (Sha : Bytes → Bytes) (L : List Bytes) (k : Bytes)
    (h : firstWithKey Sha L k = none) : installCount Sha L k = 0 := by
  unfold firstWithKey at h
  unfold installCount
  rw [List.count_eq_zero]
  intro hk
  obtain ⟨n, hn, hs⟩ := List.mem_map.mp hk
  have := List.find?_eq_none.mp h n hn
  simp [hs] at this

theorem firstWithKey_some (Sha : Bytes → Bytes) (L : List Bytes) (k n : Bytes)
    (h : firstWithKey Sha L k = some n) : n ∈ L ∧ Sha n = k := by
  unfold firstWithKey at h
  have h1 := List.find?_some h
  exact ⟨List.mem_of_find?_eq_some h, by simpa using h1⟩

theorem firstWithKey_append (Sha : Bytes → Bytes) (L : List Bytes) (n k : Bytes) :
    firstWithKey Sha (L ++ [n]) k =
      match firstWithKey Sha L k with
      | some m => some m
      | none => if Sha n = k then some n else none := by
  unfold firstWithKey
  rw [List.find?_append]
  cases List.find? (fun n => decide (Sha n = k)) L with
  | some m => rfl
  | none =>
    simp only [Option.none_or, List.find?_cons, List.find?_nil]
    by_cases h : Sha n = k <;> simp [h]

/-- One `FillMap` keeps the description of the store by the list of the
installed nodes. -/
theorem FillMap_char (Sha : Bytes → Bytes) (P : List Bytes) (n : Bytes) (s : MerkleState)
    (hM : ∀ k, mapGet s.MerkleMap k = firstWithKey Sha P k)
    (hC : ∀ k, countOf s.CountMap k = installCount Sha P k)
    (hlen : P.length + 1 < uintSize) :
    (∀ k, mapGet (FillMap Sha n s).MerkleMap k = firstWithKey Sha (P ++ [n]) k) ∧
    (∀ k, countOf (FillMap Sha n s).CountMap k = installCount Sha (P ++ [n]) k) := by
  have hcnt : ∀ k, installCount Sha (P ++ [n]) k
      = installCount Sha P k + (if Sha n = k then 1 else 0) := by
    intro k
    rw [installCount_append]
    congr 1
    unfold installCount
    by_cases h : Sha n = k
    · simp [h]
    · simp only [List.map_cons, List.map_nil, h, if_false]
      exact List.count_eq_zero.mpr (by simp [h, Ne.symm h])
  cases hget : mapGet s.MerkleMap (Sha n) with
  | none =>
    rw [FillMap_absent Sha n s hget]
    have hnone : firstWithKey Sha P (Sha n) = none := by rw [← hM]; exact hget
    refine ⟨?_, ?_⟩
    · intro k
      rw [firstWithKey_append]
      by_cases hk : k = Sha n
      · subst hk
        simp [mapGet_mapSet_self, hnone]
      · have hk2 : ¬ Sha n = k := fun e => hk e.symm
        simp only [mapGet_mapSet_ne _ _ _ _ hk, hM, hk2, if_false]
        cases firstWithKey Sha P k <;> rfl
    · intro k
      rw [hcnt]
      by_cases hk : k = Sha n
      · subst hk
        simp [countOf_mapSet_self, firstWithKey_none Sha P _ hnone]
      · have hk2 : ¬ Sha n = k := fun e => hk e.symm
        simp only [hk2, if_false, Nat.add_zero]
        rw [← hC]
        exact countOf_congr _ _ k (mapGet_mapSet_ne _ _ _ _ hk)
  | some old =>
    rw [FillMap_present Sha n old s hget]
    have hsome : firstWithKey Sha P (Sha n) = some old := by rw [← hM]; exact hget
    refine ⟨?_, ?_⟩
    · intro k
      rw [firstWithKey_append]
      by_cases hk : k = Sha n
      · subst hk
        simp [hM, hsome]
      · have hk2 : ¬ Sha n = k := fun e => hk e.symm
        simp only [hM, hk2, if_false]
        cases firstWithKey Sha P k <;> rfl
    · intro k
      rw [hcnt]
      by_cases hk : k = Sha n
      · subst hk
        simp only [countOf_mapSet_self, if_true, hC]
        have := installCount_le Sha P (Sha n)
        exact Nat.mod_eq_of_lt (by omega)
      · have hk2 : ¬ Sha n = k := fun e => hk e.symm
        simp only [hk2, if_false, Nat.add_zero]
        rw [← hC]
        exact countOf_congr _ _ k (mapGet_mapSet_ne _ _ _ _ hk)

theorem fillAll_char_aux (Sha : Bytes → Bytes) :
    ∀ (L P : List Bytes) (s : MerkleState),
      (∀ k, mapGet s.MerkleMap k = firstWithKey Sha P k) →
      (∀ k, countOf s.CountMap k = installCount Sha P k) →
      (P ++ L).length < uintSize →
      (∀ k, mapGet (fillAll Sha L s).MerkleMap k = firstWithKey Sha (P ++ L) k) ∧
      (∀ k, countOf (fillAll Sha L s).CountMap k = installCount Sha (P ++ L) k) := by
  intro L
  induction L with
  | nil =>
    intro P s hM hC _
    simpa [fillAll] using ⟨hM, hC⟩
  | cons n rest ih =>
    intro P s hM hC hlen
    have hlen1 : P.length + 1 < uintSize := by
      simp only [List.length_append, List.length_cons] at hlen
      omega
    obtain ⟨hM1, hC1⟩ := FillMap_char Sha P n s hM hC hlen1
    have := ih (P ++ [n]) (FillMap Sha n s) hM1 hC1 (by simpa using hlen)
    simpa [fillAll] using this

/-- The store after the installs of a list `L` of fewer than `2^64` nodes in
the empty store: a key holds the first node of `L` with that hash, and its
count is the number of nodes of `L` with that hash. -/
theorem fillAll_char (Sha : Bytes → Bytes) (L : List Bytes) (hlen : L.length < uintSize) :
    (∀ k, mapGet (fillAll Sha L MerkleState.empty).MerkleMap k = firstWithKey Sha L k) ∧
    (∀ k, countOf (fillAll Sha L MerkleState.empty).CountMap k = installCount Sha L k) := by
  have := fillAll_char_aux Sha L [] MerkleState.empty (fun _ => rfl) (fun _ => rfl)
    (by simpa using hlen)
  simpa using this

/-! ## Merkle store: what a deletion visits -/

theorem ClosedUnder.step {A : Bytes → Prop} {s s1 : MerkleState} {v v1 : List Bytes}
    (h : ClosedUnder A s.MerkleMap) (hstep : DelStep s v s1 v1) :
    ClosedUnder A s1.MerkleMap :=
  fun p node hp hget c hc => h p node hp (hstep.submap p node hget) c hc

theorem deleteChildren_visited (A : Bytes → Prop)
    (visit : Bytes → MerkleState → List Bytes → Except Fault (MerkleState × List Bytes))
    (hvisit : ∀ c s v s1 v1, visit c s v = .ok (s1, v1) →
      DelStep s v s1 v1 ∧ (A c → ClosedUnder A s.MerkleMap → ∀ x ∈ v1, x ∈ v ∨ A x))
    (cs : List Bytes) :
    ∀ s v s1 v1, deleteChildren visit cs s v = .ok (s1, v1) → (∀ c ∈ cs, A c) →
      ClosedUnder A s.MerkleMap → ∀ x ∈ v1, x ∈ v ∨ A x := by
  induction cs with
  | nil =>
    intro s v s1 v1 h _ _ x hx
    simp only [deleteChildren, Except.ok.injEq, Prod.mk.injEq] at h
    obtain ⟨-, hv⟩ := h
    subst hv
    exact Or.inl hx
  | cons c rest ih =>
    intro s v s1 v1 h hA hcl x hx
    unfold deleteChildren at h
    cases hc : visit c s v with
    | error e => rw [hc] at h; cases h
    | ok r =>
      obtain ⟨s0, v0⟩ := r
      rw [hc] at h
      obtain ⟨hstep, hvis⟩ := hvisit c s v s0 v0 hc
      rcases ih s0 v0 s1 v1 h (fun c1 hc1 => hA c1 (List.mem_cons_of_mem _ hc1))
        (hcl.step hstep) x hx with h1 | h1
      · exact hvis (hA c (List.mem_cons_self _ _)) hcl x h1
      · exact Or.inr h1

theorem index_zero_ok (node : Bytes) (tag : Nat) (h : index node 0 = .ok tag) :
    node.getD 0 0 = tag := by
  cases node with
  | nil => simp [index] at h
  | cons a rest =>
    simp only [index, List.get?_cons_zero, Except.ok.injEq] at h
    simpa using h

/-- A deletion that starts at a key of a set closed under child references
visits only keys of that set. -/
theorem deleteNode_visited (A : Bytes → Prop) :
    ∀ fuel h s v s1 v1, deleteNode fuel h s v = .ok (s1, v1) → A h →
      ClosedUnder A s.MerkleMap → ∀ x ∈ v1, x ∈ v ∨ A x := by
  intro fuel
  induction fuel with
  | zero => intro h s v s1 v1 hres; simp [deleteNode] at hres
  | succ fuel ih =>
    intro h s v s1 v1 hres hA hcl x hx
    have hcons : ∀ y, y ∈ h :: v → y ∈ v ∨ A y := by
      intro y hy
      rcases List.mem_cons.mp hy with e | e
      · subst e; exact Or.inr hA
      · exact Or.inl e
    simp only [deleteNode] at hres
    split at hres
    · simp only [Except.ok.injEq, Prod.mk.injEq] at hres
      obtain ⟨-, hv⟩ := hres
      subst hv
      exact Or.inl hx
    · split at hres
      · simp only [Except.ok.injEq, Prod.mk.injEq] at hres
        obtain ⟨-, hv⟩ := hres
        subst hv
        exact hcons x hx
      · rename_i node hnode
        split at hres
        · simp only [Except.ok.injEq, Prod.mk.injEq] at hres
          obtain ⟨-, hv⟩ := hres
          subst hv
          exact hcons x hx
        · split at hres
          · cases hres
          · rename_i tag htag
            have htag0 := index_zero_ok node tag htag
            split at hres
            · cases hres
            · rename_i s2 v2 hwalk
              simp only [Except.ok.injEq, Prod.mk.injEq] at hres
              obtain ⟨-, hv⟩ := hres
              subst hv
              have hvisit : ∀ c s v s1 v1, deleteNode fuel c s v = .ok (s1, v1) →
                  DelStep s v s1 v1 ∧
                  (A c → ClosedUnder A s.MerkleMap → ∀ x ∈ v1, x ∈ v ∨ A x) :=
                fun c s v s1 v1 hc => ⟨deleteNode_step fuel c s v s1 v1 hc, ih c s v s1 v1 hc⟩
              have hch := hcl h node hA hnode
              have hmem : x ∈ h :: v ∨ A x := by
                split at hwalk
                · rename_i hd
                  rw [childHashes_of_directory node (htag0.trans hd)] at hch
                  exact deleteChildren_visited A _ hvisit _ _ _ _ _ hwalk hch hcl x hx
                · split at hwalk
                  · rename_i hb
                    rw [childHashes_of_big node (by rw [htag0]; exact hb)] at hch
                    exact deleteChildren_visited A _ hvisit _ _ _ _ _ hwalk hch hcl x hx
                  · simp only [Except.ok.injEq, Prod.mk.injEq] at hwalk
                    obtain ⟨-, hv⟩ := hwalk
                    subst hv
                    exact Or.inl hx
              rcases hmem with h1 | h1
              · exact hcons x h1
              · exact Or.inr h1

theorem DeleteMerkleTree_visited (A : Bytes → Prop) (rootHash : Bytes) (s s1 : MerkleState)
    (h : DeleteMerkleTree rootHash s = .ok s1) (hA : A rootHash)
    (hcl : ClosedUnder A s.MerkleMap) :
    ∃ v1, DelStep s [] s1 v1 ∧ ∀ x ∈ v1, A x := by
  unfold DeleteMerkleTree at h
  split at h
  · cases h
  · rename_i s2 v2 hd
    simp only [Except.ok.injEq] at h
    subst h
    refine ⟨v2, deleteNode_step _ _ _ _ _ _ hd, ?_⟩
    intro x hx
    rcases deleteNode_visited A _ _ _ _ _ _ hd hA hcl x hx with h1 | h1
    · cases h1
    · exact h1

/-! ## Merkle store: deleting one of two installed trees -/

theorem VerifyMerkle_false (M : GoMap Bytes) (rootHash : Bytes)
    (h : VerifyMerkle M rootHash = .ok false) :
    ∃ h1, Reachable M rootHash h1 ∧ ∀ node, mapGet M h1 = some node → 3 < node.getD 0 0 := by
  unfold VerifyMerkle at h
  split at h
  · cases h
  · rename_i b v1 hv
    simp only [Except.ok.injEq] at h
    subst h
    exact (verifyNode_post M _ _ _ _ _ hv).2.2 rfl

/-- Deleting one of two installed families: in the store obtained by
installing the nodes `L`, let
`LA` and `LB` be two families of installed nodes, each closed under child
references, whose installs are counted separately in `L`.  Deleting from a
node of `LA` keeps every node of `LB`, so the tree below a node of `LB` still
verifies. -/
theorem delete_keeps_installed (Sha : Bytes → Bytes) (L LA LB : List Bytes) (rA rB : Bytes)
    (hinj : ∀ a ∈ L, ∀ b ∈ L, Sha a = Sha b → a = b)
    (hlen : L.length < uintSize)
    (hne : ∀ n ∈ L, n ≠ [])
    (hA : ∀ n ∈ LA, n ∈ L) (hB : ∀ n ∈ LB, n ∈ L)
    (hcount : ∀ k, installCount Sha LA k + installCount Sha LB k ≤ installCount Sha L k)
    (hokA : ∀ n ∈ LA, NodeOK Sha LA n) (hokB : ∀ n ∈ LB, NodeOK Sha LB n)
    (hrA : rA ∈ LA) (hrB : rB ∈ LB) :
    ∃ s3, DeleteMerkleTree (Sha rA) (fillAll Sha L MerkleState.empty) = .ok s3 ∧
      VerifyMerkle s3.MerkleMap (Sha rB) = .ok true := by
  obtain ⟨hM, hC⟩ := fillAll_char Sha L hlen
  -- the stored nodes are the installed nodes
  have F1 : ∀ k node, mapGet (fillAll Sha L MerkleState.empty).MerkleMap k = some node →
      node ∈ L ∧ Sha node = k := by
    intro k node hk
    rw [hM] at hk
    exact firstWithKey_some Sha L k node hk
  have F2 : ∀ n ∈ L, mapGet (fillAll Sha L MerkleState.empty).MerkleMap (Sha n) = some n := by
    intro n hn
    rw [hM]
    cases hf : firstWithKey Sha L (Sha n) with
    | none =>
      have := firstWithKey_none Sha L _ hf
      have := installCount_pos Sha L n hn
      omega
    | some m =>
      obtain ⟨hm, hs⟩ := firstWithKey_some Sha L _ m hf
      rw [hinj m hm n hn hs]
  have hnoempty : NoEmptyNode (fillAll Sha L MerkleState.empty).MerkleMap :=
    fun k node hk => hne node (F1 k node hk).1
  rcases DeleteMerkleTree_total (Sha rA) (fillAll Sha L MerkleState.empty) with
    ⟨s3, hdel⟩ | ⟨-, hbad⟩
  swap
  · exact absurd hnoempty hbad
  refine ⟨s3, hdel, ?_⟩
  -- the deletion visits only hashes of nodes of `LA`
  have hclA : ClosedUnder (fun k => ∃ n ∈ LA, Sha n = k)
      (fillAll Sha L MerkleState.empty).MerkleMap := by
    intro p node hp hget c hc
    obtain ⟨n, hn, rfl⟩ := hp
    rw [F2 n (hA n hn)] at hget
    have hnode : n = node := Option.some.inj hget
    subst hnode
    exact (hokA n hn).2.2 c hc
  obtain ⟨v1, hstep, hvis⟩ := DeleteMerkleTree_visited _ (Sha rA) _ s3 hdel ⟨rA, hrA, rfl⟩ hclA
  -- every node of `LB` is kept
  have hkept : ∀ n ∈ LB, mapGet s3.MerkleMap (Sha n) = some n := by
    intro n hn
    rcases hstep.2.1 (Sha n) with h | ⟨-, hone, -, hv⟩
    · rw [h]; exact F2 n (hB n hn)
    · exfalso
      obtain ⟨m, hm, hs⟩ := hvis _ hv
      have h1 := installCount_pos Sha LA m hm
      rw [hs] at h1
      have h2 := installCount_pos Sha LB n hn
      have h3 := hcount (Sha n)
      have h4 := installCount_le Sha L (Sha n)
      rw [hC, Nat.mod_eq_of_lt (by omega)] at hone
      omega
  -- the hashes reachable from the root of `LB` are hashes of nodes of `LB`
  have hreach : ∀ h, Reachable s3.MerkleMap (Sha rB) h → ∃ n ∈ LB, Sha n = h := by
    intro h hr
    induction hr with
    | refl => exact ⟨rB, hrB, rfl⟩
    | tail _ hedge ih =>
      obtain ⟨n, hn, rfl⟩ := ih
      obtain ⟨node, hnode, hc⟩ := hedge
      rw [hkept n hn] at hnode
      have hnode1 : n = node := Option.some.inj hnode
      subst hnode1
      exact (hokB n hn).2.2 _ hc
  obtain ⟨b, hb⟩ := VerifyMerkle_total s3.MerkleMap (Sha rB)
  cases b with
  | true => exact hb
  | false =>
    exfalso
    obtain ⟨h1, hr, hbadtag⟩ := VerifyMerkle_false _ _ hb
    obtain ⟨n, hn, rfl⟩ := hreach h1 hr
    have := hbadtag n (hkept n hn)
    have := (hokB n hn).2.1
    omega

/-- C10: for every two trees R1 and R2 that were each installed by
`BuildMerkleNode` in the same store (R1 first, then R2; the store may hold
earlier installs `L0`; the trees may share files, sub-directories or chunks,
and one may be a subtree of the other), one call of `DeleteMerkleTree` on the
root hash of either tree returns and leaves every node reachable from the root
of the other one in the store, so `VerifyMerkle` on that other root hash still
returns true.  The hash has 32-byte digests and no collision among the
installed nodes, and fewer than `2^64` nodes were installed. -/
theorem DeleteMerkleTree_keeps_other_tree (Sha : Bytes → Bytes) (L0 : List Bytes)
    (t1 t2 : FsNode) (n1 n2 : Bytes) (s1 s2 : MerkleState)
    (hsha : ∀ b, (Sha b).length = 32)
    (hL0 : ∀ n ∈ L0, n ≠ [])
    (hinj : ∀ a ∈ L0 ++ installs Sha t1 ++ installs Sha t2,
      ∀ b ∈ L0 ++ installs Sha t1 ++ installs Sha t2, Sha a = Sha b → a = b)
    (hlen : (L0 ++ installs Sha t1 ++ installs Sha t2).length < 2 ^ 64)
    (h1 : BuildMerkleNode Sha t1 (fillAll Sha L0 MerkleState.empty) = .ok (n1, s1))
    (h2 : BuildMerkleNode Sha t2 s1 = .ok (n2, s2)) :
    (∃ s3, DeleteMerkleTree (Sha n1) s2 = .ok s3 ∧
      VerifyMerkle s3.MerkleMap (Sha n2) = .ok true) ∧
    (∃ s3, DeleteMerkleTree (Sha n2) s2 = .ok s3 ∧
      VerifyMerkle s3.MerkleMap (Sha n1) = .ok true) := by
  obtain ⟨ht1, hs1⟩ := BuildMerkleNode_installs Sha t1 _ s1 n1 h1
  obtain ⟨ht2, hs2⟩ := BuildMerkleNode_installs Sha t2 _ s2 n2 h2
  obtain ⟨hr1, hok1⟩ := buildTrace_ok Sha hsha t1 n1 _ ht1
  obtain ⟨hr2, hok2⟩ := buildTrace_ok Sha hsha t2 n2 _ ht2
  have hs : s2 = fillAll Sha (L0 ++ installs Sha t1 ++ installs Sha t2) MerkleState.empty := by
    rw [hs2, hs1, fillAll_append, fillAll_append]
  have hne : ∀ n ∈ L0 ++ installs Sha t1 ++ installs Sha t2, n ≠ [] := by
    intro n hn
    simp only [List.mem_append] at hn
    rcases hn with (hn | hn) | hn
    · exact hL0 n hn
    · exact (hok1 n hn).1
    · exact (hok2 n hn).1
  have hm1 : ∀ n ∈ installs Sha t1, n ∈ L0 ++ installs Sha t1 ++ installs Sha t2 :=
    fun n hn => List.mem_append_left _ (List.mem_append_right _ hn)
  have hm2 : ∀ n ∈ installs Sha t2, n ∈ L0 ++ installs Sha t1 ++ installs Sha t2 :=
    fun n hn => List.mem_append_right _ hn
  have hc : ∀ k, installCount Sha (L0 ++ installs Sha t1 ++ installs Sha t2) k
      = installCount Sha L0 k + installCount Sha (installs Sha t1) k
        + installCount Sha (installs Sha t2) k := by
    intro k
    rw [installCount_append, installCount_append]
  rw [hs]
  exact ⟨delete_keeps_installed Sha _ _ _ n1 n2 hinj hlen hne hm1 hm2
      (fun k => by rw [hc]; omega) hok1 hok2 hr1 hr2,
    delete_keeps_installed Sha _ _ _ n2 n1 hinj hlen hne hm2 hm1
      (fun k => by rw [hc]; omega) hok2 hok1 hr2 hr1⟩

theorem sampleSha_length (b : Bytes) : (sampleSha b).length = 32 := by
  simp [sampleSha]

/-- Witness of C10: two directories that share the chunk of their file. -/
theorem DeleteMerkleTree_keeps_other_tree_witness :
    (∃ s3, DeleteMerkleTree (sampleSha (HashDirectory sampleSha [{ Name := [97], Hash := [0, 7] }]))
        (fillAll sampleSha (installs sampleSha sampleTree1 ++ installs sampleSha sampleTree2)
          MerkleState.empty) = .ok s3 ∧
      VerifyMerkle s3.MerkleMap
        (sampleSha (HashDirectory sampleSha [{ Name := [98], Hash := [0, 7] }])) = .ok true) :=
  (DeleteMerkleTree_keeps_other_tree sampleSha [] sampleTree1 sampleTree2
    (HashDirectory sampleSha [{ Name := [97], Hash := [0, 7] }])
    (HashDirectory sampleSha [{ Name := [98], Hash := [0, 7] }])
    (fillAll sampleSha (installs sampleSha sampleTree1) MerkleState.empty)
    (fillAll sampleSha (installs sampleSha sampleTree1 ++ installs sampleSha sampleTree2)
      MerkleState.empty)
    sampleSha_length (by intro n hn; cases hn) (by decide) (by decide) rfl rfl).1

/-! ## Merkle store: a tree built from a single-chunk file -/

/-- C9, at its own witness input (a regular file of a single chunk, here the
byte 7), for every hash function: `BuildMerkleNode` in the empty store calls
`FillMap` twice on the chunk node `0 7` (in the chunk loop and again at
`FillMap(children[0])`), so its count is 2; `DeleteMerkleTree` on its hash
decrements the count to 1 and returns without removing it: the store and the
refcount map are not empty afterwards. -/
theorem DeleteMerkleTree_single_chunk_leak (Sha : Bytes → Bytes) :
    BuildMerkleNode Sha (.file [7]) MerkleState.empty =
      .ok ([0, 7], { MerkleMap := [(Sha [0, 7], [0, 7])], CountMap := [(Sha [0, 7], 2)] }) ∧
    DeleteMerkleTree (Sha [0, 7])
        { MerkleMap := [(Sha [0, 7], [0, 7])], CountMap := [(Sha [0, 7], 2)] } =
      .ok { MerkleMap := [(Sha [0, 7], [0, 7])], CountMap := [(Sha [0, 7], 1)] } := by
  constructor
  · simp [BuildMerkleNode, buildFileNode, SplitIntoChunks, strides, strideLoop, ChunkSize,
      HashChunk, Chunk, mergeUntilOne, firstNode, FillMap, MerkleState.empty, mapGet, mapSet,
      mapDelete, countOf, uintSize]
  · simp [DeleteMerkleTree, deleteNode, mapGet, mapSet, mapDelete, countOf, uintSize]

/-! ## Hello frames -/

theorem copyAt_replicate (pre : Bytes) (name : Bytes) (k : Nat) :
    copyAt (pre ++ List.replicate (name.length + k) 0) pre.length name
      = pre ++ name ++ List.replicate k 0 := by
  unfold copyAt
  simp only [List.length_append, List.length_replicate]
  have h1 : min (pre.length + (name.length + k) - pre.length) name.length = name.length := by
    omega
  rw [h1, List.take_left, List.take_length, List.drop_append, List.drop_replicate]
  congr 2
  omega

theorem hello_buffer (a b c d m : Nat) :
    ((((List.replicate (ExtensionField + m) 0).set 0 a).set 1 b).set 2 c).set 3 d
      = [a, b, c, d] ++ List.replicate m 0 := by
  have h : ExtensionField + m = m + 4 := by unfold ExtensionField; omega
  rw [h]
  simp [List.replicate_succ]

/-- In the frame of `BuildHelloDH` the body is the extensions, the name, as
many zero bytes as the key has bytes, and then the key. -/
theorem BuildHelloDH_eq (SignMessage : Bytes → Except String Bytes)
    (id extensions : Nat) (name dh_pub : Bytes) (reply : Nat) :
    BuildHelloDH SignMessage id extensions name dh_pub reply
      = BuildMessage SignMessage id reply
          (putUint32 extensions ++ name ++ List.replicate dh_pub.length 0 ++ dh_pub) true := by
  unfold BuildHelloDH
  simp only []
  rw [Nat.add_assoc, hello_buffer]
  have h := copyAt_replicate [extensions / 2 ^ 24 % 256, extensions / 2 ^ 16 % 256,
    extensions / 2 ^ 8 % 256, extensions % 256] name dh_pub.length
  have h4 : ExtensionField = [extensions / 2 ^ 24 % 256, extensions / 2 ^ 16 % 256,
    extensions / 2 ^ 8 % 256, extensions % 256].length := rfl
  rw [h4, h]
  rfl

/-- In the frame of `BuildHello` the body is the extensions followed by the
name. -/
theorem BuildHello_eq (SignMessage : Bytes → Except String Bytes)
    (id extensions : Nat) (name : Bytes) (reply : Nat) :
    BuildHello SignMessage id extensions name reply
      = BuildMessage SignMessage id reply (putUint32 extensions ++ name) true := by
  unfold BuildHello
  simp only []
  rw [hello_buffer]
  have h := copyAt_replicate [extensions / 2 ^ 24 % 256, extensions / 2 ^ 16 % 256,
    extensions / 2 ^ 8 % 256, extensions % 256] name 0
  have h4 : ExtensionField = [extensions / 2 ^ 24 % 256, extensions / 2 ^ 16 % 256,
    extensions / 2 ^ 8 % 256, extensions % 256].length := rfl
  rw [h4, Nat.add_zero] at *
  rw [h]
  simp [putUint32]

/-- Claim C20 fails in the code: for the one-byte name `a` and a key of 64
bytes equal to 7, the body of the frame that `BuildHelloDH` builds has 133
bytes, not 4 + 1 + 64 = 69: the extensions, the name, 64 zero bytes and only
then the key, and the declared body length is 133. -/
theorem BuildHelloDH_zero_gap :
    (BuildHelloDH sampleSigner 5 0 [97] (List.replicate 64 7) Hello).map getBody
      = .ok ([0, 0, 0, 0, 97] ++ List.replicate 64 0 ++ List.replicate 64 7, 133, true) := by
  rw [BuildHelloDH_eq]
  set_option maxRecDepth 10000 in rfl

/-! ## Sliding window -/

theorem WindowBounds_call (w : SlidingWindow) (c : WindowCall) (h : WindowBounds w) :
    WindowBounds (w.call c) ∧ (w.call c).Min = w.Min ∧ (w.call c).Max = w.Max := by
  obtain ⟨S, Mi, Ma, F⟩ := w
  obtain ⟨h0, h1, h2, h3, h4, h5⟩ := h
  dsimp only at h0 h1 h2 h3 h4 h5
  have hw : wrapInt (F + 1) = F + 1 := by unfold wrapInt; omega
  have hd : Int.tdiv S 2 = S / 2 := Int.tdiv_eq_ediv (by omega) (by omega)
  cases c <;>
    simp only [SlidingWindow.call, SlidingWindow.OnSend, SlidingWindow.OnSuccess,
      SlidingWindow.OnTimeout, WindowBounds, hw, hd] <;>
    split_ifs <;> dsimp only at * <;>
    (refine ⟨⟨?_, ?_, ?_, ?_, ?_, ?_⟩, ?_, ?_⟩ <;> first | rfl | omega)

/-- What every sequence of calls does keep, from a window created with
`0 ≤ min ≤ initial ≤ max`: `Min ≤ Size ≤ Max` and `0 ≤ InFlight ≤ Max`. -/
theorem WindowBounds_run (min initial max : Int) (calls : List WindowCall)
    (h0 : 0 ≤ min) (h1 : min ≤ initial) (h2 : initial ≤ max) (h3 : max < 2 ^ 63 - 1) :
    WindowBounds ((NewSlidingWindow min initial max).run calls) := by
  have hinit : WindowBounds (NewSlidingWindow min initial max) := by
    unfold NewSlidingWindow WindowBounds
    simp only []
    split <;> refine ⟨?_, ?_, ?_, ?_, ?_, ?_⟩ <;> omega
  generalize NewSlidingWindow min initial max = w at hinit
  unfold SlidingWindow.run
  induction calls generalizing w with
  | nil => exact hinit
  | cons c cs ih => exact ih _ (WindowBounds_call w c hinit).1

/-- Claim C14 fails in the code: on the window that `AddPeer` creates, 32 calls
of `OnSend` followed by one `OnTimeout` leave 31 requests in flight in a window
of size 16. -/
theorem SlidingWindow_inflight_exceeds_size :
    (NewSlidingWindow 1 32 10000).run (List.replicate 32 .send ++ [.timeout])
      = { Size := 16, Min := 1, Max := 10000, InFlight := 31 } := by
  set_option maxRecDepth 10000 in decide

/-! ## `NextAddress` -/

theorem NextAddress_step (resolve : Bytes → Option UDPAddr) (p : Peer) (i : Nat)
    (s : Bytes) (u : UDPAddr) (hi : p.AddrIndex = i) (hs : p.Addresses.get? i = some s)
    (hu : resolve s = some u) :
    p.NextAddress resolve
      = .ok ({ p with ActiveAddr := some u, AddrIndex := p.AddrIndex + 1 }, some u, true) := by
  have hlt : i < p.Addresses.length := by
    rcases Nat.lt_or_ge i p.Addresses.length with h | h
    · exact h
    · rw [List.get?_eq_none.mpr h] at hs; cases hs
  unfold Peer.NextAddress
  rw [if_neg (by omega), if_neg (by omega), if_neg (by omega)]
  have hn : p.AddrIndex.toNat = i := by omega
  rw [hn, hs]
  simp only [hu]

theorem NextAddress_end (resolve : Bytes → Option UDPAddr) (p : Peer)
    (hne : p.Addresses ≠ []) (hi : p.AddrIndex = p.Addresses.length) :
    p.NextAddress resolve = .ok ({ p with AddrIndex := 0 }, none, false) := by
  have hpos : 0 < p.Addresses.length := List.length_pos.mpr hne
  unfold Peer.NextAddress
  rw [if_neg (by omega), if_pos (by omega)]

theorem nextAddressCalls_walk (resolve : Bytes → Option UDPAddr) :
    ∀ (k i : Nat) (p : Peer), p.AddrIndex = i → i + k ≤ p.Addresses.length →
      (∀ s ∈ p.Addresses, (resolve s).isSome) →
      nextAddressCalls resolve k p
        = .ok ({ p with
                  AddrIndex := ((i + k : Nat) : Int),
                  ActiveAddr := if k = 0 then p.ActiveAddr
                    else resolve (p.Addresses.getD (i + k - 1) []) },
               ((p.Addresses.drop i).take k).map fun s => (resolve s, true)) := by
  intro k
  induction k with
  | zero =>
    intro i p hi _ _
    cases p
    simp only [nextAddressCalls, Nat.add_zero, if_true, List.take_zero, List.map_nil]
    simp only at hi
    rw [hi]
  | succ k ih =>
    intro i p hi hle hres
    have hlt : i < p.Addresses.length := by omega
    obtain ⟨s, hs⟩ : ∃ s, p.Addresses.get? i = some s :=
      ⟨p.Addresses.get ⟨i, hlt⟩, List.get?_eq_get hlt⟩
    have hmem : s ∈ p.Addresses := List.get?_mem hs
    obtain ⟨u, hu⟩ := Option.isSome_iff_exists.mp (hres s hmem)
    unfold nextAddressCalls
    rw [NextAddress_step resolve p i s u hi hs hu]
    simp only []
    have hrec := ih (i + 1) { p with ActiveAddr := some u, AddrIndex := p.AddrIndex + 1 }
      (by simp only [hi]; omega) (by simp only []; omega) hres
    simp only [] at hrec
    rw [hrec]
    simp only [Nat.succ_ne_zero, if_false]
    have hdrop : List.drop i p.Addresses = s :: List.drop (i + 1) p.Addresses := by
      rw [List.drop_eq_getElem_cons hlt]
      congr 1
      rw [List.get?_eq_getElem? ] at hs
      rw [List.getElem?_eq_getElem hlt] at hs
      exact Option.some.inj hs
    rw [hdrop]
    simp only [List.take_succ_cons, List.map_cons, hu]
    have e1 : i + 1 + k = i + (k + 1) := by omega
    rw [e1]
    by_cases hk : k = 0
    · subst hk
      simp only [if_true, Nat.add_zero, Nat.add_sub_cancel]
      have : p.Addresses.getD i [] = s := by
        rw [List.getD_eq_getElem?_getD, ← List.get?_eq_getElem?, hs]; rfl
      rw [this, hu]
    · simp only [hk, if_false]

/-- Claim C19: for a peer with `n ≥ 1` candidate addresses that all resolve and
the cursor at 0, the first `k ≤ n` calls of `NextAddress` return the first `k`
candidates in list order, each with the flag true, and leave the cursor at `k`
and `ActiveAddr` at the address returned last; the call after the `n`-th
returns nil and false, puts the cursor back to 0 and leaves `ActiveAddr` as it
was. -/
theorem NextAddress_cycle (resolve : Bytes → Option UDPAddr) (p : Peer)
    (hne : p.Addresses ≠ []) (hres : ∀ s ∈ p.Addresses, (resolve s).isSome)
    (hcur : p.AddrIndex = 0) :
    (∀ k, 1 ≤ k → k ≤ p.Addresses.length →
      nextAddressCalls resolve k p
        = .ok ({ p with
                  AddrIndex := (k : Int),
                  ActiveAddr := resolve (p.Addresses.getD (k - 1) []) },
               (p.Addresses.take k).map fun s => (resolve s, true))) ∧
    ∀ pn rs, nextAddressCalls resolve p.Addresses.length p = .ok (pn, rs) →
      pn.NextAddress resolve = .ok ({ pn with AddrIndex := 0 }, none, false) := by
  have hwalk := fun k hk => nextAddressCalls_walk resolve k 0 p (by simp [hcur]) hk hres
  constructor
  · intro k h1 hk
    rw [hwalk k (by omega)]
    simp only [Nat.zero_add, List.drop_zero]
    rw [if_neg (by omega)]
  · intro pn rs hn
    rw [hwalk _ (by omega)] at hn
    have hpn := (Prod.mk.inj (Except.ok.inj hn)).1
    subst hpn
    exact NextAddress_end resolve _ hne (by simp)

theorem NextAddress_cycle_witness :
    (∀ k, 1 ≤ k → k ≤ samplePeer.Addresses.length →
      nextAddressCalls sampleResolve k samplePeer
        = .ok ({ samplePeer with
                  AddrIndex := (k : Int),
                  ActiveAddr := sampleResolve (samplePeer.Addresses.getD (k - 1) []) },
               (samplePeer.Addresses.take k).map fun s => (sampleResolve s, true))) ∧
    ∀ pn rs, nextAddressCalls sampleResolve samplePeer.Addresses.length samplePeer
        = .ok (pn, rs) →
      pn.NextAddress sampleResolve = .ok ({ pn with AddrIndex := 0 }, none, false) :=
  NextAddress_cycle sampleResolve samplePeer (by decide) (by decide) rfl

/-! ## Transactions: the bounds of outstanding transactions -/

theorem scanTransaction_bounds (now : Int) (tx tx1 : Transaction) (H H1 : List Peer)
    (hb : TxBounds tx) (h : scanTransaction now tx H = .ok (some tx1, H1)) :
    TxBounds tx1 := by
  obtain ⟨h0, h1, h2⟩ := hb
  have hw : wrapInt (tx.Timeout * 2) = tx.Timeout * 2 := by
    unfold wrapInt; unfold Second at h1; omega
  unfold scanTransaction at h
  simp only [hw] at h
  repeat (any_goals (split at h))
  all_goals (try (simp only [Except.ok.injEq, Prod.mk.injEq, Option.some.injEq, reduceCtorEq,
    false_and, and_false] at h))
  all_goals (try (obtain ⟨rfl, _⟩ := h))
  all_goals (try exact ⟨h0, h1, h2⟩)
  rename_i c3 c4
  simp only [TxBounds]
  unfold Second at *
  omega

theorem cleanupScan_bounds (now : Int) :
    ∀ (T T1 : TxTable) (H H1 : List Peer), (∀ e ∈ T, TxBounds e.2) →
      cleanupScan now T H = .ok (T1, H1) → ∀ e ∈ T1, TxBounds e.2 := by
  intro T
  induction T with
  | nil =>
    intro T1 H H1 _ h e he
    simp only [cleanupScan] at h
    cases h
    cases he
  | cons a rest ih =>
    intro T1 H H1 hb h e he
    obtain ⟨id, tx⟩ := a
    simp only [cleanupScan] at h
    split at h
    · cases h
    · rename_i kept H2 hscan
      split at h
      · cases h
      · rename_i rest1 H3 hrest
        have hrest1 := ih rest1 H2 H3 (fun e he => hb e (List.mem_cons_of_mem _ he)) hrest
        split at h
        · cases h; exact hrest1 e he
        · rename_i tx1
          cases h
          rcases List.mem_cons.mp he with rfl | he
          · exact scanTransaction_bounds now tx tx1 H H2 (hb _ (List.mem_cons_self _ _)) hscan
          · exact hrest1 e he

theorem TableStep_bounds (T T1 : TxTable) (hstep : TableStep T T1)
    (hb : ∀ e ∈ T, TxBounds e.2) : ∀ e ∈ T1, TxBounds e.2 := by
  cases hstep with
  | create now id p addr msgType msg retries dh hr =>
    intro e he
    simp only [addTransaction, txSet, txDelete, CreateTransaction] at he
    rcases List.mem_cons.mp he with rfl | he
    · simp only [TxBounds, Second]
      omega
    · exact hb e (List.mem_filter.mp he).1
  | scan now H H1 =>
    rename_i hscan
    exact cleanupScan_bounds now T T1 H H1 hb hscan
  | dispatch =>
    intro e he
    simp only [cleanupStates, List.mem_map] at he
    obtain ⟨a, ha, rfl⟩ := he
    have := hb a ha
    split <;> exact this
  | resolve id =>
    intro e he
    unfold resolveTransaction at he
    split at he
    · simp only [List.mem_map] at he
      obtain ⟨a, ha, rfl⟩ := he
      have := hb a ha
      split
      · exact this
      · exact this
    · exact hb e he

/-- Claim C17: in every table of transactions reached from the empty table by
creations with a timeout of 1 s and a retry count that is not negative,
by scans of `CleanupTransactions` at any clock values, by the writes of its
second loop and by `resolveTransaction`, every transaction still in the table
has `Timeout ≤ 64 s` and `Retries ≥ 0`. -/
theorem Transactions_bounds (T : TxTable)
    (h : Relation.ReflTransGen TableStep [] T) :
    ∀ e ∈ T, e.2.Timeout ≤ 64 * Second ∧ 0 ≤ e.2.Retries := by
  have hall : ∀ e ∈ T, TxBounds e.2 := by
    induction h with
    | refl => intro e he; cases he
    | tail _ hstep ih => exact TableStep_bounds _ _ hstep ih
  intro e he
  exact ⟨(hall e he).2.1, (hall e he).2.2⟩

theorem Transactions_bounds_witness :
    Relation.ReflTransGen TableStep [] sampleTable ∧
      ∀ e ∈ sampleTable, e.2.Timeout ≤ 64 * Second ∧ 0 ≤ e.2.Retries :=
  have hreach : Relation.ReflTransGen TableStep [] sampleTable :=
    Relation.ReflTransGen.tail
      (Relation.ReflTransGen.tail Relation.ReflTransGen.refl
        (TableStep.create 0 7 none none RootRequest [] 4 none [] (by decide)))
      (TableStep.scan (2 * Second) [] [] _ _ (by rfl))
  ⟨hreach, Transactions_bounds sampleTable hreach⟩

/-! ## Transactions: the periods a transaction waits through -/

theorem scanTransaction_resend (late : Int) (tx : Transaction) (H : List Peer)
    (hs : tx.State ≠ .TxDone) (hlate : 0 < late) (h0 : 0 < tx.Timeout)
    (h1 : 2 * tx.Timeout ≤ 64 * Second) (hr : 0 < tx.Retries) :
    scanTransaction (tx.SentAt + tx.Timeout + late) tx H
      = .ok (some { tx with Timeout := 2 * tx.Timeout, SentAt := tx.SentAt + tx.Timeout + late,
                            Retries := tx.Retries - 1, State := .TxResend }, H) := by
  have hw : wrapInt (tx.Timeout * 2) = 2 * tx.Timeout := by
    unfold wrapInt; unfold Second at h1; omega
  have ht : ¬ timeSub (tx.SentAt + tx.Timeout + late) tx.SentAt ≤ tx.Timeout := by
    unfold timeSub; unfold Second at h1; omega
  unfold scanTransaction
  rw [if_neg hs, if_neg ht, if_neg (by omega)]
  simp only [hw]
  rw [if_neg (by omega)]

theorem scanTransaction_capped (late : Int) (tx : Transaction) (H : List Peer)
    (hs : tx.State ≠ .TxDone) (hlate : 0 < late) (h0 : 0 < tx.Timeout)
    (h1 : tx.Timeout ≤ 64 * Second) (h2 : ¬ 2 * tx.Timeout ≤ 64 * Second)
    (hr : 0 < tx.Retries) :
    scanTransaction (tx.SentAt + tx.Timeout + late) tx H = .ok (none, H) := by
  have hw : wrapInt (tx.Timeout * 2) = 2 * tx.Timeout := by
    unfold wrapInt; unfold Second at h1; omega
  have ht : ¬ timeSub (tx.SentAt + tx.Timeout + late) tx.SentAt ≤ tx.Timeout := by
    unfold timeSub; unfold Second at h1; omega
  unfold scanTransaction
  rw [if_neg hs, if_neg ht, if_neg (by omega)]
  simp only [hw]
  rw [if_pos (by omega)]

theorem scanTransaction_exhausted (now : Int) (tx tx1 : Transaction) (H H1 : List Peer)
    (hr : tx.Retries ≤ 0) (hs : tx.State ≠ .TxResend)
    (h : scanTransaction now tx H = .ok (some tx1, H1)) : tx1.State ≠ .TxResend := by
  unfold scanTransaction at h
  simp only [] at h
  repeat (any_goals (split at h))
  all_goals (try (simp only [Except.ok.injEq, Prod.mk.injEq, Option.some.injEq, reduceCtorEq,
    false_and, and_false] at h))
  all_goals (try (obtain ⟨rfl, _⟩ := h))
  all_goals (try exact hs)
  all_goals (simp only []; decide)

theorem waitPeriods_eq (lates : List Int) :
    ∀ (tx : Transaction) (H : List Peer), (∀ l ∈ lates, 0 < l) →
      tx.State = .TxPending → 0 < tx.Timeout → tx.Timeout ≤ 64 * Second →
      waitPeriods lates tx H = doublingPeriods lates.length tx.Timeout tx.Retries := by
  induction lates with
  | nil => intro tx H _ _ _ _; rfl
  | cons late rest ih =>
    intro tx H hl hs h0 h1
    have hlate : 0 < late := hl late (List.mem_cons_self _ _)
    have hsd : tx.State ≠ .TxDone := by rw [hs]; decide
    simp only [waitPeriods, doublingPeriods, List.length_cons]
    congr 1
    by_cases hr : 0 < tx.Retries
    · by_cases hc : 2 * tx.Timeout ≤ 64 * Second
      · rw [scanTransaction_resend late tx H hsd hlate h0 hc hr, if_pos ⟨hr, hc⟩]
        simp only [if_true]
        rw [ih _ H (fun l h => hl l (List.mem_cons_of_mem _ h)) rfl
          (by simp only []; omega) (by simp only []; omega)]
      · rw [scanTransaction_capped late tx H hsd hlate h0 h1 hc hr, if_neg (fun h => hc h.2)]
    · rw [if_neg (fun h => hr h.1)]
      have hne : tx.State ≠ .TxResend := by rw [hs]; decide
      split
      · rename_i tx1 H1 hscan
        rw [if_neg (scanTransaction_exhausted _ tx tx1 H H1 (by omega) hne hscan)]
      · rfl

theorem doublingPeriods_from_second (n : Nat) (r : Int) (hn : 7 ≤ n) :
    doublingPeriods n Second r
      = (List.range (min r.toNat 6 + 1)).map fun k => 2 ^ k * Second := by
  obtain ⟨m, rfl⟩ : ∃ m, n = m + 7 := ⟨n - 7, by omega⟩
  have hcases : r ≤ 0 ∨ r = 1 ∨ r = 2 ∨ r = 3 ∨ r = 4 ∨ r = 5 ∨ 6 ≤ r := by omega
  rcases hcases with h | rfl | rfl | rfl | rfl | rfl | h
  · have hm : min r.toNat 6 = 0 := by omega
    have h1 : ¬ 0 < r := by omega
    rw [hm]
    simp [doublingPeriods, h1, List.range_succ]
  · simp [doublingPeriods, Second, List.range_succ]
  · simp [doublingPeriods, Second, List.range_succ]
  · simp [doublingPeriods, Second, List.range_succ]
  · simp [doublingPeriods, Second, List.range_succ]
  · simp [doublingPeriods, Second, List.range_succ]
  · have hm : min r.toNat 6 = 6 := by omega
    have h1 : 0 < r := by omega
    have h2 : 0 < r - 1 := by omega
    have h3 : 0 < r - 1 - 1 := by omega
    have h4 : 0 < r - 1 - 1 - 1 := by omega
    have h5 : 0 < r - 1 - 1 - 1 - 1 := by omega
    have h6 : 0 < r - 1 - 1 - 1 - 1 - 1 := by omega
    rw [hm]
    simp [doublingPeriods, Second, List.range_succ, h1, h2, h3, h4, h5, h6]

/-- Claim C18: a transaction created with a timeout of 1 s and any retry count
`r`, to which no reply arrives, waits through the periods 1 s, 2 s, 4 s, ...,
doubling at each resend, `min(max(r, 0), 6) + 1` of them, whatever the delay
of the scans that find it expired; their sum is at most 127 s, and it is
exactly 127 s for the `Retries + 2 = 6` retries that the fetch scheduler
gives a DatumRequest. -/
theorem waitPeriods_doubling (lates : List Int) (H : List Peer) (T : TxTable) (now : Int)
    (id : Nat) (p : Option Nat) (addr : Option UDPAddr) (msgType : Nat) (msg : Bytes)
    (r : Int) (hl : ∀ l ∈ lates, 0 < l) (hn : 7 ≤ lates.length) :
    waitPeriods lates (CreateTransaction now id p addr msgType msg r T).1 H
        = (List.range (min r.toNat 6 + 1)).map (fun k => 2 ^ k * Second) ∧
      (waitPeriods lates (CreateTransaction now id p addr msgType msg r T).1 H).sum
        ≤ 127 * Second ∧
      (r = Retries + 2 →
        (waitPeriods lates (CreateTransaction now id p addr msgType msg r T).1 H).sum
          = 127 * Second) := by
  have heq : waitPeriods lates (CreateTransaction now id p addr msgType msg r T).1 H
      = (List.range (min r.toNat 6 + 1)).map (fun k => 2 ^ k * Second) := by
    rw [waitPeriods_eq lates _ H hl rfl (by simp [CreateTransaction, Second])
      (by simp [CreateTransaction, Second])]
    exact doublingPeriods_from_second _ r hn
  refine ⟨heq, ?_, ?_⟩
  · rw [heq]
    have hm : min r.toNat 6 ≤ 6 := Nat.min_le_right _ _
    generalize min r.toNat 6 = m at hm
    interval_cases m <;> simp [List.range_succ, Second]
  · intro hr
    rw [heq, hr]
    simp [Retries, List.range_succ, Second]

theorem waitPeriods_doubling_witness :
    waitPeriods [1, 1, 1, 1, 1, 1, 1]
        (CreateTransaction 0 7 none none DatumRequest [] 6 []).1 []
        = (List.range (min (6 : Int).toNat 6 + 1)).map (fun k => 2 ^ k * Second) ∧
      (waitPeriods [1, 1, 1, 1, 1, 1, 1]
        (CreateTransaction 0 7 none none DatumRequest [] 6 []).1 []).sum ≤ 127 * Second ∧
      ((6 : Int) = Retries + 2 →
        (waitPeriods [1, 1, 1, 1, 1, 1, 1]
          (CreateTransaction 0 7 none none DatumRequest [] 6 []).1 []).sum = 127 * Second) :=
  waitPeriods_doubling [1, 1, 1, 1, 1, 1, 1] [] [] 0 7 none none DatumRequest [] 6
    (by decide) (by decide)

/-! ## Datum replies -/

theorem FindPeerByAddr_valid (resolve : Bytes → Option UDPAddr) (H : List Peer)
    (P : GoMap Nat) (addr : Option UDPAddr) (p : Nat)
    (h : FindPeerByAddr resolve H P addr = some p) : ∃ peer, H.get? p = some peer := by
  unfold FindPeerByAddr at h
  cases addr with
  | none => cases h
  | some a =>
    simp only [] at h
    split at h
    · rename_i e he
      cases h
      have hp := List.find?_some he
      revert hp
      cases hg : H.get? e.2 with
      | none => intro hp; simp at hp
      | some peer => intro _; exact ⟨peer, rfl⟩
    · split at h
      · rename_i e he
        cases h
        have hp := List.find?_some he
        revert hp
        cases hg : H.get? e.2 with
        | none => intro hp; simp at hp
        | some peer => intro _; exact ⟨peer, rfl⟩
      · cases h

theorem FindPeerByAddr_addr (resolve : Bytes → Option UDPAddr) (H : List Peer)
    (P : GoMap Nat) (addr : Option UDPAddr) (p : Nat)
    (h : FindPeerByAddr resolve H P addr = some p) : ∃ a, addr = some a := by
  cases addr with
  | none => simp [FindPeerByAddr] at h
  | some a => exact ⟨a, rfl⟩

theorem txGet_map_done (id : Nat) (T : TxTable) (tx : Transaction)
    (h : txGet T id = some tx) :
    txGet (T.map fun e => if e.1 == id then (e.1, { e.2 with State := .TxDone }) else e) id
      = some { tx with State := .TxDone } := by
  induction T with
  | nil => simp [txGet] at h
  | cons a rest ih =>
    unfold txGet at h ih ⊢
    simp only [List.map_cons, List.find?_cons] at h ⊢
    by_cases ha : (a.1 == id) = true
    · simp only [ha, if_true] at h ⊢
      cases h
      rfl
    · have hf : (a.1 == id) = false := by simpa using ha
      simp only [hf] at h ⊢
      simp only [Bool.false_eq_true, if_false, hf]
      exact ih h

theorem resolveTransaction_found (id : Nat) (T : TxTable) (tx : Transaction)
    (h : txGet T id = some tx) :
    (resolveTransaction id T).1 = some { tx with State := .TxDone } ∧
      txGet (resolveTransaction id T).2 id = some { tx with State := .TxDone } := by
  unfold resolveTransaction
  rw [h]
  exact ⟨rfl, txGet_map_done id T tx h⟩

/-- The result of `HandleDatum` on a reply that matches a DatumRequest
transaction and whose body, decrypted when the peer has a shared key, fails
the integrity check: the transaction is resolved, the window of the peer found
by the address is credited, nothing else changes. -/
theorem HandleDatum_failed (Sha : Bytes → Bytes) (resolve : Bytes → Option UDPAddr)
    (decryptAESGCM : Bytes → Bytes → Option Bytes) (id : Nat) (addr : Option UDPAddr)
    (body : Bytes) (st : ClientState) (tx : Transaction)
    (htx : txGet st.Transactions id = some tx) (htype : tx.MsgType = DatumRequest)
    (hbad : ∀ p peer data, FindPeerByAddr resolve st.PeerHeap st.Peers addr = some p →
      st.PeerHeap.get? p = some peer →
      (peer.SharedKey = none ∧ data = body ∨
        ∃ key, peer.SharedKey = some key ∧ decryptAESGCM key body = some data) →
      VerifyDataIntegrity Sha data (slice (getBody tx.Msg).1 0 (getBody tx.Msg).2.1) = false) :
    HandleDatum Sha resolve decryptAESGCM id addr body st
      = .ok { st with
          Transactions := (resolveTransaction id st.Transactions).2,
          PeerHeap :=
            match FindPeerByAddr resolve st.PeerHeap st.Peers addr with
            | none => st.PeerHeap
            | some p =>
              match st.PeerHeap.get? p with
              | none => st.PeerHeap
              | some peer => st.PeerHeap.set p { peer with Window := peer.Window.OnSuccess } } := by
  have hres : resolveTransaction id st.Transactions
      = (some { tx with State := .TxDone }, (resolveTransaction id st.Transactions).2) := by
    unfold resolveTransaction; rw [htx]
  unfold HandleDatum
  rw [hres]
  simp only [htype, ne_eq, not_true_eq_false, if_false]
  cases hf : FindPeerByAddr resolve st.PeerHeap st.Peers addr with
  | none => simp only []
  | some p =>
    obtain ⟨peer, hpeer⟩ := FindPeerByAddr_valid resolve _ _ _ _ hf
    obtain ⟨a, rfl⟩ := FindPeerByAddr_addr resolve _ _ _ _ hf
    simp only [hpeer]
    cases hk : peer.SharedKey with
    | none =>
      simp only []
      have hv := hbad p peer body hf hpeer (Or.inl ⟨hk, rfl⟩)
      by_cases hok : (getBody tx.Msg).2.2 = true
      · simp only [hok, Bool.not_true, Bool.false_eq_true, if_false, hv]
      · simp only [hok, Bool.not_false, if_true]
    | some key =>
      simp only []
      by_cases hlen : body.length < HashSize
      · simp only [hlen, if_true]
      · simp only [hlen, if_false]
        cases hd : decryptAESGCM key body with
        | none => simp only []
        | some data =>
          simp only []
          have hv := hbad p peer data hf hpeer (Or.inr ⟨key, hk, hd⟩)
          by_cases hok : (getBody tx.Msg).2.2 = true
          · simp only [hok, Bool.not_true, Bool.false_eq_true, if_false, hv]
          · simp only [hok, Bool.not_false, if_true]

/-- The sample Datum fails the integrity check against the hash requested by
transaction 5, and `HandleDatum` all the same applies `OnSuccess` to the window
of the peer: its size goes from 32 to 33 and the number in flight from 1 to
0. -/
theorem HandleDatum_credits_counterexample :
    VerifyDataIntegrity sampleSha sampleBadDatum (List.replicate 32 0) = false ∧
    (HandleDatum sampleSha sampleResolve sampleDecrypt 5 (some sampleAddr) sampleBadDatum
        sampleDatumState).map (fun st => st.PeerHeap.map fun p => p.Window)
      = .ok [{ Size := 33, Min := 1, Max := 10000, InFlight := 0 }] := by
  constructor
  · decide
  · set_option maxRecDepth 10000 in rfl

/-- Claim C15 fails in the code.  The claim is that the window of a peer is
credited only by a Datum that passes the integrity check.  `HandleDatum` calls
`OnSuccess` as soon as it has found the transaction and the peer, before it
decrypts and verifies the body: when a Datum matches a DatumRequest transaction
and comes from the address of a known peer, and its body, decrypted when the
peer has a shared key, fails the integrity check against the requested hash,
the handler returns and `OnSuccess` has been applied once to the window of the
peer all the same, nothing else of the peer being changed. -/
theorem HandleDatum_credits_window (Sha : Bytes → Bytes) (resolve : Bytes → Option UDPAddr)
    (decryptAESGCM : Bytes → Bytes → Option Bytes) (id : Nat) (addr : Option UDPAddr)
    (body : Bytes) (st : ClientState) (tx : Transaction) (p : Nat) (peer : Peer)
    (htx : txGet st.Transactions id = some tx) (htype : tx.MsgType = DatumRequest)
    (hfind : FindPeerByAddr resolve st.PeerHeap st.Peers addr = some p)
    (hpeer : st.PeerHeap.get? p = some peer)
    (hbad : ∀ data, (peer.SharedKey = none ∧ data = body ∨
        ∃ key, peer.SharedKey = some key ∧ decryptAESGCM key body = some data) →
      VerifyDataIntegrity Sha data (slice (getBody tx.Msg).1 0 (getBody tx.Msg).2.1) = false) :
    ∃ st1, HandleDatum Sha resolve decryptAESGCM id addr body st = .ok st1 ∧
      st1.PeerHeap.get? p = some { peer with Window := peer.Window.OnSuccess } := by
  have h := HandleDatum_failed Sha resolve decryptAESGCM id addr body st tx htx htype
    (by
      intro p1 peer1 data hf1 hp1 hc
      rw [hfind] at hf1
      cases hf1
      rw [hpeer] at hp1
      cases hp1
      exact hbad data hc)
  refine ⟨_, h, ?_⟩
  simp only [hfind, hpeer]
  have hlt : p < st.PeerHeap.length := by
    rcases Nat.lt_or_ge p st.PeerHeap.length with hl | hl
    · exact hl
    · rw [List.get?_eq_none.mpr hl] at hpeer; cases hpeer
  rw [List.get?_eq_getElem?, List.getElem?_set_self hlt]

theorem HandleDatum_credits_window_witness :
    ∃ st1, HandleDatum sampleSha sampleResolve sampleDecrypt 5 (some sampleAddr)
        sampleBadDatum sampleDatumState = .ok st1 ∧
      st1.PeerHeap.get? 0 = some
        { Name := [112], Addresses := [[10, 0, 0, 1, 80], [10, 0, 0, 2, 81]], AddrIndex := 0,
          ActiveAddr := some sampleAddr, PublicKey := none, LastSeen := 0, Root := none,
          Listroots := [], SharedKey := none,
          Window := { Size := 33, Min := 1, Max := 10000, InFlight := 0 },
          MerkleDownloadStart := 0, MerkleDone := false, RootChanged := false,
          State := .PeerAssociated } :=
  HandleDatum_credits_window sampleSha sampleResolve sampleDecrypt 5 (some sampleAddr)
    sampleBadDatum sampleDatumState _ 0 _ rfl rfl (by decide) rfl
    (by
      intro data hc
      rcases hc with ⟨_, rfl⟩ | ⟨key, hk, _⟩
      · decide
      · cases hk)

/-- Claim C16: when `HandleDatum` processes a Datum that matches a DatumRequest
transaction and whose body, decrypted when the peer found by the address has a
shared key, does not hash to the requested hash, the handler returns, the
Merkle store and the refcount map are unchanged, no job is added to the fetch
queue, and the transaction is in state Done. -/
theorem HandleDatum_integrity_failure (Sha : Bytes → Bytes)
    (resolve : Bytes → Option UDPAddr) (decryptAESGCM : Bytes → Bytes → Option Bytes)
    (id : Nat) (addr : Option UDPAddr) (body : Bytes) (st : ClientState) (tx : Transaction)
    (htx : txGet st.Transactions id = some tx) (htype : tx.MsgType = DatumRequest)
    (hbad : ∀ p peer data, FindPeerByAddr resolve st.PeerHeap st.Peers addr = some p →
      st.PeerHeap.get? p = some peer →
      (peer.SharedKey = none ∧ data = body ∨
        ∃ key, peer.SharedKey = some key ∧ decryptAESGCM key body = some data) →
      VerifyDataIntegrity Sha data (slice (getBody tx.Msg).1 0 (getBody tx.Msg).2.1) = false) :
    ∃ st1, HandleDatum Sha resolve decryptAESGCM id addr body st = .ok st1 ∧
      st1.Store.MerkleMap = st.Store.MerkleMap ∧ st1.Store.CountMap = st.Store.CountMap ∧
      st1.DatumQueue = st.DatumQueue ∧
      txGet st1.Transactions id = some { tx with State := .TxDone } :=
  ⟨_, HandleDatum_failed Sha resolve decryptAESGCM id addr body st tx htx htype hbad,
    rfl, rfl, rfl, (resolveTransaction_found id st.Transactions tx htx).2⟩

theorem HandleDatum_integrity_failure_witness :
    ∃ st1, HandleDatum sampleSha sampleResolve sampleDecrypt 5 (some sampleAddr)
        sampleBadDatum sampleDatumState = .ok st1 ∧
      st1.Store.MerkleMap = sampleDatumState.Store.MerkleMap ∧
      st1.Store.CountMap = sampleDatumState.Store.CountMap ∧
      st1.DatumQueue = sampleDatumState.DatumQueue ∧
      txGet st1.Transactions 5 = some
        { Id := 5, Peer := some 0, Addr := some sampleAddr, MsgType := DatumRequest,
          SentAt := 0, Retries := 6, Timeout := Second,
          Msg := [0, 0, 0, 5, 3, 0, 32] ++ List.replicate 32 0,
          State := .TxDone, DhPriv := none } :=
  HandleDatum_integrity_failure sampleSha sampleResolve sampleDecrypt 5 (some sampleAddr)
    sampleBadDatum sampleDatumState _ rfl rfl
    (by
      intro p peer data hf hp hc
      have h0 : FindPeerByAddr sampleResolve sampleDatumState.PeerHeap sampleDatumState.Peers
          (some sampleAddr) = some 0 := by decide
      rw [h0] at hf
      cases hf
      cases hp
      rcases hc with ⟨_, rfl⟩ | ⟨key, hk, _⟩
      · decide
      · cases hk)

/-! ## Merkle builder: the stride loops -/

theorem strideLoop_flatten {α : Type} (xs : List α) (n : Nat) (hn : 0 < n) :
    ∀ fuel i, xs.length - i ≤ fuel → (strideLoop xs n fuel i).flatten = xs.drop i := by
  intro fuel
  induction fuel with
  | zero =>
    intro i hi
    have : xs.length ≤ i := by omega
    simp [strideLoop, List.drop_eq_nil_of_le this]
  | succ fuel ih =>
    intro i hi
    unfold strideLoop
    split
    · rename_i hlt
      simp only [List.flatten_cons]
      rw [ih (i + n) (by omega)]
      have hd : xs.drop (i + n) = (xs.drop i).drop n := by rw [List.drop_drop]
      rw [hd]
      split
      · rename_i hgt
        have h1 : (xs.drop i).drop n = [] :=
          List.drop_eq_nil_of_le (by rw [List.length_drop]; omega)
        have h2 : (xs.drop i).take (xs.length - i) = xs.drop i :=
          List.take_of_length_le (by rw [List.length_drop])
        rw [h1, h2, List.append_nil]
      · have e : i + n - i = n := by omega
        rw [e, List.take_append_drop]
    · rename_i hge
      rw [List.drop_eq_nil_of_le (Nat.le_of_not_lt hge)]
      rfl

theorem strides_flatten {α : Type} (xs : List α) (n : Nat) (hn : 0 < n) :
    (strides xs n).flatten = xs := by
  have := strideLoop_flatten xs n hn xs.length 0 (by omega)
  simpa [strides] using this

theorem strideLoop_group {α : Type} (xs : List α) (n : Nat) (hn : 0 < n) :
    ∀ fuel i g, g ∈ strideLoop xs n fuel i → g ≠ [] ∧ g.length ≤ n := by
  intro fuel
  induction fuel with
  | zero => intro i g hg; simp [strideLoop] at hg
  | succ fuel ih =>
    intro i g hg
    unfold strideLoop at hg
    split at hg
    · rename_i hlt
      simp only [List.mem_cons] at hg
      rcases hg with hg | hg
      · subst hg
        constructor
        · intro h
          have hl := congrArg List.length h
          simp only [List.length_take, List.length_drop, List.length_nil] at hl
          split at hl <;> omega
        · simp only [List.length_take, List.length_drop]
          split <;> omega
      · exact ih _ g hg
    · cases hg

theorem strides_group {α : Type} (xs : List α) (n : Nat) (hn : 0 < n) (g : List α)
    (hg : g ∈ strides xs n) : g ≠ [] ∧ g.length ≤ n :=
  strideLoop_group xs n hn _ _ g hg

theorem strideLoop_map {α β : Type} (f : α → β) (xs : List α) (n : Nat) :
    ∀ fuel i, strideLoop (xs.map f) n fuel i = (strideLoop xs n fuel i).map (List.map f) := by
  intro fuel
  induction fuel with
  | zero => intro i; rfl
  | succ fuel ih =>
    intro i
    unfold strideLoop
    simp only [List.length_map]
    split
    · simp only [List.map_cons, ih, List.map_take, List.map_drop]
    · rfl

theorem strides_map {α β : Type} (f : α → β) (xs : List α) (n : Nat) :
    strides (xs.map f) n = (strides xs n).map (List.map f) := by
  unfold strides
  rw [List.length_map]
  exact strideLoop_map f xs n _ _

theorem strideLoop_length_le {α : Type} (xs : List α) (n : Nat) (hn : 0 < n) :
    ∀ fuel i, (strideLoop xs n fuel i).length ≤ xs.length - i := by
  intro fuel
  induction fuel with
  | zero => intro i; simp [strideLoop]
  | succ fuel ih =>
    intro i
    unfold strideLoop
    split
    · have := ih (i + n)
      simp only [List.length_cons]
      omega
    · simp

theorem strides_length_lt {α : Type} (xs : List α) (n : Nat) (hn : 2 ≤ n)
    (hx : 1 < xs.length) : (strides xs n).length < xs.length := by
  obtain ⟨m, hm⟩ : ∃ m, xs.length = m + 1 := ⟨xs.length - 1, by omega⟩
  have h : strides xs n = strideLoop xs n (m + 1) 0 := by unfold strides; rw [hm]
  rw [h]
  unfold strideLoop
  rw [if_pos (show 0 < xs.length by omega)]
  have := strideLoop_length_le xs n (by omega) m (0 + n)
  simp only [List.length_cons]
  omega

theorem strides_ne_nil {α : Type} (xs : List α) (n : Nat) (hx : xs ≠ []) :
    strides xs n ≠ [] := by
  have hpos := List.length_pos.mpr hx
  obtain ⟨m, hm⟩ : ∃ m, xs.length = m + 1 := ⟨xs.length - 1, by omega⟩
  have h : strides xs n = strideLoop xs n (m + 1) 0 := by unfold strides; rw [hm]
  rw [h]
  unfold strideLoop
  rw [if_pos (show 0 < xs.length by omega)]
  simp

theorem strides_nil {α : Type} (n : Nat) : strides ([] : List α) n = [] := rfl

theorem strides_length_two {α : Type} (xs : List α) (n : Nat) (hn : 0 < n)
    (hx : n < xs.length) : 2 ≤ (strides xs n).length := by
  obtain ⟨m, hm⟩ : ∃ m, xs.length = m + 2 := ⟨xs.length - 2, by omega⟩
  have h : strides xs n = strideLoop xs n (m + 2) 0 := by unfold strides; rw [hm]
  rw [h]
  unfold strideLoop
  rw [if_pos (show 0 < xs.length by omega)]
  unfold strideLoop
  rw [if_pos (show 0 + n < xs.length by omega)]
  simp

theorem strides_short {α : Type} (xs : List α) (n : Nat) (hx : xs ≠ [])
    (hn : xs.length ≤ n) : strides xs n = [xs] := by
  have hpos := List.length_pos.mpr hx
  obtain ⟨m, hm⟩ : ∃ m, xs.length = m + 1 := ⟨xs.length - 1, by omega⟩
  have h : strides xs n = strideLoop xs n (m + 1) 0 := by unfold strides; rw [hm]
  rw [h]
  unfold strideLoop
  rw [if_pos (show 0 < xs.length by omega)]
  have hrest : strideLoop xs n m (0 + n) = [] := by
    cases m with
    | zero => rfl
    | succ k => unfold strideLoop; rw [if_neg (show ¬ 0 + n < xs.length by omega)]
  rw [hrest]
  simp only [Nat.zero_add, List.drop_zero]
  congr 1
  split
  · simp
  · exact List.take_of_length_le (by omega)

/-! ## Merkle builder: the grouping loop -/

theorem mergeNodesTrace_length_lt (Sha : Bytes → Bytes) (children : List Bytes)
    (nodeType : Nat) (h : 1 < children.length) :
    (mergeNodesTrace Sha children nodeType).length < children.length := by
  unfold mergeNodesTrace
  rw [List.length_map]
  exact strides_length_lt children MaxBigEntries (by decide) h

theorem mergeNodesTrace_ne_nil (Sha : Bytes → Bytes) (children : List Bytes)
    (nodeType : Nat) (h : children ≠ []) :
    mergeNodesTrace Sha children nodeType ≠ [] := by
  unfold mergeNodesTrace
  intro hnil
  exact strides_ne_nil children MaxBigEntries h (List.map_eq_nil_iff.mp hnil)

/-- Each round of `mergeNodes` on more than one node returns strictly fewer
nodes, and at least one. -/
theorem mergeNodes_length_lt (Sha : Bytes → Bytes) (children : List Bytes) (nodeType : Nat)
    (s : MerkleState) (h : 1 < children.length) :
    (mergeNodes Sha children nodeType s).1.length < children.length ∧
      (mergeNodes Sha children nodeType s).1 ≠ [] := by
  rw [mergeNodes_eq_trace]
  exact ⟨mergeNodesTrace_length_lt Sha children nodeType h,
    mergeNodesTrace_ne_nil Sha children nodeType (by intro h0; rw [h0] at h; simp at h)⟩

/-- The grouping loop on a non-empty list ends with a single node when its
bound is at least the length of the list. -/
theorem mergeUntilOneTrace_total (Sha : Bytes → Bytes) (nodeType : Nat) :
    ∀ (fuel : Nat) (children : List Bytes), children ≠ [] → children.length ≤ fuel →
      ∃ root installed,
        mergeUntilOneTrace Sha nodeType fuel children = .ok ([root], installed) := by
  intro fuel
  induction fuel with
  | zero =>
    intro children hne hlen
    have := List.length_pos.mpr hne
    omega
  | succ fuel ih =>
    intro children hne hlen
    unfold mergeUntilOneTrace
    by_cases h1 : children.length > 1
    · rw [if_pos h1]
      obtain ⟨root, installed, hr⟩ := ih (mergeNodesTrace Sha children nodeType)
        (mergeNodesTrace_ne_nil Sha children nodeType hne)
        (by have := mergeNodesTrace_length_lt Sha children nodeType h1; omega)
      rw [hr]
      exact ⟨root, _, rfl⟩
    · rw [if_neg h1]
      have hpos := List.length_pos.mpr hne
      match children, hpos, h1 with
      | [c], _, _ => exact ⟨c, [], rfl⟩
      | _ :: _ :: _, _, h1 => simp at h1

theorem mergeUntilOneTrace_short (Sha : Bytes → Bytes) (nodeType : Nat) (fuel : Nat)
    (children : List Bytes) (h : ¬ children.length > 1) :
    mergeUntilOneTrace Sha nodeType fuel children = .ok (children, []) := by
  cases fuel with
  | zero => unfold mergeUntilOneTrace; rw [if_neg h]
  | succ fuel => unfold mergeUntilOneTrace; rw [if_neg h]

/-- After at least one round every node of the final list was built by the
loop. -/
theorem mergeUntilOneTrace_final (Sha : Bytes → Bytes) (nodeType : Nat) :
    ∀ (fuel : Nat) (children final installed : List Bytes), children.length > 1 →
      mergeUntilOneTrace Sha nodeType fuel children = .ok (final, installed) →
      ∀ n ∈ final, n ∈ installed := by
  intro fuel
  induction fuel with
  | zero =>
    intro children final installed h1 h
    unfold mergeUntilOneTrace at h
    rw [if_pos h1] at h
    cases h
  | succ fuel ih =>
    intro children final installed h1 h n hn
    unfold mergeUntilOneTrace at h
    rw [if_pos h1] at h
    split at h
    · cases h
    · rename_i final1 installed1 hrec
      simp only [Except.ok.injEq, Prod.mk.injEq] at h
      obtain ⟨hf, hi⟩ := h
      subst hf; subst hi
      by_cases h2 : (mergeNodesTrace Sha children nodeType).length > 1
      · exact List.mem_append_right _ (ih _ _ _ h2 hrec n hn)
      · rw [mergeUntilOneTrace_short Sha nodeType fuel _ h2] at hrec
        simp only [Except.ok.injEq, Prod.mk.injEq] at hrec
        obtain ⟨hf, hi⟩ := hrec
        subst hf
        exact List.mem_append_left _ hn

/-- Every node built by the grouping loop is the tag followed by the hashes of
a group of at least one and at most 32 nodes. -/
theorem mergeUntilOneTrace_groups (Sha : Bytes → Bytes) (nodeType : Nat) :
    ∀ (fuel : Nat) (children final installed : List Bytes),
      mergeUntilOneTrace Sha nodeType fuel children = .ok (final, installed) →
      ∀ n ∈ installed, ∃ g : List Bytes, g ≠ [] ∧ g.length ≤ MaxBigEntries ∧
        n = hashChildren Sha nodeType g := by
  intro fuel
  induction fuel with
  | zero =>
    intro children final installed h n hn
    unfold mergeUntilOneTrace at h
    split at h
    · cases h
    · simp only [Except.ok.injEq, Prod.mk.injEq] at h
      obtain ⟨-, hi⟩ := h
      subst hi
      cases hn
  | succ fuel ih =>
    intro children final installed h n hn
    unfold mergeUntilOneTrace at h
    split at h
    · split at h
      · cases h
      · rename_i final1 installed1 hrec
        simp only [Except.ok.injEq, Prod.mk.injEq] at h
        obtain ⟨-, hi⟩ := h
        subst hi
        rcases List.mem_append.mp hn with hn | hn
        · unfold mergeNodesTrace at hn
          obtain ⟨g, hg, rfl⟩ := List.mem_map.mp hn
          obtain ⟨hg1, hg2⟩ := strides_group children MaxBigEntries (by decide) g hg
          exact ⟨g, hg1, hg2, rfl⟩
        · exact ih _ _ _ hrec n hn
    · simp only [Except.ok.injEq, Prod.mk.injEq] at h
      obtain ⟨-, hi⟩ := h
      subst hi
      cases hn

/-! ## Merkle builder: an empty regular file -/

/-- Claim C12 fails in the code: for the empty byte sequence, in every store
and for every hash function, the regular-file branch of `BuildMerkleNode`
panics on `children[0]`, because `SplitIntoChunks` returns no chunk. -/
theorem BuildMerkleNode_empty_file (Sha : Bytes → Bytes) (s : MerkleState) :
    BuildMerkleNode Sha (.file []) s = .error .indexOutOfRange := by
  simp [BuildMerkleNode, buildFileNode, SplitIntoChunks, strides, strideLoop, mergeUntilOne,
    firstNode]

/-- On a byte sequence that is not empty the regular-file branch of
`BuildMerkleNode` returns a root node: the grouping loop ends within its bound
with a single node. -/
theorem fileTrace_total (Sha : Bytes → Bytes) (data : Bytes) (h : data ≠ []) :
    ∃ root L, fileTrace Sha data = .ok (root, L) := by
  unfold fileTrace
  have hne : (SplitIntoChunks data).map HashChunk ≠ [] := by
    intro h0
    exact strides_ne_nil data ChunkSize h (List.map_eq_nil_iff.mp h0)
  obtain ⟨root, installed, hr⟩ := mergeUntilOneTrace_total Sha Big _ _ hne (Nat.le_refl _)
  simp only [hr, firstNode]
  exact ⟨_, _, rfl⟩

/-! ## Merkle builder: the layout limits -/

theorem LayoutOK_HashChunk (Sha : Bytes → Bytes) (c : Bytes) (h : c.length ≤ ChunkSize) :
    LayoutOK Sha (HashChunk c) :=
  Or.inl ⟨c, rfl, h⟩

theorem LayoutOK_HashDirectory (Sha : Bytes → Bytes) (hsha : ∀ b, (Sha b).length = 32)
    (es : List DirectoryEntry) (h : es.length ≤ MaxDirEntries) :
    LayoutOK Sha (HashDirectory Sha es) := by
  refine Or.inr (Or.inl ⟨es, h, HashDirectory_eq Sha es, ?_⟩)
  rw [HashDirectory_eq, List.length_cons,
    join_length_const 64 _ (by
      intro blk hblk
      obtain ⟨x, -, rfl⟩ := List.mem_map.mp hblk
      rw [List.length_append, padTo32_length, hsha]),
    List.length_map]
  omega

theorem LayoutOK_hashChildren (Sha : Bytes → Bytes) (hsha : ∀ b, (Sha b).length = 32)
    (nodeType : Nat) (hnt : nodeType = Big ∨ nodeType = BigDirectory) (g : List Bytes)
    (h : g.length ≤ MaxBigEntries) : LayoutOK Sha (hashChildren Sha nodeType g) := by
  refine Or.inr (Or.inr ⟨g, h, ?_, ?_⟩)
  · rw [hashChildren_eq]
    rcases hnt with rfl | rfl
    · exact Or.inl rfl
    · exact Or.inr rfl
  · rw [hashChildren_eq, List.length_cons,
      join_length_const 32 _ (by
        intro blk hblk
        obtain ⟨x, -, rfl⟩ := List.mem_map.mp hblk
        exact hsha x),
      List.length_map]
    omega

theorem fileTrace_layout (Sha : Bytes → Bytes) (hsha : ∀ b, (Sha b).length = 32)
    (data root : Bytes) (L : List Bytes) (h : fileTrace Sha data = .ok (root, L)) :
    ∀ n ∈ L, LayoutOK Sha n := by
  unfold fileTrace at h
  simp only at h
  split at h
  · cases h
  · rename_i final installed hm
    split at h
    · cases h
    · rename_i node hf
      simp only [Except.ok.injEq, Prod.mk.injEq] at h
      obtain ⟨h1, h2⟩ := h
      subst h1; subst h2
      have hchunk : ∀ n ∈ (SplitIntoChunks data).map HashChunk, LayoutOK Sha n := by
        intro n hn
        obtain ⟨c, hc, rfl⟩ := List.mem_map.mp hn
        exact LayoutOK_HashChunk Sha c
          (strides_group data ChunkSize (by decide) c hc).2
      have hinst : ∀ n ∈ installed, LayoutOK Sha n := by
        intro n hn
        obtain ⟨g, -, hg, rfl⟩ := mergeUntilOneTrace_groups Sha Big _ _ _ _ hm n hn
        exact LayoutOK_hashChildren Sha hsha Big (Or.inl rfl) g hg
      have hfin := (mergeUntilOneTrace_ok Sha hsha Big (Or.inl rfl) _ _ _ _ hm).1
      intro n hn
      simp only [List.mem_append, List.mem_singleton] at hn
      rcases hn with (hn | hn) | hn
      · exact hchunk n hn
      · exact hinst n hn
      · subst hn
        rcases List.mem_append.mp (hfin _ (firstNode_mem _ _ hf)) with hn | hn
        · exact hchunk _ hn
        · exact hinst _ hn

theorem dirTrace_layout (Sha : Bytes → Bytes) (hsha : ∀ b, (Sha b).length = 32)
    (names children : List Bytes) (root : Bytes) (L : List Bytes)
    (h : dirTrace Sha names children = .ok (root, L)) :
    ∀ n ∈ L, LayoutOK Sha n := by
  unfold dirTrace at h
  simp only at h
  split at h
  · rename_i hle
    simp only [Except.ok.injEq, Prod.mk.injEq] at h
    obtain ⟨h1, h2⟩ := h
    subst h1; subst h2
    intro n hn
    simp only [List.mem_singleton] at hn
    subst hn
    exact LayoutOK_HashDirectory Sha hsha _ hle
  · split at h
    · cases h
    · rename_i final installed hm
      split at h
      · cases h
      · rename_i node hf
        simp only [Except.ok.injEq, Prod.mk.injEq] at h
        obtain ⟨h1, h2⟩ := h
        subst h1; subst h2
        intro n hn
        rcases List.mem_append.mp hn with hn | hn
        · obtain ⟨g, hg, rfl⟩ := List.mem_map.mp hn
          exact LayoutOK_HashDirectory Sha hsha g
            (strides_group _ MaxDirEntries (by decide) g hg).2
        · obtain ⟨g, -, hg, rfl⟩ := mergeUntilOneTrace_groups Sha BigDirectory _ _ _ _ hm n hn
          exact LayoutOK_hashChildren Sha hsha BigDirectory (Or.inr rfl) g hg

/-- The root of a directory of more than 16 entries is a BigDirectory node. -/
theorem dirTrace_big_root (Sha : Bytes → Bytes) (names children : List Bytes) (root : Bytes)
    (L : List Bytes) (h : dirTrace Sha names children = .ok (root, L))
    (hlen : MaxDirEntries < (List.zipWith (fun name child =>
      ({ Name := name, Hash := child } : DirectoryEntry)) names children).length) :
    root.getD 0 0 = BigDirectory := by
  unfold dirTrace at h
  simp only at h
  rw [if_neg (by omega)] at h
  split at h
  · cases h
  · rename_i final installed hm
    split at h
    · cases h
    · rename_i node hf
      simp only [Except.ok.injEq, Prod.mk.injEq] at h
      obtain ⟨h1, -⟩ := h
      subst h1
      have h2 : (List.map (HashDirectory Sha) (strides (List.zipWith (fun name child =>
          ({ Name := name, Hash := child } : DirectoryEntry)) names children)
          MaxDirEntries)).length > 1 := by
        rw [List.length_map]
        have := strides_length_two _ MaxDirEntries (by decide) hlen
        omega
      have hin := mergeUntilOneTrace_final Sha BigDirectory _ _ _ _ h2 hm _
        (firstNode_mem _ _ hf)
      obtain ⟨g, -, -, rfl⟩ := mergeUntilOneTrace_groups Sha BigDirectory _ _ _ _ hm _ hin
      rw [hashChildren_eq]
      rfl

theorem childTraces_length (Sha : Bytes → Bytes) :
    ∀ (entries : List (Bytes × FsNode)) (children L : List Bytes),
      childTraces Sha entries = .ok (children, L) → children.length = entries.length := by
  intro entries
  induction entries with
  | nil =>
    intro children L h
    rw [childTraces] at h
    simp only [Except.ok.injEq, Prod.mk.injEq] at h
    rw [← h.1]
    rfl
  | cons e rest ih =>
    intro children L h
    obtain ⟨name, child⟩ := e
    rw [childTraces] at h
    split at h
    · cases h
    · split at h
      · cases h
      · rename_i cs L1 hrest
        simp only [Except.ok.injEq, Prod.mk.injEq] at h
        rw [← h.1, List.length_cons, List.length_cons, ih cs L1 hrest]

mutual
theorem buildTrace_layout (Sha : Bytes → Bytes) (hsha : ∀ b, (Sha b).length = 32) :
    ∀ (t : FsNode) (root : Bytes) (L : List Bytes), buildTrace Sha t = .ok (root, L) →
      ∀ n ∈ L, LayoutOK Sha n
  | .file data, root, L, h => by
    rw [buildTrace] at h
    exact fileTrace_layout Sha hsha data root L h
  | .dir entries, root, L, h => by
    rw [buildTrace] at h
    split at h
    · cases h
    · rename_i children installed hc
      split at h
      · cases h
      · rename_i node installed1 hd
        simp only [Except.ok.injEq, Prod.mk.injEq] at h
        obtain ⟨-, h2⟩ := h
        subst h2
        intro n hn
        rcases List.mem_append.mp hn with hn | hn
        · exact childTraces_layout Sha hsha entries children installed hc n hn
        · exact dirTrace_layout Sha hsha _ children node installed1 hd n hn
theorem childTraces_layout (Sha : Bytes → Bytes) (hsha : ∀ b, (Sha b).length = 32) :
    ∀ (entries : List (Bytes × FsNode)) (children L : List Bytes),
      childTraces Sha entries = .ok (children, L) → ∀ n ∈ L, LayoutOK Sha n
  | [], children, L, h => by
    rw [childTraces] at h
    simp only [Except.ok.injEq, Prod.mk.injEq] at h
    obtain ⟨-, h2⟩ := h
    subst h2
    intro n hn
    cases hn
  | (name, child) :: rest, children, L, h => by
    rw [childTraces] at h
    split at h
    · cases h
    · rename_i childNode installed hb
      split at h
      · cases h
      · rename_i cs installed1 hrest
        simp only [Except.ok.injEq, Prod.mk.injEq] at h
        obtain ⟨-, h2⟩ := h
        subst h2
        intro n hn
        rcases List.mem_append.mp hn with hn | hn
        · exact buildTrace_layout Sha hsha child childNode installed hb n hn
        · exact childTraces_layout Sha hsha rest cs installed1 hrest n hn
end

theorem padTo32_short (name : Bytes) (h : name.length ≤ 32) :
    padTo32 name = name ++ List.replicate (32 - name.length) 0 := by
  unfold padTo32 NameSize
  rw [List.take_of_length_le h]

theorem padTo32_long (name : Bytes) (h : 32 ≤ name.length) :
    padTo32 name = name.take 32 := by
  unfold padTo32 NameSize
  have : 32 - name.length = 0 := by omega
  rw [this]
  simp

/-- Claim C13: when `BuildMerkleNode` returns, the store is the one obtained by
`FillMap` of the nodes of `installs`, in order, and each of these nodes
respects the layout limits: a Chunk is its tag and at most 1024 data bytes, a
Directory is its tag and at most 16 entries of 64 bytes (the name padded with
zeros or cut to 32 bytes, then the 32-byte hash of the child node), a Big or
BigDirectory is its tag and at most 32 hashes of 32 bytes; and the root of a
directory of more than 16 entries carries the BigDirectory tag. -/
theorem BuildMerkleNode_layout (Sha : Bytes → Bytes) (hsha : ∀ b, (Sha b).length = 32)
    (t : FsNode) (s s1 : MerkleState) (root : Bytes)
    (h : BuildMerkleNode Sha t s = .ok (root, s1)) :
    s1 = fillAll Sha (installs Sha t) s ∧
    (∀ n ∈ installs Sha t, LayoutOK Sha n) ∧
    (∀ name : Bytes, (padTo32 name).length = 32 ∧
      (name.length ≤ 32 → padTo32 name = name ++ List.replicate (32 - name.length) 0) ∧
      (32 ≤ name.length → padTo32 name = name.take 32)) ∧
    (∀ entries, t = .dir entries → MaxDirEntries < entries.length →
      root.getD 0 0 = BigDirectory) := by
  obtain ⟨ht, hs⟩ := BuildMerkleNode_installs Sha t s s1 root h
  refine ⟨hs, buildTrace_layout Sha hsha t root _ ht,
    fun name => ⟨padTo32_length name, padTo32_short name, padTo32_long name⟩, ?_⟩
  intro entries hte hlen
  subst hte
  rw [buildTrace] at ht
  split at ht
  · cases ht
  · rename_i children installed hc
    split at ht
    · cases ht
    · rename_i node installed1 hd
      simp only [Except.ok.injEq, Prod.mk.injEq] at ht
      obtain ⟨h1, -⟩ := ht
      subst h1
      refine dirTrace_big_root Sha _ children node installed1 hd ?_
      rw [List.length_zipWith, List.length_map, childTraces_length Sha entries children _ hc]
      simpa using hlen

theorem BuildMerkleNode_layout_witness :
    fillAll sampleSha (installs sampleSha sampleTree1) MerkleState.empty
        = fillAll sampleSha (installs sampleSha sampleTree1) MerkleState.empty ∧
    (∀ n ∈ installs sampleSha sampleTree1, LayoutOK sampleSha n) ∧
    (∀ name : Bytes, (padTo32 name).length = 32 ∧
      (name.length ≤ 32 → padTo32 name = name ++ List.replicate (32 - name.length) 0) ∧
      (32 ≤ name.length → padTo32 name = name.take 32)) ∧
    (∀ entries, sampleTree1 = .dir entries → MaxDirEntries < entries.length →
      (HashDirectory sampleSha [{ Name := [97], Hash := [0, 7] }]).getD 0 0 = BigDirectory) :=
  BuildMerkleNode_layout sampleSha sampleSha_length sampleTree1 MerkleState.empty
    (fillAll sampleSha (installs sampleSha sampleTree1) MerkleState.empty)
    (HashDirectory sampleSha [{ Name := [97], Hash := [0, 7] }]) rfl

/-! ## Rebuilding files -/

theorem lookupEntry_append_fresh (E : List (Bytes × FsNode)) (name : Bytes) (c : FsNode)
    (h : lookupEntry E name = none) : lookupEntry (E ++ [(name, c)]) name = some c := by
  induction E with
  | nil => simp [lookupEntry]
  | cons e rest ih =>
    obtain ⟨n, c0⟩ := e
    simp only [lookupEntry, List.cons_append] at h ⊢
    split at h
    · cases h
    · rename_i hne
      rw [if_neg hne]
      exact ih h

theorem setEntry_fresh (E : List (Bytes × FsNode)) (name : Bytes) (c : FsNode)
    (h : lookupEntry E name = none) : setEntry E name c = E ++ [(name, c)] := by
  induction E with
  | nil => rfl
  | cons e rest ih =>
    obtain ⟨n, c0⟩ := e
    simp only [lookupEntry] at h
    split at h
    · cases h
    · rename_i hne
      simp only [setEntry, if_neg hne, List.cons_append, ih h]

theorem setEntry_append (E : List (Bytes × FsNode)) (name : Bytes) (c0 c : FsNode)
    (h : lookupEntry E name = none) :
    setEntry (E ++ [(name, c0)]) name c = E ++ [(name, c)] := by
  induction E with
  | nil => simp [setEntry]
  | cons e rest ih =>
    obtain ⟨n, c1⟩ := e
    simp only [lookupEntry] at h
    split at h
    · cases h
    · rename_i hne
      simp only [List.cons_append, setEntry, if_neg hne, List.append_eq, ih h]

theorem fsLookup_under (E : List (Bytes × FsNode)) (name : Bytes) (inner : FsState)
    (p : List Bytes) (h : lookupEntry E name = none) :
    fsLookup (under E name inner) (name :: p) = fsLookup inner p := by
  cases inner with
  | none =>
    simp only [under, fsLookup, h]
  | some c => simp only [under, fsLookup, lookupEntry_append_fresh E name c h]

theorem fsModify_under (mkdirs : Bool) (f : Option FsNode → Option FsNode)
    (E : List (Bytes × FsNode)) (name : Bytes) (inner : FsState) (p : List Bytes)
    (h : lookupEntry E name = none) :
    fsModify mkdirs f (under E name inner) (name :: p)
      = (fsModify mkdirs f inner p).map fun c => .dir (E ++ [(name, c)]) := by
  cases inner with
  | none =>
    simp only [under, fsModify, h]
    cases fsModify mkdirs f none p with
    | none => rfl
    | some c => simp only [Option.map_some', setEntry_fresh E name c h]
  | some c0 =>
    simp only [under, fsModify, lookupEntry_append_fresh E name c0 h]
    cases fsModify mkdirs f (some c0) p with
    | none => rfl
    | some c => simp only [Option.map_some', setEntry_append E name c0 c h]

theorem joinPath_cons (name : Bytes) (p : List Bytes) (nm : Bytes) :
    joinPath (name :: p) nm = name :: joinPath p nm := by
  unfold joinPath
  split <;> rfl

theorem osStatExists_under (E : List (Bytes × FsNode)) (name : Bytes) (inner : FsState)
    (p : List Bytes) (h : lookupEntry E name = none) :
    osStatExists (under E name inner) (name :: p) = osStatExists inner p := by
  unfold osStatExists
  rw [fsLookup_under E name inner p h]

theorem uniqueNameLoop_under (E : List (Bytes × FsNode)) (name : Bytes) (inner : FsState)
    (p : List Bytes) (baseName extension : Bytes) (h : lookupEntry E name = none) :
    ∀ fuel nm counter,
      uniqueNameLoop (under E name inner) (name :: p) baseName extension fuel nm counter
        = uniqueNameLoop inner p baseName extension fuel nm counter := by
  intro fuel
  induction fuel with
  | zero => intro nm counter; rfl
  | succ fuel ih =>
    intro nm counter
    simp only [uniqueNameLoop, joinPath_cons, osStatExists_under E name inner _ h, ih]

theorem UniqueName_under (E : List (Bytes × FsNode)) (name : Bytes) (inner : FsState)
    (p : List Bytes) (fuel : Nat) (nm : Bytes) (h : lookupEntry E name = none) :
    UniqueName fuel (under E name inner) (name :: p) nm = UniqueName fuel inner p nm := by
  unfold UniqueName
  exact uniqueNameLoop_under E name inner p _ _ h fuel nm 1

theorem writeChunk_under (E : List (Bytes × FsNode)) (name : Bytes) (inner : FsState)
    (p : List Bytes) (childNode : Bytes) (h : lookupEntry E name = none) :
    writeChunk (name :: p) childNode (under E name inner)
      = liftUnder E name (writeChunk p childNode inner) := by
  unfold writeChunk fileWrite
  rw [fsModify_under _ _ E name inner p h]
  cases fsModify false _ inner p with
  | none => rfl
  | some c => rfl

theorem rebuildEach_under {α : Type} (E : List (Bytes × FsNode)) (name : Bytes)
    (stepO stepI : α → FsState → Except Fault (FsState × Option RebuildError))
    (hstep : ∀ x inner, stepO x (under E name inner) = liftUnder E name (stepI x inner))
    (xs : List α) :
    ∀ inner, rebuildEach stepO xs (under E name inner)
      = liftUnder E name (rebuildEach stepI xs inner) := by
  induction xs with
  | nil => intro inner; rfl
  | cons x rest ih =>
    intro inner
    simp only [rebuildEach, hstep]
    cases hr : stepI x inner with
    | error e => rfl
    | ok r =>
      obtain ⟨c, err⟩ := r
      cases err with
      | some e => rfl
      | none =>
        simp only [liftUnder]
        exact ih c

theorem writeBigChild_under (M : GoMap Bytes) (E : List (Bytes × FsNode)) (name : Bytes)
    (p : List Bytes) (h : lookupEntry E name = none)
    (writeO writeI : Bytes → FsState → Except Fault (FsState × Option RebuildError))
    (hw : ∀ node inner, writeO node (under E name inner) = liftUnder E name (writeI node inner))
    (childHash : Bytes) (inner : FsState) :
    writeBigChild M (name :: p) writeO childHash (under E name inner)
      = liftUnder E name (writeBigChild M p writeI childHash inner) := by
  unfold writeBigChild
  dsimp only
  cases index ((mapGet M childHash).getD []) 0 with
  | error e => rfl
  | ok tag =>
    dsimp only
    split
    · exact writeChunk_under E name inner p _ h
    · split
      · exact hw _ inner
      · rfl

theorem WriteBigToFile_under (M : GoMap Bytes) (E : List (Bytes × FsNode)) (name : Bytes)
    (p : List Bytes) (h : lookupEntry E name = none) :
    ∀ fuel node inner,
      WriteBigToFile M (name :: p) fuel node (under E name inner)
        = liftUnder E name (WriteBigToFile M p fuel node inner) := by
  intro fuel
  induction fuel with
  | zero => intro node inner; rfl
  | succ fuel ih =>
    intro node inner
    unfold WriteBigToFile
    exact rebuildEach_under E name _ _
      (writeBigChild_under M E name p h _ _ ih) _ inner

theorem rebuildBigChild_under (M : GoMap Bytes) (E : List (Bytes × FsNode)) (name : Bytes)
    (p : List Bytes) (h : lookupEntry E name = none) (fuel : Nat)
    (childHash : Bytes) (inner : FsState) :
    rebuildBigChild M (name :: p) fuel childHash (under E name inner)
      = liftUnder E name (rebuildBigChild M p fuel childHash inner) := by
  unfold rebuildBigChild
  dsimp only
  cases index ((mapGet M childHash).getD []) 0 with
  | error e => rfl
  | ok tag =>
    dsimp only
    split
    · exact WriteBigToFile_under M E name p h fuel _ inner
    · exact writeChunk_under E name inner p _ h

theorem rebuildEntry_under (E : List (Bytes × FsNode)) (name : Bytes)
    (p : List Bytes) (h : lookupEntry E name = none) (fuel : Nat)
    (rebuild : Bytes → List Bytes → FsState → Except Fault (FsState × Option RebuildError))
    (hr : ∀ hash q inner,
      rebuild hash (name :: q) (under E name inner) = liftUnder E name (rebuild hash q inner))
    (e : Bytes × Bytes) (inner : FsState) :
    rebuildEntry fuel (name :: p) rebuild e (under E name inner)
      = liftUnder E name (rebuildEntry fuel p rebuild e inner) := by
  unfold rebuildEntry
  dsimp only
  rw [UniqueName_under E name inner p fuel _ h]
  cases UniqueName fuel inner p (trimRightZero e.1) with
  | error err => rfl
  | ok Thename =>
    dsimp only
    rw [joinPath_cons]
    exact hr _ _ inner

/-- `RebuildNode` at a path below a fresh entry `name` of a directory does to
the directory what it does, at the rest of the path, to what the entry
holds. -/
theorem RebuildNode_under (M : GoMap Bytes) (E : List (Bytes × FsNode)) (name : Bytes)
    (h : lookupEntry E name = none) :
    ∀ fuel hash p inner,
      RebuildNode M fuel hash (name :: p) (under E name inner)
        = liftUnder E name (RebuildNode M fuel hash p inner) := by
  intro fuel
  induction fuel with
  | zero => intro hash p inner; rfl
  | succ fuel ih =>
    intro hash p inner
    unfold RebuildNode
    cases mapGet M hash with
    | none => rfl
    | some node =>
      dsimp only
      split
      · rfl
      · split
        · unfold osWriteFile
          rw [fsModify_under _ _ E name inner p h]
          cases fsModify false _ inner p with
          | none => rfl
          | some c => rfl
        · split
          · unfold osMkdirAll
            rw [fsModify_under _ _ E name inner p h]
            cases fsModify true _ inner p with
            | none => rfl
            | some c =>
              exact rebuildEach_under E name _ _
                (rebuildEntry_under E name p h fuel _ ih) _ (some c)
          · split
            · unfold osCreate osWriteFile
              rw [fsModify_under _ _ E name inner p h]
              cases fsModify false _ inner p with
              | none => rfl
              | some c =>
                exact rebuildEach_under E name _ _
                  (rebuildBigChild_under M E name p h fuel) _ (some c)
            · split
              · exact rebuildEach_under E name _ _ (fun x inner1 => ih x p inner1) _ inner
              · rfl

theorem uniform_bound {α : Type} (P : α → Nat → Prop) (xs : List α)
    (h : ∀ x ∈ xs, ∃ N, ∀ n, N ≤ n → P x n) : ∃ N, ∀ x ∈ xs, ∀ n, N ≤ n → P x n := by
  induction xs with
  | nil => exact ⟨0, fun x hx => (by cases hx)⟩
  | cons a rest ih =>
    obtain ⟨N1, h1⟩ := h a (List.mem_cons_self _ _)
    obtain ⟨N2, h2⟩ := ih (fun x hx => h x (List.mem_cons_of_mem _ hx))
    refine ⟨max N1 N2, ?_⟩
    intro x hx n hn
    rcases List.mem_cons.mp hx with rfl | hx
    · exact h1 n (le_trans (le_max_left _ _) hn)
    · exact h2 x hx n (le_trans (le_max_right _ _) hn)

theorem index_cons_zero (t : Nat) (d : Bytes) : index (t :: d) 0 = .ok t := rfl

theorem slice_payload (t : Nat) (d : Bytes) : slice (t :: d) IdSize (t :: d).length = d := by
  unfold slice IdSize
  simp

theorem writeChunk_file (d0 d : Bytes) :
    writeChunk [] (HashChunk d) (some (.file d0)) = .ok (some (.file (d0 ++ d)), none) := by
  unfold writeChunk fileWrite HashChunk
  rw [slice_payload]
  rfl

/-- A loop each round of which appends the content of one part to the open
file. -/
theorem rebuildEach_append (key : Bytes × Bytes → Bytes)
    (step : Bytes → FsState → Except Fault (FsState × Option RebuildError))
    (parts : List (Bytes × Bytes)) :
    (∀ p ∈ parts, ∀ d0, step (key p) (some (.file d0)) = .ok (some (.file (d0 ++ p.2)), none)) →
    ∀ d0, rebuildEach step (parts.map key) (some (.file d0))
      = .ok (some (.file (d0 ++ (parts.map Prod.snd).flatten)), none) := by
  induction parts with
  | nil => intro _ d0; simp [rebuildEach]
  | cons p rest ih =>
    intro h d0
    simp only [List.map_cons, rebuildEach, h p (List.mem_cons_self _ _) d0]
    rw [ih (fun q hq => h q (List.mem_cons_of_mem _ hq))]
    simp

theorem FileOK_chunk (Sha : Bytes → Bytes) (M : GoMap Bytes) (d : Bytes)
    (hst : Stored Sha M (HashChunk d)) : FileOK Sha M (HashChunk d) d := by
  refine ⟨hst, ⟨1, ?_⟩, Or.inl rfl⟩
  intro fuel hf
  obtain ⟨k, rfl⟩ : ∃ k, fuel = k + 1 := ⟨fuel - 1, by omega⟩
  unfold RebuildNode
  unfold Stored at hst
  rw [hst]
  simp only [HashChunk, List.length_cons, Nat.add_one_ne_zero, if_false, List.getD_cons_zero,
    if_true]
  have := slice_payload Chunk d
  simp only [List.length_cons] at this
  rw [this]
  rfl

theorem tag_of_getD (c : Bytes) (t : Nat) (ht : t ≠ 0) (h : c.getD 0 0 = t) :
    ∃ rest, c = t :: rest := by
  cases c with
  | nil => exact absurd h.symm ht
  | cons x rest =>
    refine ⟨rest, ?_⟩
    have : x = t := by simpa using h
    rw [this]

/-- A Big node built on a group of nodes that stand for file contents stands
for their concatenation. -/
theorem FileOK_big (Sha : Bytes → Bytes) (hsha : ∀ b, (Sha b).length = 32) (M : GoMap Bytes)
    (parts : List (Bytes × Bytes)) (hparts : ∀ p ∈ parts, FileOK Sha M p.1 p.2)
    (hst : Stored Sha M (hashChildren Sha Big (parts.map Prod.fst))) :
    FileOK Sha M (hashChildren Sha Big (parts.map Prod.fst)) (parts.map Prod.snd).flatten := by
  have hch : bigChildHashes (hashChildren Sha Big (parts.map Prod.fst))
      = parts.map (fun p => Sha p.1) := by
    rw [hashChildren_eq, bigChildHashes_cons_join Sha hsha, List.map_map]
    rfl
  obtain ⟨N, hN⟩ := uniform_bound
    (fun (p : Bytes × Bytes) fuel => p.1 = HashChunk p.2 ∨ (p.1.getD 0 0 = Big ∧ ∀ d0,
      WriteBigToFile M [] fuel p.1 (some (.file d0)) = .ok (some (.file (d0 ++ p.2)), none)))
    parts (by
      intro p hp
      rcases (hparts p hp).2.2 with hc | ⟨hb, N, hN⟩
      · exact ⟨0, fun _ _ => Or.inl hc⟩
      · exact ⟨N, fun n hn => Or.inr ⟨hb, hN n hn⟩⟩)
  have hstepW : ∀ fuel, N ≤ fuel → ∀ p ∈ parts, ∀ d0,
      writeBigChild M [] (WriteBigToFile M [] fuel) ((fun (p : Bytes × Bytes) => Sha p.1) p)
        (some (.file d0)) = .ok (some (.file (d0 ++ p.2)), none) := by
    intro fuel hf p hp d0
    have hs : mapGet M (Sha p.1) = some p.1 := (hparts p hp).1
    unfold writeBigChild
    dsimp only
    rw [hs]
    simp only [Option.getD_some]
    rcases hN p hp fuel hf with hc | ⟨hb, hw⟩
    · rw [hc]
      simp only [HashChunk, index_cons_zero, if_true]
      exact writeChunk_file d0 p.2
    · obtain ⟨rest, hp1⟩ := tag_of_getD p.1 Big (by decide) hb
      have := hw d0
      rw [hp1] at this ⊢
      rw [index_cons_zero]
      dsimp only
      rw [if_neg (by decide), if_pos rfl]
      exact this
  have hstepR : ∀ fuel, N ≤ fuel → ∀ p ∈ parts, ∀ d0,
      rebuildBigChild M [] fuel ((fun (p : Bytes × Bytes) => Sha p.1) p) (some (.file d0))
        = .ok (some (.file (d0 ++ p.2)), none) := by
    intro fuel hf p hp d0
    have hs : mapGet M (Sha p.1) = some p.1 := (hparts p hp).1
    unfold rebuildBigChild
    dsimp only
    rw [hs]
    simp only [Option.getD_some]
    rcases hN p hp fuel hf with hc | ⟨hb, hw⟩
    · rw [hc]
      simp only [HashChunk, index_cons_zero, ne_eq, not_true_eq_false, if_false]
      exact writeChunk_file d0 p.2
    · obtain ⟨rest, hp1⟩ := tag_of_getD p.1 Big (by decide) hb
      have := hw d0
      rw [hp1] at this ⊢
      rw [index_cons_zero]
      dsimp only
      rw [if_pos (by decide)]
      exact this
  have htag : (hashChildren Sha Big (parts.map Prod.fst)).getD 0 0 = Big := by
    rw [hashChildren_eq]; rfl
  refine ⟨hst, ⟨N + 1, ?_⟩, Or.inr ⟨htag, N + 1, ?_⟩⟩
  · intro fuel hf
    obtain ⟨k, rfl⟩ : ∃ k, fuel = k + 1 := ⟨fuel - 1, by omega⟩
    unfold RebuildNode
    unfold Stored at hst
    rw [hst]
    have hlen : ¬ (hashChildren Sha Big (parts.map Prod.fst)).length = 0 := by
      rw [hashChildren_eq]; simp
    dsimp only
    rw [if_neg hlen, htag, if_neg (by decide), if_neg (by decide), if_pos rfl]
    have hcreate : osCreate none [] = some (.file []) := rfl
    rw [hcreate, hch]
    dsimp only
    rw [rebuildEach_append (fun p => Sha p.1) _ parts (hstepR k (by omega)) []]
    rfl
  · intro fuel hf d0
    obtain ⟨k, rfl⟩ : ∃ k, fuel = k + 1 := ⟨fuel - 1, by omega⟩
    unfold WriteBigToFile
    rw [hch]
    exact rebuildEach_append (fun p => Sha p.1) _ parts (hstepW k (by omega)) d0

theorem flatten_map_flatten {α β : Type} (f : α → β) (L : List (List α)) :
    (L.map fun g => g.map f).flatten = L.flatten.map f := by
  induction L with
  | nil => rfl
  | cons g rest ih => simp only [List.map_cons, List.flatten_cons, List.map_append, ih]

theorem flatten_flatten_map {α β : Type} (f : α → List β) (L : List (List α)) :
    (L.map fun g => (g.map f).flatten).flatten = (L.flatten.map f).flatten := by
  induction L with
  | nil => rfl
  | cons g rest ih =>
    simp only [List.map_cons, List.flatten_cons, List.map_append, List.flatten_append, ih]

/-- The grouping loop keeps what the nodes stand for.  Each node of the list
stands for a list of items (`P`); a node built on a group stands for the
concatenation of what the nodes of the group stand for, provided it is stored
(`I`); then the nodes of the final list stand for lists whose concatenation is
the concatenation of the initial ones. -/
theorem mergeUntilOneTrace_parts {β : Type} (Sha : Bytes → Bytes) (nodeType : Nat)
    (P : Bytes → List β → Prop) (I : Bytes → Prop)
    (hstep : ∀ parts : List (Bytes × List β), parts ≠ [] → (∀ p ∈ parts, P p.1 p.2) →
      I (hashChildren Sha nodeType (parts.map Prod.fst)) →
      P (hashChildren Sha nodeType (parts.map Prod.fst)) (parts.map Prod.snd).flatten) :
    ∀ (fuel : Nat) (parts : List (Bytes × List β)) (final installed : List Bytes),
      mergeUntilOneTrace Sha nodeType fuel (parts.map Prod.fst) = .ok (final, installed) →
      (∀ p ∈ parts, P p.1 p.2) → (∀ n ∈ installed, I n) →
      ∃ parts1 : List (Bytes × List β), parts1.map Prod.fst = final ∧
        (∀ p ∈ parts1, P p.1 p.2) ∧
        (parts1.map Prod.snd).flatten = (parts.map Prod.snd).flatten := by
  intro fuel
  induction fuel with
  | zero =>
    intro parts final installed h hP _
    unfold mergeUntilOneTrace at h
    split at h
    · cases h
    · simp only [Except.ok.injEq, Prod.mk.injEq] at h
      exact ⟨parts, h.1, hP, rfl⟩
  | succ fuel ih =>
    intro parts final installed h hP hI
    unfold mergeUntilOneTrace at h
    split at h
    · split at h
      · cases h
      · rename_i final1 installed1 hrec
        simp only [Except.ok.injEq, Prod.mk.injEq] at h
        obtain ⟨hf, hi⟩ := h
        subst hf; subst hi
        have hnext : mergeNodesTrace Sha (parts.map Prod.fst) nodeType
            = ((strides parts MaxBigEntries).map fun g =>
                (hashChildren Sha nodeType (g.map Prod.fst), (g.map Prod.snd).flatten)).map
                Prod.fst := by
          unfold mergeNodesTrace
          rw [strides_map, List.map_map, List.map_map]
          rfl
        rw [hnext] at hrec
        obtain ⟨parts1, h1, h2, h3⟩ := ih _ _ _ hrec
          (by
            intro q hq
            obtain ⟨g, hg, rfl⟩ := List.mem_map.mp hq
            refine hstep g (strides_group parts MaxBigEntries (by decide) g hg).1
              (fun p hp => hP p (strides_mem parts _ g hg p hp)) ?_
            apply hI
            apply List.mem_append_left
            rw [hnext]
            exact List.mem_map.mpr ⟨_, List.mem_map.mpr ⟨g, hg, rfl⟩, rfl⟩)
          (fun n hn => hI n (List.mem_append_right _ hn))
        refine ⟨parts1, h1, h2, ?_⟩
        rw [h3, List.map_map]
        have : (Prod.snd ∘ fun (g : List (Bytes × List β)) =>
            (hashChildren Sha nodeType (g.map Prod.fst), (g.map Prod.snd).flatten))
            = fun g => (g.map Prod.snd).flatten := rfl
        rw [this, flatten_flatten_map, strides_flatten parts MaxBigEntries (by decide)]
    · simp only [Except.ok.injEq, Prod.mk.injEq] at h
      exact ⟨parts, h.1, hP, rfl⟩

/-- The root that the regular-file branch of `BuildMerkleNode` returns stands
for the content of the file, in every store that holds the built nodes under
their hashes. -/
theorem fileTrace_FileOK (Sha : Bytes → Bytes) (hsha : ∀ b, (Sha b).length = 32)
    (M : GoMap Bytes) (data root : Bytes) (L : List Bytes)
    (h : fileTrace Sha data = .ok (root, L)) (hst : ∀ n ∈ L, Stored Sha M n) :
    FileOK Sha M root data := by
  unfold fileTrace at h
  simp only at h
  split at h
  · cases h
  · rename_i final installed hm
    split at h
    · cases h
    · rename_i node hf
      simp only [Except.ok.injEq, Prod.mk.injEq] at h
      obtain ⟨h1, h2⟩ := h
      subst h1; subst h2
      have hparts0 : (SplitIntoChunks data).map HashChunk
          = ((SplitIntoChunks data).map fun c => (HashChunk c, c)).map Prod.fst := by
        rw [List.map_map]; rfl
      have hne : (SplitIntoChunks data).map HashChunk ≠ [] := by
        intro h0
        rw [h0] at hm
        rw [mergeUntilOneTrace_short Sha Big _ [] (by simp)] at hm
        simp only [Except.ok.injEq, Prod.mk.injEq] at hm
        rw [← hm.1] at hf
        cases hf
      obtain ⟨r, inst, hr⟩ := mergeUntilOneTrace_total Sha Big _ _ hne (Nat.le_refl _)
      rw [hr] at hm
      simp only [Except.ok.injEq, Prod.mk.injEq] at hm
      obtain ⟨hfin, hinst⟩ := hm
      subst hfin; subst hinst
      simp only [firstNode, Except.ok.injEq] at hf
      subst hf
      rw [hparts0] at hr
      obtain ⟨parts1, p1, p2, p3⟩ := mergeUntilOneTrace_parts Sha Big (FileOK Sha M)
        (Stored Sha M) (fun parts _ hp hI => FileOK_big Sha hsha M parts hp hI) _ _ _ _ hr
        (by
          intro q hq
          obtain ⟨c, hc, rfl⟩ := List.mem_map.mp hq
          exact FileOK_chunk Sha M c (hst _ (by
            apply List.mem_append_left
            apply List.mem_append_left
            exact List.mem_map.mpr ⟨c, hc, rfl⟩)))
        (fun n hn => hst n (List.mem_append_left _ (List.mem_append_right _ hn)))
      match parts1, p1, p2, p3 with
      | [q], p1, p2, p3 =>
        simp only [List.map_cons, List.map_nil, List.cons.injEq, and_true] at p1
        have hq := p2 q (List.mem_singleton_self _)
        rw [p1] at hq
        have hdata : q.2 = data := by
          have h4 : (List.map Prod.snd [q]).flatten = q.2 := by simp
          rw [h4, List.map_map] at p3
          have h5 : (Prod.snd ∘ fun (c : Bytes) => (HashChunk c, c)) = id := rfl
          rw [h5, List.map_id] at p3
          rw [p3]
          exact strides_flatten data ChunkSize (by decide)
        rw [hdata] at hq
        exact hq

theorem dropWhile_replicate_zero (k : Nat) (l : Bytes) (h : 0 ∉ l) :
    (List.replicate k 0 ++ l).dropWhile (fun c => c == 0) = l := by
  induction k with
  | zero =>
    cases l with
    | nil => rfl
    | cons x rest =>
      have hx : x ≠ 0 := fun h0 => h (by rw [h0]; exact List.mem_cons_self _ _)
      have hb : (x == 0) = false := by simpa using hx
      simp only [List.replicate_zero, List.nil_append, List.dropWhile_cons, hb]
      rfl
  | succ k ih =>
    simp only [List.replicate_succ, List.cons_append, List.dropWhile_cons, beq_self_eq_true,
      if_true]
    exact ih

theorem trimRightZero_padTo32 (name : Bytes) (h0 : 0 ∉ name) (hlen : name.length ≤ 32) :
    trimRightZero (padTo32 name) = name := by
  rw [padTo32_short name hlen]
  unfold trimRightZero
  rw [List.reverse_append, List.reverse_replicate,
    dropWhile_replicate_zero _ _ (by simpa using h0), List.reverse_reverse]

theorem goodName_spec (name : Bytes) (h : goodName name = true) :
    name ≠ [] ∧ 0 ∉ name ∧ name.length ≤ 32 := by
  unfold goodName NameSize at h
  simp only [Bool.and_eq_true, bne_iff_ne, ne_eq, Bool.not_eq_true', decide_eq_true_eq] at h
  obtain ⟨⟨⟨⟨⟨h1, h2⟩, -⟩, -⟩, -⟩, h6⟩ := h
  refine ⟨h1, ?_, h6⟩
  intro hm
  have : name.contains 0 = true := by simpa using hm
  rw [this] at h2
  cases h2

theorem dirEntriesOf_HashDirectory (Sha : Bytes → Bytes) (hsha : ∀ b, (Sha b).length = 32)
    (es : List DirectoryEntry) :
    dirEntriesOf (HashDirectory Sha es) = es.map fun e => (padTo32 e.Name, Sha e.Hash) := by
  rw [HashDirectory_eq]
  have hlen : ∀ blk ∈ es.map (fun e => padTo32 e.Name ++ Sha e.Hash), blk.length = 64 := by
    intro blk hblk
    obtain ⟨x, -, rfl⟩ := List.mem_map.mp hblk
    rw [List.length_append, padTo32_length, hsha]
  have hj := join_length_const 64 _ hlen
  have hd := dirChildHashes_cons_join Sha hsha Directory es
  unfold dirChildHashes at hd
  unfold dirEntriesOf
  simp only [IdSize, DirEntrySize, NameSize, HashSize, List.length_cons, hj,
    Nat.add_sub_cancel, Nat.reduceAdd] at hd ⊢
  rw [Nat.mul_div_cancel _ (by decide : 0 < 64)] at hd ⊢
  rw [← List.zip_map', hd]
  have hfun : (fun i => slice (Directory :: (es.map (fun e =>
        padTo32 e.Name ++ Sha e.Hash)).flatten) (1 + i * 64) (1 + i * 64 + 32))
      = fun i => slice (es.map (fun e => padTo32 e.Name ++ Sha e.Hash)).flatten
        (i * 64 + 0) (i * 64 + 32) := by
    funext i
    rw [Nat.add_assoc, slice_cons_succ]
    rfl
  rw [hfun, range_map_slices 64 0 32 (by decide) _ hlen, List.map_map]
  have hname : (fun blk => slice blk 0 32) ∘ (fun (e : DirectoryEntry) =>
      padTo32 e.Name ++ Sha e.Hash) = fun e => padTo32 e.Name := by
    funext e
    simp only [Function.comp, slice, List.drop_zero, Nat.sub_zero]
    rw [List.take_append_of_le_length (by rw [padTo32_length])]
    exact List.take_of_length_le (by rw [padTo32_length])
  rw [hname, List.zip_map']

theorem lookupEntry_none (E : List (Bytes × FsNode)) (name : Bytes)
    (h : name ∉ E.map Prod.fst) : lookupEntry E name = none := by
  induction E with
  | nil => rfl
  | cons e rest ih =>
    obtain ⟨n, c⟩ := e
    simp only [List.map_cons, List.mem_cons, not_or] at h
    simp only [lookupEntry]
    rw [if_neg (fun hn => h.1 hn.symm)]
    exact ih h.2

theorem UniqueName_fresh (fuel : Nat) (E : List (Bytes × FsNode)) (name : Bytes)
    (hf : 1 ≤ fuel) (hne : name ≠ []) (h : lookupEntry E name = none) :
    UniqueName fuel (some (.dir E)) [] name = .ok name := by
  obtain ⟨k, rfl⟩ : ∃ k, fuel = k + 1 := ⟨fuel - 1, by omega⟩
  unfold UniqueName
  dsimp only
  unfold uniqueNameLoop
  have hj : joinPath [] name = [name] := by unfold joinPath; rw [if_neg hne]; rfl
  have hx : osStatExists (some (.dir E)) [name] = false := by
    unfold osStatExists
    simp only [fsLookup, h]
    rfl
  rw [hj, hx]
  rfl

/-- The `Directory` loop of `RebuildNode` on entries whose names are good and
new in the directory and whose child nodes rebuild the subtrees: it appends
the entries, in order. -/
theorem rebuildEach_entries (Sha : Bytes → Bytes) (M : GoMap Bytes) (fuel : Nat)
    (hf : 1 ≤ fuel) (tr : List (Bytes × Bytes × FsNode)) :
    (∀ x ∈ tr, goodName x.1 = true ∧
      RebuildNode M fuel (Sha x.2.1) [] none = .ok (some x.2.2, none)) →
    ∀ E0 : List (Bytes × FsNode),
      ((E0 ++ tr.map fun x => (x.1, x.2.2)).map Prod.fst).Nodup →
      rebuildEach (rebuildEntry fuel [] (RebuildNode M fuel))
          (tr.map fun x => (padTo32 x.1, Sha x.2.1)) (some (.dir E0))
        = .ok (some (.dir (E0 ++ tr.map fun x => (x.1, x.2.2))), none) := by
  induction tr with
  | nil => intro _ E0 _; simp [rebuildEach]
  | cons x rest ih =>
    intro h E0 hnd
    obtain ⟨hgood, hx⟩ := h x (List.mem_cons_self _ _)
    obtain ⟨hne, h0, hlen⟩ := goodName_spec x.1 hgood
    have hfresh : lookupEntry E0 x.1 = none := by
      apply lookupEntry_none
      intro hm
      simp only [List.map_cons, List.map_append, List.nodup_append, List.nodup_cons] at hnd
      exact hnd.2.2 hm (List.mem_cons_self _ _)
    have hstep : rebuildEntry fuel [] (RebuildNode M fuel) (padTo32 x.1, Sha x.2.1)
        (some (.dir E0)) = .ok (some (.dir (E0 ++ [(x.1, x.2.2)])), none) := by
      unfold rebuildEntry
      dsimp only
      rw [trimRightZero_padTo32 x.1 h0 hlen, UniqueName_fresh fuel E0 x.1 hf hne hfresh]
      dsimp only
      have hj : joinPath [] x.1 = [x.1] := by unfold joinPath; rw [if_neg hne]; rfl
      rw [hj]
      have hu : (some (.dir E0) : FsState) = under E0 x.1 none := rfl
      rw [hu, RebuildNode_under M E0 x.1 hfresh fuel _ [] none, hx]
      rfl
    simp only [List.map_cons, rebuildEach, hstep]
    rw [ih (fun y hy => h y (List.mem_cons_of_mem _ hy)) (E0 ++ [(x.1, x.2.2)])
      (by simpa using hnd)]
    simp

/-- A Directory node whose entries have good names and child nodes that
rebuild the subtrees stands for these entries. -/
theorem DirOK_leaf (Sha : Bytes → Bytes) (hsha : ∀ b, (Sha b).length = 32) (M : GoMap Bytes)
    (tr : List (Bytes × Bytes × FsNode))
    (htr : ∀ x ∈ tr, goodName x.1 = true ∧ TreeOK Sha M x.2.1 x.2.2)
    (hst : Stored Sha M
      (HashDirectory Sha (tr.map fun x => ({ Name := x.1, Hash := x.2.1 } : DirectoryEntry)))) :
    DirOK Sha M
      (HashDirectory Sha (tr.map fun x => ({ Name := x.1, Hash := x.2.1 } : DirectoryEntry)))
      (tr.map fun x => (x.1, x.2.2)) := by
  obtain ⟨N, hN⟩ := uniform_bound
    (fun (x : Bytes × Bytes × FsNode) fuel =>
      RebuildNode M fuel (Sha x.2.1) [] none = .ok (some x.2.2, none))
    tr (fun x hx => (htr x hx).2)
  refine ⟨hst, N + 2, ?_⟩
  intro fuel hf
  obtain ⟨k, rfl⟩ : ∃ k, fuel = k + 1 := ⟨fuel - 1, by omega⟩
  have hentries := dirEntriesOf_HashDirectory Sha hsha
    (tr.map fun x => ({ Name := x.1, Hash := x.2.1 } : DirectoryEntry))
  rw [List.map_map] at hentries
  have hloop := rebuildEach_entries Sha M k (by omega) tr
    (fun x hx => ⟨(htr x hx).1, hN x hx k (by omega)⟩)
  have hlen : ¬ (HashDirectory Sha (tr.map fun x =>
      ({ Name := x.1, Hash := x.2.1 } : DirectoryEntry))).length = 0 := by
    rw [HashDirectory_eq]; simp
  have htag : (HashDirectory Sha (tr.map fun x =>
      ({ Name := x.1, Hash := x.2.1 } : DirectoryEntry))).getD 0 0 = Directory := by
    rw [HashDirectory_eq]; rfl
  unfold Stored at hst
  constructor
  · intro E0 hnd
    unfold RebuildNode
    rw [hst]
    dsimp only
    rw [if_neg hlen, htag, if_neg (by decide), if_pos rfl]
    have hmk : osMkdirAll (some (.dir E0)) [] = some (.dir E0) := rfl
    rw [hmk, hentries]
    exact hloop E0 hnd
  · intro hnd
    unfold RebuildNode
    rw [hst]
    dsimp only
    rw [if_neg hlen, htag, if_neg (by decide), if_pos rfl]
    have hmk : osMkdirAll none [] = some (.dir []) := rfl
    rw [hmk, hentries]
    have := hloop [] (by simpa using hnd)
    simpa using this

theorem rebuildEach_dirs (Sha : Bytes → Bytes) (M : GoMap Bytes) (fuel : Nat)
    (parts : List (Bytes × List (Bytes × FsNode))) :
    (∀ p ∈ parts, ∀ E0 : List (Bytes × FsNode), ((E0 ++ p.2).map Prod.fst).Nodup →
      RebuildNode M fuel (Sha p.1) [] (some (.dir E0)) = .ok (some (.dir (E0 ++ p.2)), none)) →
    ∀ E0 : List (Bytes × FsNode),
      ((E0 ++ (parts.map Prod.snd).flatten).map Prod.fst).Nodup →
      rebuildEach (fun childHash fs => RebuildNode M fuel childHash [] fs)
          (parts.map fun p => Sha p.1) (some (.dir E0))
        = .ok (some (.dir (E0 ++ (parts.map Prod.snd).flatten)), none) := by
  induction parts with
  | nil => intro _ E0 _; simp [rebuildEach]
  | cons p rest ih =>
    intro h E0 hnd
    simp only [List.map_cons, List.flatten_cons] at hnd ⊢
    have hnd1 : ((E0 ++ p.2).map Prod.fst).Nodup := by
      rw [← List.append_assoc, List.map_append] at hnd
      exact (List.nodup_append.mp hnd).1
    simp only [rebuildEach, h p (List.mem_cons_self _ _) E0 hnd1]
    rw [ih (fun q hq => h q (List.mem_cons_of_mem _ hq)) (E0 ++ p.2)
      (by rw [List.append_assoc]; exact hnd)]
    rw [List.append_assoc]

/-- A BigDirectory node built on a group of at least one node that stand for
directory entries stands for their concatenation. -/
theorem DirOK_big (Sha : Bytes → Bytes) (hsha : ∀ b, (Sha b).length = 32) (M : GoMap Bytes)
    (parts : List (Bytes × List (Bytes × FsNode))) (hne : parts ≠ [])
    (hparts : ∀ p ∈ parts, DirOK Sha M p.1 p.2)
    (hst : Stored Sha M (hashChildren Sha BigDirectory (parts.map Prod.fst))) :
    DirOK Sha M (hashChildren Sha BigDirectory (parts.map Prod.fst))
      (parts.map Prod.snd).flatten := by
  have hch : bigChildHashes (hashChildren Sha BigDirectory (parts.map Prod.fst))
      = parts.map (fun p => Sha p.1) := by
    rw [hashChildren_eq, bigChildHashes_cons_join Sha hsha, List.map_map]
    rfl
  obtain ⟨N, hN⟩ := uniform_bound
    (fun (p : Bytes × List (Bytes × FsNode)) fuel =>
      (∀ E0 : List (Bytes × FsNode), ((E0 ++ p.2).map Prod.fst).Nodup →
        RebuildNode M fuel (Sha p.1) [] (some (.dir E0))
          = .ok (some (.dir (E0 ++ p.2)), none)) ∧
      ((p.2.map Prod.fst).Nodup →
        RebuildNode M fuel (Sha p.1) [] none = .ok (some (.dir p.2), none)))
    parts (fun p hp => (hparts p hp).2)
  have hlen : ¬ (hashChildren Sha BigDirectory (parts.map Prod.fst)).length = 0 := by
    rw [hashChildren_eq]; simp
  have htag : (hashChildren Sha BigDirectory (parts.map Prod.fst)).getD 0 0 = BigDirectory := by
    rw [hashChildren_eq]; rfl
  refine ⟨hst, N + 1, ?_⟩
  intro fuel hf
  obtain ⟨k, rfl⟩ : ∃ k, fuel = k + 1 := ⟨fuel - 1, by omega⟩
  have hloop := rebuildEach_dirs Sha M k
  unfold Stored at hst
  constructor
  · intro E0 hnd
    unfold RebuildNode
    rw [hst]
    dsimp only
    rw [if_neg hlen, htag, if_neg (by decide), if_neg (by decide), if_neg (by decide),
      if_pos rfl, hch]
    exact hloop parts (fun p hp => (hN p hp k (by omega)).1) E0 hnd
  · intro hnd
    unfold RebuildNode
    rw [hst]
    dsimp only
    rw [if_neg hlen, htag, if_neg (by decide), if_neg (by decide), if_neg (by decide),
      if_pos rfl, hch]
    match parts, hne, hN, hnd with
    | p :: rest, _, hN, hnd =>
      simp only [List.map_cons, List.flatten_cons, List.map_append] at hnd ⊢
      have hfirst := (hN p (List.mem_cons_self _ _) k (by omega)).2
        (List.nodup_append.mp hnd).1
      simp only [rebuildEach, hfirst]
      exact hloop rest (fun q hq => (hN q (List.mem_cons_of_mem _ hq) k (by omega)).1) p.2
        (by rw [List.map_append]; exact hnd)

theorem zipWith_entries (tr : List (Bytes × Bytes × FsNode)) :
    List.zipWith (fun name child => ({ Name := name, Hash := child } : DirectoryEntry))
        (tr.map fun x => x.1) (tr.map fun x => x.2.1)
      = tr.map fun x => ({ Name := x.1, Hash := x.2.1 } : DirectoryEntry) := by
  induction tr with
  | nil => rfl
  | cons x rest ih => simp only [List.map_cons, List.zipWith_cons_cons, ih]

/-- The root that `buildDirectoryNode` returns stands for the entries of the
directory, in every store that holds the built nodes under their hashes. -/
theorem dirTrace_DirOK (Sha : Bytes → Bytes) (hsha : ∀ b, (Sha b).length = 32)
    (M : GoMap Bytes) (tr : List (Bytes × Bytes × FsNode)) (root : Bytes) (L : List Bytes)
    (h : dirTrace Sha (tr.map fun x => x.1) (tr.map fun x => x.2.1) = .ok (root, L))
    (htr : ∀ x ∈ tr, goodName x.1 = true ∧ TreeOK Sha M x.2.1 x.2.2)
    (hst : ∀ n ∈ L, Stored Sha M n) :
    DirOK Sha M root (tr.map fun x => (x.1, x.2.2)) := by
  unfold dirTrace at h
  rw [zipWith_entries] at h
  simp only at h
  split at h
  · simp only [Except.ok.injEq, Prod.mk.injEq] at h
    obtain ⟨h1, h2⟩ := h
    subst h1; subst h2
    exact DirOK_leaf Sha hsha M tr htr (hst _ (List.mem_singleton_self _))
  · split at h
    · cases h
    · rename_i final installed hm
      split at h
      · cases h
      · rename_i node hf
        simp only [Except.ok.injEq, Prod.mk.injEq] at h
        obtain ⟨h1, h2⟩ := h
        subst h1; subst h2
        have hparts0 : (strides (tr.map fun x =>
              ({ Name := x.1, Hash := x.2.1 } : DirectoryEntry)) MaxDirEntries).map
              (HashDirectory Sha)
            = ((strides tr MaxDirEntries).map fun g =>
                (HashDirectory Sha (g.map fun x =>
                  ({ Name := x.1, Hash := x.2.1 } : DirectoryEntry)),
                 g.map fun x => (x.1, x.2.2))).map Prod.fst := by
          rw [strides_map, List.map_map, List.map_map]
          rfl
        have hne : (strides (tr.map fun x =>
              ({ Name := x.1, Hash := x.2.1 } : DirectoryEntry)) MaxDirEntries).map
              (HashDirectory Sha) ≠ [] := by
          intro h0
          rw [h0] at hm
          rw [mergeUntilOneTrace_short Sha BigDirectory _ [] (by simp)] at hm
          simp only [Except.ok.injEq, Prod.mk.injEq] at hm
          rw [← hm.1] at hf
          cases hf
        obtain ⟨r, inst, hr⟩ := mergeUntilOneTrace_total Sha BigDirectory _ _ hne (Nat.le_refl _)
        rw [hr] at hm
        simp only [Except.ok.injEq, Prod.mk.injEq] at hm
        obtain ⟨hfin, hinst⟩ := hm
        subst hfin; subst hinst
        simp only [firstNode, Except.ok.injEq] at hf
        subst hf
        have hsub : ∀ n ∈ (strides (tr.map fun x =>
              ({ Name := x.1, Hash := x.2.1 } : DirectoryEntry)) MaxDirEntries).map
              (HashDirectory Sha), Stored Sha M n :=
          fun n hn => hst n (List.mem_append_left _ hn)
        rw [hparts0] at hr hsub
        obtain ⟨parts1, p1, p2, p3⟩ := mergeUntilOneTrace_parts Sha BigDirectory (DirOK Sha M)
          (Stored Sha M) (fun parts hne hp hI => DirOK_big Sha hsha M parts hne hp hI) _ _ _ _ hr
          (by
            intro q hq
            obtain ⟨g, hg, rfl⟩ := List.mem_map.mp hq
            exact DirOK_leaf Sha hsha M g
              (fun x hx => htr x (strides_mem tr _ g hg x hx))
              (hsub _ (List.mem_map.mpr ⟨_, List.mem_map.mpr ⟨g, hg, rfl⟩, rfl⟩)))
          (fun n hn => hst n (List.mem_append_right _ hn))
        match parts1, p1, p2, p3 with
        | [q], p1, p2, p3 =>
          simp only [List.map_cons, List.map_nil, List.cons.injEq, and_true] at p1
          have hq := p2 q (List.mem_singleton_self _)
          rw [p1] at hq
          have hE : q.2 = tr.map fun x => (x.1, x.2.2) := by
            have h4 : (List.map Prod.snd [q]).flatten = q.2 := by simp
            rw [h4, List.map_map] at p3
            have h5 : (Prod.snd ∘ fun (g : List (Bytes × Bytes × FsNode)) =>
                (HashDirectory Sha (g.map fun x =>
                  ({ Name := x.1, Hash := x.2.1 } : DirectoryEntry)),
                 g.map fun x => (x.1, x.2.2)))
                = fun g => g.map fun x => (x.1, x.2.2) := rfl
            rw [h5, flatten_map_flatten, strides_flatten tr MaxDirEntries (by decide)] at p3
            exact p3
          rw [hE] at hq
          exact hq

theorem dirTrace_total (Sha : Bytes → Bytes) (names children : List Bytes) :
    ∃ root L, dirTrace Sha names children = .ok (root, L) := by
  unfold dirTrace
  dsimp only
  split
  · exact ⟨_, _, rfl⟩
  · rename_i hgt
    have hne : (strides (List.zipWith (fun name child =>
        ({ Name := name, Hash := child } : DirectoryEntry)) names children)
        MaxDirEntries).map (HashDirectory Sha) ≠ [] := by
      intro h0
      have h1 := List.map_eq_nil_iff.mp h0
      refine strides_ne_nil _ MaxDirEntries ?_ h1
      intro h2
      rw [h2] at hgt
      simp at hgt
    obtain ⟨r, inst, hr⟩ := mergeUntilOneTrace_total Sha BigDirectory _ _ hne (Nat.le_refl _)
    rw [hr]
    exact ⟨_, _, rfl⟩

mutual
/-- `BuildMerkleNode` returns on a tree without an empty regular file. -/
theorem buildTrace_total (Sha : Bytes → Bytes) :
    ∀ (t : FsNode), goodTree t = true → ∃ root L, buildTrace Sha t = .ok (root, L)
  | .file data, h => by
    rw [buildTrace]
    rw [goodTree] at h
    exact fileTrace_total Sha data (by simpa using h)
  | .dir entries, h => by
    rw [goodTree] at h
    simp only [Bool.and_eq_true] at h
    obtain ⟨children, L1, hc⟩ := childTraces_total Sha entries h.2
    obtain ⟨root, L2, hd⟩ := dirTrace_total Sha (entries.map Prod.fst) children
    rw [buildTrace, hc]
    dsimp only
    rw [hd]
    exact ⟨_, _, rfl⟩
theorem childTraces_total (Sha : Bytes → Bytes) :
    ∀ (entries : List (Bytes × FsNode)), goodEntries entries = true →
      ∃ children L, childTraces Sha entries = .ok (children, L)
  | [], _ => ⟨[], [], by rw [childTraces]⟩
  | (name, child) :: rest, h => by
    rw [goodEntries] at h
    simp only [Bool.and_eq_true] at h
    obtain ⟨c, L1, hc⟩ := buildTrace_total Sha child h.1
    obtain ⟨cs, L2, hr⟩ := childTraces_total Sha rest h.2
    rw [childTraces, hc]
    dsimp only
    rw [hr]
    exact ⟨_, _, rfl⟩
end

mutual
/-- In a store that holds the nodes built for a good tree under their hashes,
`RebuildNode` on the hash of the root, with enough fuel and at a path that
holds nothing, returns without error and leaves the tree there. -/
theorem buildTrace_TreeOK (Sha : Bytes → Bytes) (hsha : ∀ b, (Sha b).length = 32)
    (M : GoMap Bytes) :
    ∀ (t : FsNode) (root : Bytes) (L : List Bytes), buildTrace Sha t = .ok (root, L) →
      (∀ n ∈ L, Stored Sha M n) → goodTree t = true → TreeOK Sha M root t
  | .file data, root, L, h, hst, _ => by
    rw [buildTrace] at h
    exact (fileTrace_FileOK Sha hsha M data root L h hst).2.1
  | .dir entries, root, L, h, hst, hgood => by
    rw [goodTree] at hgood
    simp only [Bool.and_eq_true, decide_eq_true_eq, List.all_eq_true] at hgood
    obtain ⟨⟨hnd, hnames⟩, hents⟩ := hgood
    rw [buildTrace] at h
    split at h
    · cases h
    · rename_i children installed hc
      split at h
      · cases h
      · rename_i node installed1 hd
        simp only [Except.ok.injEq, Prod.mk.injEq] at h
        obtain ⟨h1, h2⟩ := h
        subst h1; subst h2
        obtain ⟨tr, t1, t2, t3, t4⟩ := childTraces_TreeOK Sha hsha M entries children installed
          hc (fun n hn => hst n (List.mem_append_left _ hn)) hents
        rw [← t1, ← t2] at hd
        have hdir := dirTrace_DirOK Sha hsha M tr node installed1 hd
          (fun x hx => ⟨hnames x.1 (by
              rw [← t1]
              exact List.mem_map.mpr ⟨x, hx, rfl⟩), t4 x hx⟩)
          (fun n hn => hst n (List.mem_append_right _ hn))
        rw [t3] at hdir
        obtain ⟨-, N, hN⟩ := hdir
        exact ⟨N, fun fuel hf => (hN fuel hf).2 hnd⟩
theorem childTraces_TreeOK (Sha : Bytes → Bytes) (hsha : ∀ b, (Sha b).length = 32)
    (M : GoMap Bytes) :
    ∀ (entries : List (Bytes × FsNode)) (children L : List Bytes),
      childTraces Sha entries = .ok (children, L) →
      (∀ n ∈ L, Stored Sha M n) → goodEntries entries = true →
      ∃ tr : List (Bytes × Bytes × FsNode),
        (tr.map fun x => x.1) = entries.map Prod.fst ∧
        (tr.map fun x => x.2.1) = children ∧
        (tr.map fun x => (x.1, x.2.2)) = entries ∧
        ∀ x ∈ tr, TreeOK Sha M x.2.1 x.2.2
  | [], children, L, h, _, _ => by
    rw [childTraces] at h
    simp only [Except.ok.injEq, Prod.mk.injEq] at h
    exact ⟨[], rfl, by rw [← h.1]; rfl, rfl, fun x hx => (by cases hx)⟩
  | (name, child) :: rest, children, L, h, hst, hgood => by
    rw [goodEntries] at hgood
    simp only [Bool.and_eq_true] at hgood
    rw [childTraces] at h
    split at h
    · cases h
    · rename_i childNode installed hb
      split at h
      · cases h
      · rename_i cs installed1 hrest
        simp only [Except.ok.injEq, Prod.mk.injEq] at h
        obtain ⟨h1, h2⟩ := h
        subst h1; subst h2
        have hchild := buildTrace_TreeOK Sha hsha M child childNode installed hb
          (fun n hn => hst n (List.mem_append_left _ hn)) hgood.1
        obtain ⟨tr, t1, t2, t3, t4⟩ := childTraces_TreeOK Sha hsha M rest cs installed1 hrest
          (fun n hn => hst n (List.mem_append_right _ hn)) hgood.2
        refine ⟨(name, childNode, child) :: tr, ?_, ?_, ?_, ?_⟩
        · simp only [List.map_cons, t1]
        · simp only [List.map_cons, t2]
        · simp only [List.map_cons, t3]
        · intro x hx
          rcases List.mem_cons.mp hx with rfl | hx
          · exact hchild
          · exact t4 x hx
end

/-! ## Rebuilding what was built -/

theorem FillMap_map (Sha : Bytes → Bytes) (n : Bytes) (s : MerkleState) (k : Bytes) :
    mapGet (FillMap Sha n s).MerkleMap k =
      match mapGet s.MerkleMap k with
      | some m => some m
      | none => if Sha n = k then some n else none := by
  cases h : mapGet s.MerkleMap (Sha n) with
  | some old =>
    rw [FillMap_present Sha n old s h]
    dsimp only
    cases hk : mapGet s.MerkleMap k with
    | some m => rfl
    | none =>
      dsimp only
      rw [if_neg]
      intro he
      rw [he, hk] at h
      cases h
  | none =>
    rw [FillMap_absent Sha n s h]
    dsimp only
    by_cases he : Sha n = k
    · subst he
      rw [mapGet_mapSet_self, h]
      dsimp only
      rw [if_pos rfl]
    · rw [mapGet_mapSet_ne _ _ _ _ (fun h2 => he h2.symm)]
      cases mapGet s.MerkleMap k with
      | some m => rfl
      | none => dsimp only; rw [if_neg he]

theorem fillAll_map (Sha : Bytes → Bytes) :
    ∀ (L P : List Bytes) (s : MerkleState),
      (∀ k, mapGet s.MerkleMap k = firstWithKey Sha P k) →
      ∀ k, mapGet (fillAll Sha L s).MerkleMap k = firstWithKey Sha (P ++ L) k := by
  intro L
  induction L with
  | nil => intro P s h k; simpa [fillAll] using h k
  | cons n rest ih =>
    intro P s h k
    have h1 : ∀ k, mapGet (FillMap Sha n s).MerkleMap k = firstWithKey Sha (P ++ [n]) k := by
      intro k
      rw [FillMap_map, firstWithKey_append, h k]
    have := ih (P ++ [n]) (FillMap Sha n s) h1 k
    simpa [fillAll] using this

theorem firstWithKey_mem (Sha : Bytes → Bytes) (L : List Bytes) (n : Bytes) (hn : n ∈ L) :
    ∃ m, firstWithKey Sha L (Sha n) = some m := by
  unfold firstWithKey
  cases h : L.find? (fun x => decide (Sha x = Sha n)) with
  | some m => exact ⟨m, rfl⟩
  | none =>
    have := List.find?_eq_none.mp h n hn
    simp at this

/-- Claim C11 fails in the code: a directory with one file whose name is 33
bytes long is built without fault, and `RebuildNode` on the hash of the root,
at a path that holds nothing, returns without error and leaves a directory
whose only entry has a name of 32 bytes, the first 32 bytes of the name. -/
theorem RebuildNode_truncates_counterexample :
    BuildMerkleNode sampleSha sampleTree33 MerkleState.empty
      = .ok (HashDirectory sampleSha [{ Name := List.replicate 33 97, Hash := [0, 7] }],
          fillAll sampleSha (installs sampleSha sampleTree33) MerkleState.empty) ∧
    RebuildNode (fillAll sampleSha (installs sampleSha sampleTree33) MerkleState.empty).MerkleMap
        3 (sampleSha (HashDirectory sampleSha
          [{ Name := List.replicate 33 97, Hash := [0, 7] }])) [] none
      = .ok (some (.dir [(List.replicate 32 97, .file [7])]), none) ∧
    List.replicate 32 97 ≠ List.replicate 33 97 := by
  refine ⟨?_, ?_, by decide⟩
  · set_option maxRecDepth 100000 in rfl
  · set_option maxRecDepth 100000 in rfl

/-- Claim C11, amended: for every tree of regular files and sub-directories in
which no regular file is empty and the names of the entries of each directory
are good names (as a listing returns them and at most 32 bytes long),
different from one another, and for a hash with 32-byte digests and no
collision among the nodes installed in the store, `BuildMerkleNode` returns a
root, and `RebuildNode` on the hash of that root, with enough fuel and at a
path that holds nothing, returns without error and leaves there the same
tree: the same entry names in the same order, the same nesting and the same
file contents. -/
theorem BuildMerkleNode_RebuildNode (Sha : Bytes → Bytes) (hsha : ∀ b, (Sha b).length = 32)
    (L0 : List Bytes) (t : FsNode) (hgood : goodTree t = true)
    (hinj : ∀ a ∈ L0 ++ installs Sha t, ∀ b ∈ L0 ++ installs Sha t, Sha a = Sha b → a = b) :
    ∃ root s1, BuildMerkleNode Sha t (fillAll Sha L0 MerkleState.empty) = .ok (root, s1) ∧
      ∃ N, ∀ fuel, N ≤ fuel →
        RebuildNode s1.MerkleMap fuel (Sha root) [] none = .ok (some t, none) := by
  obtain ⟨root, L, hb⟩ := buildTrace_total Sha t hgood
  have hinst : installs Sha t = L := by unfold installs; rw [hb]
  have hbuild : BuildMerkleNode Sha t (fillAll Sha L0 MerkleState.empty)
      = .ok (root, fillAll Sha L (fillAll Sha L0 MerkleState.empty)) := by
    rw [BuildMerkleNode_eq_trace, hb]
  refine ⟨root, _, hbuild, ?_⟩
  have hmap : ∀ k, mapGet (fillAll Sha L (fillAll Sha L0 MerkleState.empty)).MerkleMap k
      = firstWithKey Sha (L0 ++ L) k := by
    intro k
    rw [← fillAll_append]
    have := fillAll_map Sha (L0 ++ L) [] MerkleState.empty (fun _ => rfl) k
    simpa using this
  have hst : ∀ n ∈ L, Stored Sha
      (fillAll Sha L (fillAll Sha L0 MerkleState.empty)).MerkleMap n := by
    intro n hn
    unfold Stored
    have hmem : n ∈ L0 ++ L := List.mem_append_right _ hn
    obtain ⟨m, hm⟩ := firstWithKey_mem Sha (L0 ++ L) n hmem
    obtain ⟨hm1, hm2⟩ := firstWithKey_some Sha _ _ _ hm
    rw [hinst] at hinj
    rw [hmap, hm, hinj m hm1 n hmem hm2]
  exact buildTrace_TreeOK Sha hsha _ t root L hb hst hgood

theorem BuildMerkleNode_RebuildNode_witness :
    ∃ root s1, BuildMerkleNode sampleSha sampleTree1 (fillAll sampleSha [] MerkleState.empty)
        = .ok (root, s1) ∧
      ∃ N, ∀ fuel, N ≤ fuel →
        RebuildNode s1.MerkleMap fuel (sampleSha root) [] none
          = .ok (some sampleTree1, none) :=
  BuildMerkleNode_RebuildNode sampleSha sampleSha_length [] sampleTree1 (by decide)
    (by decide)

/-! ## The scan of `CleanupTransactions`, by message type -/

/-- The scan removes a transaction in state Done, whatever its timeout, its
retries and its type, and leaves the heap of peers as it is. -/
theorem scanTransaction_done (now : Int) (tx : Transaction) (H : List Peer)
    (hstate : tx.State = .TxDone) : scanTransaction now tx H = .ok (none, H) := by
  unfold scanTransaction
  rw [if_pos hstate]

/-- Claim C23 fails in the code.  With the peer of `sampleDatumState`, which is
associated: two seconds after it was sent, the Hello transaction that has no
retry left is removed from the table, it does not stay there in state
ChangeAddrHello; and a transaction in state Done whose timeout has not elapsed
(instant 0) is removed from the table, it is not left unchanged. -/
theorem cleanupScan_removes_counterexample :
    timeSub (2 * Second) sampleHelloTx.SentAt > sampleHelloTx.Timeout ∧
    sampleHelloTx.Retries ≤ 0 ∧
    cleanupScan (2 * Second) [(9, sampleHelloTx)] sampleDatumState.PeerHeap
      = .ok ([], sampleDatumState.PeerHeap) ∧
    timeSub 0 sampleHelloTx.SentAt ≤ sampleHelloTx.Timeout ∧
    cleanupScan 0 [(9, { sampleHelloTx with State := .TxDone })] sampleDatumState.PeerHeap
      = .ok ([], sampleDatumState.PeerHeap) := by
  refine ⟨by decide, by decide, by rfl, by decide, by rfl⟩

/-- Claim C23, amended: the body of the scan of `CleanupTransactions`, applied
to a transaction that is not in state Done.  When its timeout has not elapsed
it is left unchanged.  When it has timed out and has no retries left: a
DatumRequest with a peer calls `OnTimeout` on the window of that peer once and
is removed, a DatumRequest without a peer is removed; a Hello (a
NatTraversalRequest) is removed when its peer is associated and otherwise
stays in the table in state ChangeAddrHello (ChangeAddrNat); a transaction of
any other type is removed; nothing else changes in the heap of peers. -/
theorem scanTransaction_by_type (now : Int) (tx : Transaction) (H : List Peer)
    (hstate : tx.State ≠ .TxDone) :
    (timeSub now tx.SentAt ≤ tx.Timeout → scanTransaction now tx H = .ok (some tx, H)) ∧
    (tx.Timeout < timeSub now tx.SentAt → tx.Retries ≤ 0 →
      (tx.MsgType = DatumRequest → ∀ p peer, tx.Peer = some p → H.get? p = some peer →
        scanTransaction now tx H
          = .ok (none, H.set p { peer with Window := peer.Window.OnTimeout })) ∧
      (tx.MsgType = DatumRequest → tx.Peer = none →
        scanTransaction now tx H = .ok (none, H)) ∧
      (tx.MsgType = Hello → ∀ p peer, tx.Peer = some p → H.get? p = some peer →
        scanTransaction now tx H
          = .ok (if peer.State = .PeerAssociated then none
                 else some { tx with State := .TxChangeAddrHello }, H)) ∧
      (tx.MsgType = NatTraversalRequest → ∀ p peer, tx.Peer = some p →
        H.get? p = some peer →
        scanTransaction now tx H
          = .ok (if peer.State = .PeerAssociated then none
                 else some { tx with State := .TxChangeAddrNat }, H)) ∧
      (tx.MsgType ≠ DatumRequest → tx.MsgType ≠ Hello → tx.MsgType ≠ NatTraversalRequest →
        scanTransaction now tx H = .ok (none, H))) := by
  constructor
  · intro hle
    unfold scanTransaction
    rw [if_neg hstate, if_pos hle]
  · intro hlate hr
    have hnle : ¬ timeSub now tx.SentAt ≤ tx.Timeout := not_le.mpr hlate
    refine ⟨?_, ?_, ?_, ?_, ?_⟩
    · intro ht p peer hp hpeer
      unfold scanTransaction
      rw [if_neg hstate, if_neg hnle, if_pos hr]
      have h1 : tx.MsgType ≠ Hello := by rw [ht]; decide
      have h2 : tx.MsgType ≠ NatTraversalRequest := by rw [ht]; decide
      simp only [ht, hp, windowTimeout, hpeer, if_true]
      rw [← ht, if_neg h1, if_neg h2]
    · intro ht hp
      unfold scanTransaction
      rw [if_neg hstate, if_neg hnle, if_pos hr]
      have h1 : tx.MsgType ≠ Hello := by rw [ht]; decide
      have h2 : tx.MsgType ≠ NatTraversalRequest := by rw [ht]; decide
      simp only [ht, hp, if_true]
      rw [← ht, if_neg h1, if_neg h2]
    · intro ht p peer hp hpeer
      unfold scanTransaction
      rw [if_neg hstate, if_neg hnle, if_pos hr]
      have h0 : tx.MsgType ≠ DatumRequest := by rw [ht]; decide
      simp only [if_neg h0, if_pos ht, peerAssociated, hp, hpeer]
      by_cases ha : peer.State = .PeerAssociated
      · simp [ha]
      · simp [ha]
    · intro ht p peer hp hpeer
      unfold scanTransaction
      rw [if_neg hstate, if_neg hnle, if_pos hr]
      have h0 : tx.MsgType ≠ DatumRequest := by rw [ht]; decide
      have h1 : tx.MsgType ≠ Hello := by rw [ht]; decide
      simp only [if_neg h0, if_neg h1, if_pos ht, peerAssociated, hp, hpeer]
      by_cases ha : peer.State = .PeerAssociated
      · simp [ha]
      · simp [ha]
    · intro h0 h1 h2
      unfold scanTransaction
      rw [if_neg hstate, if_neg hnle, if_pos hr]
      simp only [if_neg h0, if_neg h1, if_neg h2]

/-- The amended claim on a DatumRequest transaction of the peer of
`sampleDatumState`, whose window has size 32 and one request in flight: the
transaction is removed and the window has size 16 and nothing in flight. -/
theorem scanTransaction_by_type_witness :
    ({ sampleHelloTx with MsgType := DatumRequest } : Transaction).State ≠ .TxDone ∧
    scanTransaction (2 * Second) { sampleHelloTx with MsgType := DatumRequest }
        sampleDatumState.PeerHeap
      = .ok (none, [{ samplePeer with
                      ActiveAddr := some sampleAddr, State := .PeerAssociated,
                      Window := { Size := 16, Min := 1, Max := 10000, InFlight := 0 } }]) :=
  ⟨by decide,
    ((scanTransaction_by_type (2 * Second) { sampleHelloTx with MsgType := DatumRequest }
      sampleDatumState.PeerHeap (by decide)).2 (by decide) (by decide)).1 rfl 0 _ rfl rfl⟩

/-! ## A Datum with an empty payload -/

/-- Claim C26 fails in the code.  The digest of the empty string, as a Datum
body of exactly 32 bytes, passes `VerifyDataIntegrity` against itself as the
requested hash, and `HandlefileDataWindow` then panics: the node `body[32:]` is
empty and `Typedata` reads `node[0]`.  With the sample digest, whose value on
the empty string is 32 zero bytes, `HandleDatum` panics on that body as the
reply to transaction 5 of `sampleDatumState`, which requests that hash. -/
theorem HandleDatum_empty_payload_panics (Sha : Bytes → Bytes)
    (hsha : (Sha []).length = 32) (addr : UDPAddr) (s : MerkleState)
    (DatumQueue : List DatumJob) :
    VerifyDataIntegrity Sha (Sha []) (Sha []) = true ∧
    HandlefileDataWindow Sha (Sha []) addr s DatumQueue = .error .indexOutOfRange ∧
    HandleDatum sampleSha sampleResolve sampleDecrypt 5 (some sampleAddr) (sampleSha [])
      sampleDatumState = .error .indexOutOfRange := by
  have hdrop : slice (Sha []) HashSize (Sha []).length = [] := by
    unfold slice
    rw [hsha]
    simp [HashSize, List.drop_eq_nil_of_le, hsha]
  have htake : slice (Sha []) 0 HashSize = Sha [] := by
    unfold slice
    simp [HashSize, List.take_of_length_le, hsha]
  refine ⟨?_, ?_, ?_⟩
  · unfold VerifyDataIntegrity
    rw [if_neg (by rw [hsha]; decide)]
    simp only [hdrop, htake, bytesEqual, decide_True, Bool.not_true, Bool.false_eq_true,
      if_false]
  · unfold HandlefileDataWindow
    rw [if_neg (by rw [hsha]; decide)]
    simp only [hdrop]
    rfl
  · set_option maxRecDepth 100000 in rfl

theorem HandleDatum_empty_payload_panics_witness :
    (sampleSha []).length = 32 ∧
    VerifyDataIntegrity sampleSha (sampleSha []) (sampleSha []) = true ∧
    HandlefileDataWindow sampleSha (sampleSha []) sampleAddr MerkleState.empty []
      = .error .indexOutOfRange ∧
    HandleDatum sampleSha sampleResolve sampleDecrypt 5 (some sampleAddr) (sampleSha [])
      sampleDatumState = .error .indexOutOfRange :=
  ⟨by decide,
    HandleDatum_empty_payload_panics sampleSha (by decide) sampleAddr MerkleState.empty []⟩

/-! ## Termination of the traversals -/

theorem unvisited_le (K v : List Bytes) : unvisited K v ≤ K.length := by
  unfold unvisited
  exact List.length_filter_le _ _

theorem verifyChildren_nodup
    (visit : Bytes → List Bytes → Except Fault (Bool × List Bytes))
    (hvisit : ∀ c v b v1, visit c v = .ok (b, v1) → v.Nodup → v1.Nodup)
    (cs : List Bytes) :
    ∀ v b v1, verifyChildren visit cs v = .ok (b, v1) → v.Nodup → v1.Nodup := by
  induction cs with
  | nil =>
    intro v b v1 h hv
    simp only [verifyChildren, Except.ok.injEq, Prod.mk.injEq] at h
    obtain ⟨_, hv1⟩ := h
    subst hv1
    exact hv
  | cons c rest ih =>
    intro v b v1 h hv
    unfold verifyChildren at h
    cases hc : visit c v with
    | error e => rw [hc] at h; cases h
    | ok r =>
      obtain ⟨b0, v0⟩ := r
      rw [hc] at h
      have h0 := hvisit c v b0 v0 hc hv
      cases b0 with
      | false =>
        simp only [Except.ok.injEq, Prod.mk.injEq] at h
        obtain ⟨_, hv1⟩ := h
        subst hv1
        exact h0
      | true => exact ih v0 b v1 h h0

theorem verifyNode_nodup (M : GoMap Bytes) :
    ∀ fuel h v b v1, verifyNode M fuel h v = .ok (b, v1) → v.Nodup → v1.Nodup := by
  intro fuel
  induction fuel with
  | zero => intro h v b v1 hres; simp [verifyNode] at hres
  | succ fuel ih =>
    intro h v b v1 hres hnd
    simp only [verifyNode] at hres
    split at hres
    · simp only [Except.ok.injEq, Prod.mk.injEq] at hres
      obtain ⟨_, hv1⟩ := hres
      subst hv1
      exact hnd
    · rename_i hv
      have hcons : (h :: v).Nodup := List.nodup_cons.mpr ⟨hv, hnd⟩
      split at hres
      · simp only [Except.ok.injEq, Prod.mk.injEq] at hres
        obtain ⟨_, hv1⟩ := hres
        subst hv1
        exact hcons
      · split at hres
        · simp only [Except.ok.injEq, Prod.mk.injEq] at hres
          obtain ⟨_, hv1⟩ := hres
          subst hv1
          exact hcons
        · split at hres
          · simp only [Except.ok.injEq, Prod.mk.injEq] at hres
            obtain ⟨_, hv1⟩ := hres
            subst hv1
            exact hcons
          · split at hres
            · exact verifyChildren_nodup _ ih _ _ _ _ hres hcons
            · split at hres
              · exact verifyChildren_nodup _ ih _ _ _ _ hres hcons
              · simp only [Except.ok.injEq, Prod.mk.injEq] at hres
                obtain ⟨_, hv1⟩ := hres
                subst hv1
                exact hcons

theorem deleteChildren_nodup
    (visit : Bytes → MerkleState → List Bytes → Except Fault (MerkleState × List Bytes))
    (hvisit : ∀ c s v s1 v1, visit c s v = .ok (s1, v1) → v.Nodup → v1.Nodup)
    (cs : List Bytes) :
    ∀ s v s1 v1, deleteChildren visit cs s v = .ok (s1, v1) → v.Nodup → v1.Nodup := by
  induction cs with
  | nil =>
    intro s v s1 v1 h hv
    simp only [deleteChildren, Except.ok.injEq, Prod.mk.injEq] at h
    obtain ⟨_, hv1⟩ := h
    subst hv1
    exact hv
  | cons c rest ih =>
    intro s v s1 v1 h hv
    unfold deleteChildren at h
    cases hc : visit c s v with
    | error e => rw [hc] at h; cases h
    | ok r =>
      obtain ⟨s0, v0⟩ := r
      rw [hc] at h
      exact ih s0 v0 s1 v1 h (hvisit c s v s0 v0 hc hv)

theorem deleteNode_nodup :
    ∀ fuel h s v s1 v1, deleteNode fuel h s v = .ok (s1, v1) → v.Nodup → v1.Nodup := by
  intro fuel
  induction fuel with
  | zero => intro h s v s1 v1 hres; simp [deleteNode] at hres
  | succ fuel ih =>
    intro h s v s1 v1 hres hnd
    simp only [deleteNode] at hres
    split at hres
    · simp only [Except.ok.injEq, Prod.mk.injEq] at hres
      obtain ⟨_, hv1⟩ := hres
      subst hv1
      exact hnd
    · rename_i hv
      have hcons : (h :: v).Nodup := List.nodup_cons.mpr ⟨hv, hnd⟩
      split at hres
      · simp only [Except.ok.injEq, Prod.mk.injEq] at hres
        obtain ⟨_, hv1⟩ := hres
        subst hv1
        exact hcons
      · split at hres
        · simp only [Except.ok.injEq, Prod.mk.injEq] at hres
          obtain ⟨_, hv1⟩ := hres
          subst hv1
          exact hcons
        · split at hres
          · cases hres
          · split at hres
            · cases hres
            · rename_i s2 v2 hwalk
              simp only [Except.ok.injEq, Prod.mk.injEq] at hres
              obtain ⟨_, hv1⟩ := hres
              subst hv1
              split at hwalk
              · exact deleteChildren_nodup _ ih _ _ _ _ _ hwalk hcons
              · split at hwalk
                · exact deleteChildren_nodup _ ih _ _ _ _ _ hwalk hcons
                · simp only [Except.ok.injEq, Prod.mk.injEq] at hwalk
                  obtain ⟨_, hv1⟩ := hwalk
                  subst hv1
                  exact hcons

/-- Claim C28.  `verifyNode` and `deleteNode` terminate on every store, every
starting hash and every set of keys already visited, whatever the child
references of the stored nodes are (cycles and self references included): a
fuel larger than the number of entries of the store is never exhausted, so
`verifyNode` returns and `deleteNode` returns or stops on the panic of an empty
stored node; and no key is marked as visited twice, the list of the marked keys
has no duplicate when the list it started from has none. -/
theorem traversals_terminate (M : GoMap Bytes) (s : MerkleState) (hash : Bytes)
    (visited : List Bytes) (fuel : Nat)
    (hnd : visited.Nodup) (hM : M.length < fuel) (hs : s.MerkleMap.length < fuel) :
    (∃ b v1, verifyNode M fuel hash visited = .ok (b, v1) ∧ v1.Nodup) ∧
    ((∃ s1 v1, deleteNode fuel hash s visited = .ok (s1, v1) ∧ v1.Nodup) ∨
      (deleteNode fuel hash s visited = .error .indexOutOfRange ∧
        ¬ NoEmptyNode s.MerkleMap)) := by
  constructor
  · have hlt : unvisited (mapKeys M) visited < fuel := by
      have h1 := unvisited_le (mapKeys M) visited
      have h2 : (mapKeys M).length = M.length := by simp [mapKeys]
      omega
    obtain ⟨b, v1, hr⟩ := verifyNode_total M fuel hash visited hlt
    exact ⟨b, v1, hr, verifyNode_nodup M fuel hash visited b v1 hr hnd⟩
  · have hlt : unvisited (mapKeys s.MerkleMap) visited < fuel := by
      have h1 := unvisited_le (mapKeys s.MerkleMap) visited
      have h2 : (mapKeys s.MerkleMap).length = s.MerkleMap.length := by simp [mapKeys]
      omega
    rcases deleteNode_total (mapKeys s.MerkleMap) fuel hash s visited
      (fun k node hk => mapGet_mem_keys _ k node hk) hlt with ⟨s1, v1, hr⟩ | hpanic
    · exact Or.inl ⟨s1, v1, hr, deleteNode_nodup fuel hash s visited s1 v1 hr hnd⟩
    · exact Or.inr hpanic

/-- The traversals of a store whose node refers to its own key, with the fuel
that `VerifyMerkle` and `DeleteMerkleTree` give them. -/
theorem traversals_terminate_witness :
    ([] : List Bytes).Nodup ∧ selfLoopStore.MerkleMap.length < 2 ∧
    ((∃ b v1, verifyNode selfLoopStore.MerkleMap 2 (List.replicate 32 0) [] = .ok (b, v1) ∧
        v1.Nodup) ∧
      ((∃ s1 v1, deleteNode 2 (List.replicate 32 0) selfLoopStore [] = .ok (s1, v1) ∧
          v1.Nodup) ∨
        (deleteNode 2 (List.replicate 32 0) selfLoopStore [] = .error .indexOutOfRange ∧
          ¬ NoEmptyNode selfLoopStore.MerkleMap))) :=
  ⟨List.nodup_nil, by decide,
    traversals_terminate selfLoopStore.MerkleMap selfLoopStore (List.replicate 32 0) [] 2
      List.nodup_nil (by decide) (by decide)⟩

/-! ## Root histories -/

/-- `AddListRoot` called on the list that `MyListroots` still holds: the oldest
root, when one is displaced, is found in `MyListroots`, so `DeleteMerkleTree` is
not called and the store is unchanged. -/
theorem AddListRoot_own_history (H : List Peer) (P : GoMap Nat) (my : List Bytes)
    (newRoot : Bytes) (s : MerkleState) :
    AddListRoot H P my my newRoot s
      = .ok (if my.length < 3 then my ++ [newRoot] else (my ++ [newRoot]).tail, s, none) := by
  unfold AddListRoot
  simp only [List.length_append, List.length_singleton]
  by_cases hlen : my.length < 3
  · rw [if_neg (by omega), if_pos hlen]
  · rw [if_pos (by omega), if_neg hlen]
    cases my with
    | nil => simp at hlen
    | cons a t =>
      simp only [List.cons_append, List.tail_cons, List.any_cons, bytesEqual, decide_True,
        Bool.true_or, if_true]
      split <;> rfl

/-- The list that `AddListRoot` returns for a history of at most three roots:
the last three entries of the history followed by the new root, or all of them
when there are fewer. -/
theorem AddListRoot_history (H : List Peer) (P : GoMap Nat) (my history : List Bytes)
    (newRoot : Bytes) (s s1 : MerkleState) (l : List Bytes) (d : Option Bytes)
    (hlen : history.length ≤ 3)
    (h : AddListRoot H P my history newRoot s = .ok (l, s1, d)) :
    l = (history ++ [newRoot]).drop (history.length + 1 - min 3 (history.length + 1)) := by
  unfold AddListRoot at h
  simp only [List.length_append, List.length_singleton] at h
  by_cases h3 : history.length = 3
  · rw [if_pos (by omega)] at h
    have hd : history.length + 1 - min 3 (history.length + 1) = 1 := by omega
    rw [hd]
    cases history with
    | nil => simp at h3
    | cons a t =>
      simp only [List.cons_append, List.drop_succ_cons, List.drop_zero]
      simp only [List.cons_append] at h
      repeat (any_goals (split at h))
      all_goals (cases h)
      all_goals rfl
  · rw [if_neg (by omega)] at h
    have hd : history.length + 1 - min 3 (history.length + 1) = 0 := by omega
    rw [hd]
    simp only [Except.ok.injEq, Prod.mk.injEq] at h
    exact h.1.symm

/-- Claim C24 fails in the code.  `UpdateMyMerkle` passes `MyListroots` to
`AddListRoot` and assigns the result afterwards, so the displaced root is still
in `MyListroots` when `AddListRoot` looks for it there: `DeleteMerkleTree` is
never called, whatever the peers and the history, and the store after
`UpdateMyMerkle` is the store that `BuildMerkleNode` left.  After four updates
of a data directory, with no peer, the history holds the last three roots,
`DeleteMerkleTree` was not called, and the root node of the first, displaced,
tree is still in the store. -/
theorem UpdateMyMerkle_never_deletes (Sha : Bytes → Bytes) (H : List Peer) (P : GoMap Nat)
    (t : FsNode) (g : LocalRoots) (newRoot : Bytes) :
    AddListRoot H P g.MyListroots g.MyListroots newRoot g.Store
      = .ok (if g.MyListroots.length < 3 then g.MyListroots ++ [newRoot]
             else (g.MyListroots ++ [newRoot]).tail, g.Store, none) ∧
    (UpdateMyMerkle Sha H P t g).map (fun r => (r.1.Store, r.2))
      = (BuildMerkleNode Sha t g.Store).map (fun r => (r.2, none)) ∧
    (updateAll sampleSha [] [] sampleDirs
        { RootHash := [], MyListroots := [], Store := MerkleState.empty }).map
      (fun r => (r.1.MyListroots, r.2,
        mapGet r.1.Store.MerkleMap (List.replicate 31 0 ++ [166])))
      = .ok ([List.replicate 31 0 ++ [167], List.replicate 31 0 ++ [168],
              List.replicate 31 0 ++ [169]], [],
             some (Directory :: (padTo32 [97] ++ (List.replicate 31 0 ++ [3])))) := by
  refine ⟨AddListRoot_own_history H P g.MyListroots newRoot g.Store, ?_, ?_⟩
  · unfold UpdateMyMerkle
    cases hb : BuildMerkleNode Sha t g.Store with
    | error e => rfl
    | ok r =>
      obtain ⟨racine, Store⟩ := r
      simp only []
      split
      · rfl
      · rw [AddListRoot_own_history]
        rfl
  · set_option maxRecDepth 100000 in rfl

/-- Claim C29 fails in the code.  The list that `AddListRoot` returns for a
history of at most three roots is made of its last entries followed by the new
root, at most three in all.  But the root that it displaces is looked for only
among the current roots of the peers and in `MyListroots`, not in the list that
it returns: for the history R1, R2, R1 and the new root R3, when no peer has
R1 as its current root and R1 is not a local root, `DeleteMerkleTree` is called
on R1, which is still in the returned history R2, R1, R3. -/
theorem AddListRoot_deletes_listed_root (H : List Peer) (P : GoMap Nat) (my : List Bytes)
    (R1 R2 R3 : Bytes) (s s1 : MerkleState)
    (hpeers : ∀ e ∈ P, ∀ p, H.get? e.2 = some p → p.Root.getD [] ≠ R1)
    (hmy : R1 ∉ my) (hdel : DeleteMerkleTree R1 s = .ok s1) :
    AddListRoot H P my [R1, R2, R1] R3 s = .ok ([R2, R1, R3], s1, some R1) ∧
    R1 ∈ [R2, R1, R3] := by
  constructor
  · unfold AddListRoot
    have hp : P.any (fun e =>
        match H.get? e.2 with
        | some p => bytesEqual (p.Root.getD []) R1
        | none => false) = false := by
      rw [List.any_eq_false]
      intro e he
      cases hg : H.get? e.2 with
      | none => simp
      | some p => simpa [bytesEqual] using hpeers e he p hg
    have hm : my.any (fun l => bytesEqual l R1) = false := by
      rw [List.any_eq_false]
      intro l hl
      simp only [bytesEqual, decide_eq_true_eq]
      intro he
      exact hmy (he ▸ hl)
    simp only [List.cons_append, List.nil_append, List.length_cons, List.length_nil]
    rw [if_pos (by decide)]
    simp only [hp, hm, hdel, Bool.false_eq_true, if_false]
  · simp

/-- The peer of `sampleRootsState` announces the roots R1, R2, R1, R3 of the
three one-chunk trees of the store: the last call of `AddListRoot` deletes the
tree of R1, and after the four calls of `AddRootToPeer` the history of the peer
is R2, R1, R3 and the store has no node for R1. -/
theorem AddListRoot_deletes_listed_root_witness :
    (AddListRoot [{ samplePeer with Root := some (sampleSha [0, 3]) }] [([112], 0)] []
        [sampleSha [0, 1], sampleSha [0, 2], sampleSha [0, 1]] (sampleSha [0, 3])
        sampleRootsState.Store
      = .ok ([sampleSha [0, 2], sampleSha [0, 1], sampleSha [0, 3]],
          fillAll sampleSha [[0, 2], [0, 3]] MerkleState.empty, some (sampleSha [0, 1])) ∧
      sampleSha [0, 1] ∈ [sampleSha [0, 2], sampleSha [0, 1], sampleSha [0, 3]]) ∧
    (addRoots [] 0 [sampleSha [0, 1], sampleSha [0, 2], sampleSha [0, 1], sampleSha [0, 3]]
        sampleRootsState).map
      (fun st => (st.PeerHeap.map (fun p => p.Listroots),
        mapGet st.Store.MerkleMap (sampleSha [0, 1])))
      = .ok ([[sampleSha [0, 2], sampleSha [0, 1], sampleSha [0, 3]]], none) :=
  ⟨AddListRoot_deletes_listed_root [{ samplePeer with Root := some (sampleSha [0, 3]) }]
      [([112], 0)] [] (sampleSha [0, 1]) (sampleSha [0, 2]) (sampleSha [0, 3])
      sampleRootsState.Store (fillAll sampleSha [[0, 2], [0, 3]] MerkleState.empty)
      (by decide) (by decide) (by set_option maxRecDepth 100000 in rfl),
    by set_option maxRecDepth 100000 in rfl⟩

/-! ## Replies -/

theorem sampleHelloFrame_eq :
    BuildHello sampleSigner 9 1 [112] Hello = .ok sampleHelloFrame := by
  rfl

theorem resolveTransaction_eq (id : Nat) (T : TxTable) (tx : Transaction)
    (h : txGet T id = some tx) :
    resolveTransaction id T
      = (some { tx with State := .TxDone }, (resolveTransaction id T).2) := by
  unfold resolveTransaction; rw [h]

theorem get?_set_self (H : List Peer) (p : Nat) (peer q : Peer)
    (h : H.get? p = some peer) : (H.set p q).get? p = some q := by
  have hlt : p < H.length := by
    rcases Nat.lt_or_ge p H.length with hl | hl
    · exact hl
    · rw [List.get?_eq_none.mpr hl] at h; cases h
  rw [List.get?_eq_getElem?, List.getElem?_set_self hlt]

/-- The result of `HandleHelloReply` on a reply that matches a transaction
with a peer, whose signature verifies, when the body of the request does not
ask for encryption or the peer is the directory server: the transaction is
resolved and, when the request was a Hello, `connectPeer` is applied. -/
theorem HandleHelloReply_plain (Sha : Bytes → Bytes)
    (ecdsaVerify : Option Bytes → Bytes → Bytes → Except Fault Bool)
    (ecdh : Bytes → Bytes → Except Fault Bytes) (now : Int) (id : Nat)
    (signed sig : Option Bytes) (st : ClientState) (tx : Transaction) (p : Nat) (peer : Peer)
    (htx : txGet st.Transactions id = some tx) (hp : tx.Peer = some p)
    (hpeer : st.PeerHeap.get? p = some peer)
    (hsig : VerifyMessage Sha ecdsaVerify peer.PublicKey signed sig = .ok (some true))
    (hbody : (getBody tx.Msg).2.2 = true)
    (hplain : IsChiffrementEnabled (getBody tx.Msg).1 = false ∨ peer.Name = NameofServeurUDP) :
    HandleHelloReply Sha ecdsaVerify ecdh now id signed sig st
      = if tx.MsgType ≠ Hello then
          .ok ({ st with Transactions := (resolveTransaction id st.Transactions).2 }, false)
        else
          match connectPeer now p
              { st with Transactions := (resolveTransaction id st.Transactions).2 } with
          | .error e => .error e
          | .ok st1 => .ok (st1, false) := by
  unfold HandleHelloReply
  rw [resolveTransaction_eq id st.Transactions tx htx]
  simp only [hp, hpeer, hsig, hbody, Bool.not_true, Bool.false_eq_true, if_false]
  have hcond : (!IsChiffrementEnabled (getBody tx.Msg).1 ||
      decide (peer.Name = NameofServeurUDP)) = true := by
    rcases hplain with h | h
    · simp [h]
    · simp [h]
  rw [if_pos hcond]
  unfold handlePlainHelloReply
  by_cases ht : tx.MsgType = Hello
  · simp only [ht, ne_eq, not_true_eq_false, if_false, hpeer]
  · simp only [ht, ne_eq, not_false_eq_true, if_true]

/-- Claim C21 fails in the code.  `HandleHelloReply` accepts a correctly signed
HelloReply that matches a pending Hello transaction whose request did not ask
for encryption, for a peer that is in state WaitHelloNat or Expired: it
returns without an error and reports the event Connected to the callback, but
`connectPeer` changes the state of a peer only when it is Discovered, so the
peer is left as it was, in state WaitHelloNat or Expired, not Associated. -/
theorem HandleHelloReply_not_associated (Sha : Bytes → Bytes)
    (ecdsaVerify : Option Bytes → Bytes → Bytes → Except Fault Bool)
    (ecdh : Bytes → Bytes → Except Fault Bytes) (now : Int) (id : Nat)
    (signed sig : Option Bytes) (st : ClientState) (tx : Transaction) (p : Nat) (peer : Peer)
    (htx : txGet st.Transactions id = some tx) (htype : tx.MsgType = Hello)
    (hp : tx.Peer = some p) (hpeer : st.PeerHeap.get? p = some peer)
    (hsig : VerifyMessage Sha ecdsaVerify peer.PublicKey signed sig = .ok (some true))
    (hbody : (getBody tx.Msg).2.2 = true)
    (hplain : IsChiffrementEnabled (getBody tx.Msg).1 = false)
    (hstate : peer.State = .PeerWaitHelloNat ∨ peer.State = .PeerExpired) :
    ∃ st1, HandleHelloReply Sha ecdsaVerify ecdh now id signed sig st = .ok (st1, false) ∧
      st1.PeerHeap.get? p = some peer ∧ peer.State ≠ .PeerAssociated ∧
      st1.Events = st.Events ++
        (if st.observer then [{ Peer := p, Event := .EventConnected }] else []) ∧
      txGet st1.Transactions id = some { tx with State := .TxDone } := by
  have hnd : peer.State ≠ .PeerDiscovered := by
    rcases hstate with h | h <;> rw [h] <;> decide
  have hna : peer.State ≠ .PeerAssociated := by
    rcases hstate with h | h <;> rw [h] <;> decide
  rw [HandleHelloReply_plain Sha ecdsaVerify ecdh now id signed sig st tx p peer htx hp hpeer
    hsig hbody (Or.inl hplain)]
  have hdone := (resolveTransaction_found id st.Transactions tx htx).2
  rw [if_neg (fun h => h htype)]
  unfold connectPeer
  simp only [hpeer, hnd, if_false]
  by_cases hobs : st.observer = true
  · simp only [hobs, if_true]
    exact ⟨_, rfl, hpeer, hna, rfl, hdone⟩
  · simp only [hobs, if_false, Bool.false_eq_true]
    exact ⟨_, rfl, hpeer, hna, by simp, hdone⟩

/-- The HelloReply of the expired peer of `sampleHelloState` to the Hello of
transaction 9: the event Connected is reported and the peer is still in state
Expired. -/
theorem HandleHelloReply_not_associated_witness :
    ∃ st1, HandleHelloReply sampleSha sampleVerify sampleEcdh (3 * Second) 9
        (some [0, 0, 0, 9, 130, 0, 5, 0, 0, 0, 1, 112]) (some (List.replicate 64 9))
        sampleHelloState = .ok (st1, false) ∧
      st1.PeerHeap.get? 0 = some { samplePeer with
        ActiveAddr := some sampleAddr, State := .PeerExpired,
        PublicKey := some (List.replicate 64 1) } ∧
      ({ samplePeer with
        ActiveAddr := some sampleAddr, State := .PeerExpired,
        PublicKey := some (List.replicate 64 1) } : Peer).State ≠ .PeerAssociated ∧
      st1.Events = sampleHelloState.Events ++
        (if sampleHelloState.observer then [{ Peer := 0, Event := .EventConnected }]
         else []) ∧
      txGet st1.Transactions 9
        = some { { sampleHelloTx with Msg := sampleHelloFrame } with State := .TxDone } :=
  HandleHelloReply_not_associated sampleSha sampleVerify sampleEcdh (3 * Second) 9
    (some [0, 0, 0, 9, 130, 0, 5, 0, 0, 0, 1, 112]) (some (List.replicate 64 9))
    sampleHelloState { sampleHelloTx with Msg := sampleHelloFrame } 0 _ rfl rfl rfl rfl
    (by rfl) (by decide) (by decide) (Or.inr rfl)

/-- Claim C30 fails in the code.  Transaction 5 of `sampleDatumState` is a
pending DatumRequest.  A RootReply of id 5, which does not answer a
DatumRequest, does not leave it in its previous state: after `HandleRootReply`
the transaction is Done, and the scan of `CleanupTransactions`, run at the very
instant the request was sent, removes it from the table instead of keeping it
for a retry. -/
theorem mismatched_response_counterexample :
    (txGet sampleDatumState.Transactions 5).map (fun tx => (tx.MsgType, tx.State))
      = some (DatumRequest, .TxPending) ∧
    (HandleRootReply sampleSha sampleResolve sampleKeys sampleVerify [] 5 (some sampleAddr)
        none none [] sampleDatumState).map
      (fun st => (txGet st.Transactions 5).map (fun tx => (tx.MsgType, tx.State)))
      = .ok (some (DatumRequest, .TxDone)) ∧
    ((HandleRootReply sampleSha sampleResolve sampleKeys sampleVerify [] 5 (some sampleAddr)
        none none [] sampleDatumState).bind
      (fun st => cleanupScan 0 st.Transactions st.PeerHeap)).map (fun r => r.1)
      = .ok [] := by
  refine ⟨by rfl, by rfl, by rfl⟩

/-- Claim C30, amended: a response resolves the transaction that has its id
whatever the type of the request.  Every handler of a response calls
`resolveTransaction` first, which marks the transaction of that id Done, and
compares the type of the request afterwards.  So a Datum or a NoDatum for a
transaction that is not a DatumRequest, a RootReply for one that is not a
RootRequest, and a correctly signed HelloReply, on the path without
encryption, for a transaction with a peer that is not a Hello, change nothing
but the state of that transaction, which becomes Done; the next scan of
`CleanupTransactions` then removes it without resending it. -/
theorem mismatched_response_marks_done (Sha : Bytes → Bytes)
    (resolve : Bytes → Option UDPAddr) (decryptAESGCM : Bytes → Bytes → Option Bytes)
    (GetPeerKey : Bytes → Option Bytes)
    (ecdsaVerify : Option Bytes → Bytes → Bytes → Except Fault Bool)
    (ecdh : Bytes → Bytes → Except Fault Bytes) (MyListroots : List Bytes)
    (id : Nat) (st : ClientState) (tx : Transaction)
    (htx : txGet st.Transactions id = some tx) :
    (tx.MsgType ≠ DatumRequest → ∀ addr body,
      HandleDatum Sha resolve decryptAESGCM id addr body st
        = .ok { st with Transactions := (resolveTransaction id st.Transactions).2 }) ∧
    (tx.MsgType ≠ DatumRequest → ∀ addr signed sig,
      HandleNoDatum Sha resolve GetPeerKey ecdsaVerify id addr signed sig st
        = .ok { st with Transactions := (resolveTransaction id st.Transactions).2 }) ∧
    (tx.MsgType ≠ RootRequest → ∀ addr signed sig body,
      HandleRootReply Sha resolve GetPeerKey ecdsaVerify MyListroots id addr signed sig body st
        = .ok { st with Transactions := (resolveTransaction id st.Transactions).2 }) ∧
    (tx.MsgType ≠ Hello → ∀ now signed sig p peer, tx.Peer = some p →
      st.PeerHeap.get? p = some peer →
      VerifyMessage Sha ecdsaVerify peer.PublicKey signed sig = .ok (some true) →
      (getBody tx.Msg).2.2 = true →
      IsChiffrementEnabled (getBody tx.Msg).1 = false ∨ peer.Name = NameofServeurUDP →
      HandleHelloReply Sha ecdsaVerify ecdh now id signed sig st
        = .ok ({ st with Transactions := (resolveTransaction id st.Transactions).2 },
            false)) ∧
    txGet (resolveTransaction id st.Transactions).2 id = some { tx with State := .TxDone } ∧
    ∀ now H, scanTransaction now { tx with State := .TxDone } H = .ok (none, H) := by
  have hres := resolveTransaction_eq id st.Transactions tx htx
  refine ⟨?_, ?_, ?_, ?_, (resolveTransaction_found id st.Transactions tx htx).2, ?_⟩
  · intro ht addr body
    unfold HandleDatum
    rw [hres]
    simp only [ne_eq, ht, not_false_eq_true, if_true]
  · intro ht addr signed sig
    unfold HandleNoDatum
    rw [hres]
    simp only [ne_eq, ht, not_false_eq_true, if_true]
  · intro ht addr signed sig body
    unfold HandleRootReply
    rw [hres]
    simp only [ne_eq, ht, not_false_eq_true, if_true]
  · intro ht now signed sig p peer hp hpeer hsig hbody hplain
    rw [HandleHelloReply_plain Sha ecdsaVerify ecdh now id signed sig st tx p peer htx hp
      hpeer hsig hbody hplain, if_pos ht]
  · intro now H
    unfold scanTransaction
    rw [if_pos rfl]

/-- A RootReply, a Datum and a NoDatum of id 5 for the pending DatumRequest
transaction 5 of `sampleDatumState`: the RootReply leaves the state as it was
but for that transaction, which is Done. -/
theorem mismatched_response_marks_done_witness :
    HandleRootReply sampleSha sampleResolve sampleKeys sampleVerify [] 5 (some sampleAddr)
        none none [] sampleDatumState
      = .ok { sampleDatumState with
          Transactions := (resolveTransaction 5 sampleDatumState.Transactions).2 } ∧
    txGet (resolveTransaction 5 sampleDatumState.Transactions).2 5
      = some { Id := 5, Peer := some 0, Addr := some sampleAddr, MsgType := DatumRequest,
               SentAt := 0, Retries := 6, Timeout := Second,
               Msg := [0, 0, 0, 5, 3, 0, 32] ++ List.replicate 32 0,
               State := .TxDone, DhPriv := none } :=
  ⟨(mismatched_response_marks_done sampleSha sampleResolve sampleDecrypt sampleKeys
      sampleVerify sampleEcdh [] 5 sampleDatumState _ rfl).2.2.1 (by decide)
      (some sampleAddr) none none [],
    (mismatched_response_marks_done sampleSha sampleResolve sampleDecrypt sampleKeys
      sampleVerify sampleEcdh [] 5 sampleDatumState _ rfl).2.2.2.2.1⟩

/-! ## Requests -/

/-- What `parseRecvMessage` returns when it accepts a packet. -/
theorem parseRecvMessage_inv (pkt : Bytes) (p : Parsed)
    (h : parseRecvMessage pkt = .ok p) (hok : p.ok = true) :
    7 + declaredLen pkt ≤ pkt.length ∧ p.id = bigEndianUint32 (slice pkt 0 4) ∧
    p.typ = pkt.getD 4 0 ∧ p.bodyLen = declaredLen pkt ∧
    p.body = slice pkt 7 (7 + declaredLen pkt) := by
  by_cases hlen : pkt.length < 7 + declaredLen pkt
  · rw [parseRecvMessage_truncated pkt hlen] at h
    cases h
    cases hok
  · have hle : 7 + declaredLen pkt ≤ pkt.length := by omega
    rw [parseRecvMessage_complete pkt (by omega) hle] at h
    cases h
    exact ⟨hle, rfl, rfl, rfl, rfl⟩

theorem slice_length_of_le (b : Bytes) (lo hi : Nat) (h : hi ≤ b.length) :
    (slice b lo hi).length = hi - lo := by
  unfold slice
  simp only [List.length_take, List.length_drop]
  omega

/-- The body and what follows it make up the packet after its header. -/
theorem body_room_length (pkt : Bytes) (p : Parsed)
    (h : parseRecvMessage pkt = .ok p) (hok : p.ok = true) :
    p.body.length = p.bodyLen ∧
    p.body.length + (pkt.drop (OffsetBody + p.bodyLen)).length = pkt.length - 7 := by
  obtain ⟨hle, -, -, hl, hb⟩ := parseRecvMessage_inv pkt p h hok
  have h1 : p.body.length = p.bodyLen := by
    rw [hb, hl, slice_length_of_le pkt 7 _ hle]
    omega
  refine ⟨h1, ?_⟩
  rw [h1, List.length_drop, hl]
  unfold OffsetBody
  omega

/-- Claim C25 fails in the code.  For every frame that `parseRecvMessage`
accepts, `ParseNATBody`, called as the handlers call it with the declared
length of the body converted to 8 bits, depends on that length modulo 256
only: it returns the address made of the first 6 bytes of the body when the
length is 6 modulo 256 (6, 262, 518, ...), the address made of its first 18
bytes when the length is 18 modulo 256 (18, 274, ...), and an error
otherwise.  So a body of 262 bytes is accepted as an IPv4 address. -/
theorem ParseNATBody_length_modulo (pkt : Bytes) (p : Parsed)
    (h : parseRecvMessage pkt = .ok p) (hok : p.ok = true) :
    ParseNATBody p.body (pkt.drop (OffsetBody + p.bodyLen)) (uint8 p.bodyLen)
      = .ok (if p.bodyLen % 256 = 6 then
               some { IP := slice p.body 0 4, Port := bigEndianUint16 (slice p.body 4 6) }
             else if p.bodyLen % 256 = 18 then
               some { IP := slice p.body 0 16, Port := bigEndianUint16 (slice p.body 16 18) }
             else none) := by
  obtain ⟨hlen, -⟩ := body_room_length pkt p h hok
  unfold ParseNATBody uint8
  have h256 : (2 : Nat) ^ 8 = 256 := by norm_num
  rw [h256]
  by_cases h6 : p.bodyLen % 256 = 6
  · have hge : 6 ≤ p.body.length := by omega
    rw [if_pos h6, if_pos h6]
    unfold sliceCap
    rw [if_pos ⟨by omega, by omega⟩, if_pos ⟨by omega, by omega⟩]
    simp only []
    rw [slice_append_of_le _ _ 0 4 (by omega), slice_append_of_le _ _ 4 6 (by omega)]
  · rw [if_neg h6, if_neg h6]
    by_cases h18 : p.bodyLen % 256 = 18
    · have hge : 18 ≤ p.body.length := by omega
      rw [if_pos h18, if_pos h18]
      unfold sliceCap
      rw [if_pos ⟨by omega, by omega⟩, if_pos ⟨by omega, by omega⟩]
      simp only []
      rw [slice_append_of_le _ _ 0 16 (by omega), slice_append_of_le _ _ 16 18 (by omega)]
    · rw [if_neg h18, if_neg h18]

/-- The frame `sampleNatFrame`, whose body is 262 bytes long, is accepted by
`parseRecvMessage`, and `ParseNATBody` returns the address 10.0.0.9, port 80,
for it. -/
theorem ParseNATBody_length_modulo_witness :
    parseRecvMessage sampleNatFrame = .ok sampleNatParsed ∧ sampleNatParsed.ok = true ∧
    sampleNatParsed.bodyLen = 262 ∧
    ParseNATBody sampleNatParsed.body
        (sampleNatFrame.drop (OffsetBody + sampleNatParsed.bodyLen))
        (uint8 sampleNatParsed.bodyLen)
      = .ok (if sampleNatParsed.bodyLen % 256 = 6 then
               some { IP := slice sampleNatParsed.body 0 4,
                      Port := bigEndianUint16 (slice sampleNatParsed.body 4 6) }
             else if sampleNatParsed.bodyLen % 256 = 18 then
               some { IP := slice sampleNatParsed.body 0 16,
                      Port := bigEndianUint16 (slice sampleNatParsed.body 16 18) }
             else none) ∧
    ParseNATBody sampleNatParsed.body
        (sampleNatFrame.drop (OffsetBody + sampleNatParsed.bodyLen))
        (uint8 sampleNatParsed.bodyLen)
      = .ok (some { IP := [10, 0, 0, 9], Port := 80 }) :=
  ⟨by set_option maxRecDepth 100000 in rfl, rfl, rfl,
    ParseNATBody_length_modulo sampleNatFrame sampleNatParsed
      (by set_option maxRecDepth 100000 in rfl) rfl,
    by set_option maxRecDepth 100000 in rfl⟩

/-- Claim C27 fails in the code.  A DatumRequest frame that `parseRecvMessage`
accepts and that is shorter than 39 bytes, received from a sender that is not
banned, makes `HandleDatumRequest` panic: `body[:HashSize]` asks for 32 bytes
and the capacity of the body, which is what the packet holds after its header,
is below 32.  So does the loop of `RequestHandler` on that packet, whatever the
state of the node. -/
theorem HandleDatumRequest_short_packet (SignMessage : Bytes → Except String Bytes)
    (Sha : Bytes → Bytes) (resolve : Bytes → Option UDPAddr)
    (GetPeerKey : Bytes → Option Bytes) (encryptAESGCM : Bytes → Bytes → Option Bytes)
    (onHello onNat onNat2 : Parsed → Bytes → UDPAddr → NodeState → Except Fault NodeState)
    (now : Int) (pkt : Bytes) (addr : UDPAddr) (st : NodeState) (p : Parsed)
    (h : parseRecvMessage pkt = .ok p) (hok : p.ok = true) (htyp : p.typ = DatumRequest)
    (hshort : pkt.length < HeaderSize + HashSize) (hban : IsBanByaddr st addr = false) :
    HandleDatumRequestWrapper SignMessage Sha resolve encryptAESGCM p.id addr p.body
        (pkt.drop (OffsetBody + p.bodyLen)) st = .error .indexOutOfRange ∧
    RequestHandler SignMessage Sha resolve GetPeerKey encryptAESGCM onHello onNat onNat2
        now pkt addr st = .error .indexOutOfRange := by
  obtain ⟨-, hroom⟩ := body_room_length pkt p h hok
  have hw : HandleDatumRequestWrapper SignMessage Sha resolve encryptAESGCM p.id addr p.body
      (pkt.drop (OffsetBody + p.bodyLen)) st = .error .indexOutOfRange := by
    unfold HandleDatumRequestWrapper HandleDatumRequest sliceCap
    rw [hban]
    have hcap : ¬ (0 ≤ HashSize ∧
        HashSize ≤ p.body.length + (pkt.drop (OffsetBody + p.bodyLen)).length) := by
      unfold HeaderSize OffsetBody HashSize at *
      omega
    simp only [Bool.false_eq_true, if_false, hcap]
  refine ⟨hw, ?_⟩
  unfold RequestHandler
  rw [h]
  simp only [hok, Bool.not_true, Bool.false_eq_true, if_false]
  have h1 : p.typ ≠ NatTraversalRequest := by rw [htyp]; decide
  have h2 : p.typ ≠ NatTraversalRequest2 := by rw [htyp]; decide
  have h3 : p.typ ≠ Hello := by rw [htyp]; decide
  have h4 : p.typ ≠ RootRequest := by rw [htyp]; decide
  have h5 : p.typ ≠ Ping := by rw [htyp]; decide
  rw [if_neg h1, if_neg h2, if_neg h3, if_neg h4, if_neg h5, if_pos htyp, hw]

/-- The packet of 7 bytes of type 3 that declares an empty body, received by
the peer of the sample node, which is not banned. -/
theorem HandleDatumRequest_short_packet_witness :
    parseRecvMessage [0, 0, 0, 0, 3, 0, 0]
      = .ok { id := 0, typ := DatumRequest, bodyLen := 0, body := [], signed := none,
              sig := none, ok := true } ∧
    HandleDatumRequestWrapper sampleSigner sampleSha sampleResolve sampleEncrypt 0 sampleAddr
        [] (([0, 0, 0, 0, 3, 0, 0] : Bytes).drop (OffsetBody + 0))
        { sampleBanState with ban := [] } = .error .indexOutOfRange ∧
    RequestHandler sampleSigner sampleSha sampleResolve sampleKeys sampleEncrypt
        sampleHandler sampleHandler sampleHandler 0 [0, 0, 0, 0, 3, 0, 0] sampleAddr
        { sampleBanState with ban := [] } = .error .indexOutOfRange :=
  ⟨rfl, HandleDatumRequest_short_packet sampleSigner sampleSha sampleResolve sampleKeys
    sampleEncrypt sampleHandler sampleHandler sampleHandler 0 [0, 0, 0, 0, 3, 0, 0]
    sampleAddr { sampleBanState with ban := [] }
    { id := 0, typ := DatumRequest, bodyLen := 0, body := [], signed := none,
      sig := none, ok := true } rfl rfl rfl (by decide) (by rfl)⟩

end Myp2p
